import Mathlib

/-!
Verification development for the gcpp deferred-heap library.

Each C++ component that the specification describes is embedded as a Lean
definition translated from the source:

* `bitflags` — the dense bit-vector of bitflags.h, with its word-level
  storage (`unsigned int` units of 32 bits modelled as natural numbers
  below 2^32), `get`, `set`, `set_all`, `all_false` and `find_next`.
* `destructors` — the type-erased destructor table of deferred_heap.h.
* `gpage` — the fixed-extent arena page of gpage.h with its `inuse` and
  `starts` bitmaps, `allocate`, `deallocate`, `contains_info` and
  `location_info`.  C++ `size_t` arithmetic that can wrap is modelled with
  explicit reduction modulo 2^64; contract violations (failed `Expects`)
  are modelled as an explicit `fault` outcome.
* `deferred_heap` — pages, roots, interior-pointer lists, the destructor
  table and the mark/sweep collector `collect`.
* `deferred_ptr` — the smart-pointer value state and its arithmetic.
-/

set_option maxHeartbeats 1000000

namespace Gcpp

/-! ### destructors (deferred_heap.h, class destructors) -/

/-- One type-erased destructor record: the object address `p` and the
function pointer `destroy` (identified here by a numeric id, since the
lambda only depends on the erased type). -/
structure destructor where
  p : Nat
  destroy : Nat
  deriving DecidableEq, Repr

/-- The destructor table: a growable vector of records. -/
structure destructors where
  dtors : List destructor
  deriving DecidableEq, Repr

/-- `store` appends one record (`dtors.push_back`) for an object with a
non-trivial destructor. -/
def destructors.store (d : destructors) (rec : destructor) : destructors :=
  ⟨d.dtors ++ [rec]⟩

/-- The invocation sequence of the `for (auto& d : dtors) d.destroy(d.p);`
loop of `run_all`: records are invoked front to back. -/
def destructors.run_seq : List destructor → List destructor
  | [] => []
  | d :: rest => d :: destructors.run_seq rest

/-- `run_all`: run every destructor in the table (in the order the range-for
loop visits them), then `dtors.clear()`.  Returns the invocation sequence
together with the table left behind. -/
def destructors.run_all (d : destructors) : List destructor × destructors :=
  (destructors.run_seq d.dtors, ⟨[]⟩)

/-! ### bitflags (bitflags.h), word-level -/

namespace bitflags

/-- Number of bits in the storage unit (`unsigned int`). -/
def bits_per_unit : Nat := 32

/-- 2^32, one past the largest storable unit value. -/
def unitBound : Nat := 2 ^ 32

/-- all_bits: a unit with every bit set, or none. -/
def all_bits (b : Bool) : Nat := if b then unitBound - 1 else 0

/-- Bitwise complement on a 32-bit unit (C++ `~mask` on `unsigned int`). -/
def compl32 (x : Nat) : Nat := x ^^^ (unitBound - 1)

/-- bit_mask: the mask selecting bit `at % 32` inside its unit. -/
def bit_mask (i : Nat) : Nat := 1 <<< (i % 32)

/-- unit_count: units needed for a number of bits. -/
def unit_count (bit_count : Nat) : Nat := (bit_count + 31) / 32

end bitflags

/-- The bit-flag vector: `size` flags stored in an array of 32-bit units. -/
structure bitflags where
  size : Nat
  bits : List Nat
  deriving DecidableEq, Repr

namespace bitflags

/-- bit_unit: the storage word containing bit `i`. -/
def bit_unit (bf : bitflags) (i : Nat) : Nat := bf.bits.getD (i / 32) 0

/-- `get(at)`: `(bit_unit(at) & bit_mask(at)) != unit(0)`. -/
def get (bf : bitflags) (i : Nat) : Bool := (bit_unit bf i &&& bit_mask i) != 0

/-- `set(at, value)`: or in, or mask out, the bit inside its unit. -/
def set (bf : bitflags) (i : Nat) (v : Bool) : bitflags :=
  { bf with
    bits := bf.bits.set (i / 32)
      (if v then bit_unit bf i ||| bit_mask i
       else bit_unit bf i &&& compl32 (bit_mask i)) }

/-- `set_all(value)`: fill every unit with all_bits(value). -/
def set_all (bf : bitflags) (v : Bool) : bitflags :=
  { bf with bits := List.replicate (unit_count bf.size) (all_bits v) }

/-- The constructor `bitflags(nbits, value)`: zeroed storage, then
`set_all(true)` when `value` holds. -/
def mk_bitflags (nbits : Nat) (v : Bool) : bitflags :=
  let base : bitflags := ⟨nbits, List.replicate (unit_count nbits) 0⟩
  if v then set_all base true else base

/-- `all_false()`: every unit before the last is zero, and the last unit
masked with `bit_mask(size) - 1` is zero. -/
def all_false (bf : bitflags) : Bool :=
  (bf.bits.take (unit_count bf.size - 1)).all (fun u => u == 0)
  && ((bf.bits.getD (unit_count bf.size - 1) 0 &&& (bit_mask bf.size - 1)) == 0)

/-- The linear scans `while (get(from) != value) ++from;` inside
`find_next`.  The C++ loop is unbounded; the fuel only bounds the model and
is always instantiated large enough to contain the guaranteed match. -/
def scanUp (bf : bitflags) (v : Bool) : Nat → Nat → Nat
  | 0, i => i
  | fuel + 1, i => if get bf i = v then i else scanUp bf v fuel (i + 1)

/-- The predicate of the whole-unit `std::find_if` scan inside `find_next`:
looking for true means a nonzero unit, looking for false means a unit that
is not all ones. -/
def unit_pred (v : Bool) (w : Nat) : Bool :=
  if v then w != 0 else w != unitBound - 1

/-- The whole-unit `std::find_if` scan of `find_next`: first unit index in
`[u, toUnit)` whose word satisfies `unit_pred`, or `toUnit`. -/
def find_unit (bf : bitflags) (v : Bool) (toUnit : Nat) (u : Nat) : Nat :=
  if u < toUnit then
    (if unit_pred v (bf.bits.getD u 0) then u else find_unit bf v toUnit (u + 1))
  else toUnit
termination_by toUnit - u

/-- The check `(value && (*data & mask) != 0) || (!value && (~*data & mask) != 0)`. -/
def mask_hit (v : Bool) (w mask : Nat) : Bool :=
  (v && ((w &&& mask) != 0)) || (!v && ((compl32 w &&& mask) != 0))

/-- `find_next(from, to, value)`: partial first unit, whole units, then the
partial last unit, exactly as in bitflags.h. -/
def find_next (bf : bitflags) (lo hi : Nat) (v : Bool) : Nat :=
  if lo == hi then hi
  else
    let fromUnit := lo / 32
    let fromMod := lo % 32
    let toUnit := hi / 32
    let toMod := hi % 32
    let rest : Nat → Nat := fun startUnit =>
      let d := find_unit bf v toUnit startUnit
      if d < toUnit then scanUp bf v hi (d * 32)
      else if toMod != 0 then
        (if mask_hit v (bf.bits.getD toUnit 0) ((1 <<< toMod) - 1) then
          scanUp bf v hi (toUnit * 32)
         else hi)
      else hi
    if fromMod != 0 then
      let mask0 := (1 <<< fromMod) - 1
      let mask1 := if fromUnit == toUnit then mask0 ||| compl32 ((1 <<< toMod) - 1) else mask0
      if mask_hit v (bf.bits.getD fromUnit 0) (compl32 mask1) then
        scanUp bf v hi lo
      else if fromUnit == toUnit then hi
      else rest (fromUnit + 1)
    else rest fromUnit

/-- Well-formedness of the storage: the unit array has exactly
`unit_count size` words and each word fits in 32 bits. -/
def WF (bf : bitflags) : Prop :=
  bf.bits.length = unit_count bf.size ∧ ∀ w ∈ bf.bits, w < unitBound

end bitflags

/-! ### deferred_ptr value state and checked arithmetic (deferred_heap.h) -/

/-- The value state of a `deferred_ptr<T>`: the back pointer to the heap
(`myheap`, a heap identity or null) and the raw pointer `p` (an address or
null). -/
structure deferred_ptr where
  myheap : Option Nat
  p : Option Nat
  deriving DecidableEq, Repr

namespace deferred_ptr

/-- `operator+=(offset)` for a pointer to objects of byte size `szT`:
`set(get() + offset)` and return `*this`.  Arithmetic on a null pointer is
a contract violation (`Expects(get() != nullptr ...)`), modelled as `none`.
The remaining debug checks require the result to stay inside the same
allocation; they restrict which increments are permitted but never change
the returned value, so they are hypotheses of the theorems below. -/
def plus_eq (szT : Nat) (dp : deferred_ptr) (offset : Nat) : Option deferred_ptr :=
  match dp.p with
  | none => none
  | some a => some { dp with p := some (a + offset * szT) }

/-- `operator++(int)` — the postfix increment: `return operator+=(1);`.
`operator+=` returns a reference to `*this` after the update, so the call
yields the returned pointer value together with the new state of `*this`;
both components come from the same `plus_eq` result. -/
def inc_post (szT : Nat) (dp : deferred_ptr) : Option (deferred_ptr × deferred_ptr) :=
  match plus_eq szT dp 1 with
  | none => none
  | some dp2 => some (dp2, dp2)

end deferred_ptr

/-! ### gpage (gpage.h) -/

/-- 2^64: one past the largest `size_t` value. -/
def SZ : Nat := 2 ^ 64

/-- `size_t` subtraction `a - b` (wraps modulo 2^64). -/
def wsub (a b : Nat) : Nat := (a + SZ - b % SZ) % SZ

/-- Set the `c` flags at positions `[lo, lo+c)` of a flag list to `v` —
the logical effect of `bitflags::set(from, to, value)`. -/
def setN (l : List Bool) (lo : Nat) (v : Bool) : Nat → List Bool
  | 0 => l
  | c + 1 => (setN l lo v c).set (lo + c) v

/-- One contiguous page: byte buffer of `total_size` bytes starting at
address `base`, chunk size `min_alloc`, and the `inuse`/`starts` bitmaps
(one flag per location).  `current_known_request_bound` is the advisory
hint. -/
structure gpage where
  total_size : Nat
  min_alloc : Nat
  base : Nat
  inuse : List Bool
  starts : List Bool
  current_known_request_bound : Nat
  deriving DecidableEq, Repr

namespace gpage

/-- `locations()`: `total_size / min_alloc`. -/
def locations (pg : gpage) : Nat := pg.total_size / pg.min_alloc

/-- The constructor `gpage(total_size_, min_alloc_)`: round the size up to
a multiple of the chunk size, allocate storage at `base`, and create the
two all-false bitmaps. -/
def mk_gpage (total_size_ min_alloc_ base : Nat) : gpage :=
  let ts := total_size_ +
    (if total_size_ % min_alloc_ > 0 then min_alloc_ - total_size_ % min_alloc_ else 0)
  { total_size := ts
    min_alloc := min_alloc_
    base := base
    inuse := List.replicate (ts / min_alloc_) false
    starts := List.replicate (ts / min_alloc_) false
    current_known_request_bound := ts }

/-- `contains(p)`: `p` points into this page's storage bytes. -/
def contains (pg : gpage) (p : Nat) : Bool :=
  decide (pg.base ≤ p ∧ p < pg.base + pg.total_size)

/-- Result of the inner window probe of `allocate`'s search loop
(`for (; j < locations_needed; ++j) ...`): a contract fault from an
out-of-range `inuse.get`, the first in-use offset `j`, or a clear window. -/
inductive probe_result where
  | fault
  | hit (j : Nat)
  | clear
  deriving DecidableEq, Repr

/-- The inner probe loop: scan offsets `j` upward from the candidate
location `i`; `left` counts the offsets still to check (the loop bound
`locations_needed - j`).  Reading `inuse` out of range is the
`Expects` fault of `bitflags::get`. -/
def probe_from (inuse : List Bool) (i : Nat) : Nat → Nat → probe_result
  | 0, _ => .clear
  | left + 1, j =>
    match inuse[i + j]? with
    | none => .fault
    | some true => .hit j
    | some false => probe_from inuse i left (j + 1)

/-- Result of `allocate`'s candidate search loop. -/
inductive search_result where
  | fault
  | notFound
  | found (i : Nat)
  deriving DecidableEq, Repr

/-- The candidate search loop of `allocate`: while `i < endv`, probe the
window at `i`; on an in-use hit at offset `j`, bump `i` by
`(j - j % S) + S` (the loop body's `i += j - j % locations_step` plus the
loop increment) and continue.  The fuel bounds the number of iterations
and is always passed large enough (the loop advances `i` by at least
`S ≥ 1` per iteration). -/
def search_from (inuse : List Bool) (S needed endv : Nat) : Nat → Nat → search_result
  | 0, _ => .notFound
  | fuel + 1, i =>
    if i < endv then
      match probe_from inuse i needed 0 with
      | .fault => .fault
      | .clear => .found i
      | .hit j => search_from inuse S needed endv fuel (i + (j - j % S) + S)
    else .notFound

/-- Outcome of `allocate`: a contract fault (failed `Expects`), a null
return with the page in its new state, or a returned pointer with the page
in its new state. -/
inductive alloc_result where
  | fault
  | fail (pg : gpage)
  | ok (p : Nat) (pg : gpage)
  deriving DecidableEq, Repr

/-- `allocate<T>(n)` with `sizeof(T) = szT` and `alignof(T) = align`,
following gpage.h line by line: the two `Expects`, the
`bytes_needed > current_known_request_bound` fast-fail, the `std::align`
fit check, the `Expects(i == 0)` debug check, the candidate search (with
`int` `locations()` converted to `size_t` in `locations() -
locations_needed`, which wraps), and the two exits. -/
def allocate (pg : gpage) (szT align n : Nat) : alloc_result :=
  if n = 0 then .fault
  else if ¬ szT * n < SZ then .fault
  else
    let bytes_needed := szT * n
    if bytes_needed > pg.current_known_request_bound then .fail pg
    else
      let offset := (align - pg.base % align) % align
      if pg.total_size < offset + bytes_needed then .fail pg
      else
        let locations_step := wsub align 1 / pg.min_alloc + 1
        let locations_needed := (1 + wsub bytes_needed 1 / pg.min_alloc) + 1
        let endv := wsub pg.locations locations_needed
        if offset / pg.min_alloc ≠ 0 then .fault
        else
          match search_from pg.inuse locations_step locations_needed endv (endv + 1) 0 with
          | .fault => .fault
          | .notFound =>
              .fail { pg with current_known_request_bound := Nat.min pg.current_known_request_bound (wsub bytes_needed 1) }
          | .found i =>
              .ok (pg.base + i * pg.min_alloc)
                { pg with
                  starts := pg.starts.set i true
                  inuse := setN pg.inuse i true locations_needed
                  current_known_request_bound :=
                    wsub pg.current_known_request_bound (pg.min_alloc * locations_needed) }

/-- The scan for the next allocation start in `deallocate`
(`for (; next_start < locations(); ++next_start) ...`): `left` counts the
locations still to check; when it runs out the loop has reached
`locations()`. -/
def find_start (starts : List Bool) : Nat → Nat → Nat
  | 0, k => k
  | left + 1, k => if starts.getD k false then k else find_start starts left (k + 1)

/-- The clearing loop of `deallocate`
(`while (here < next_start && inuse.get(here)) { inuse.set(here, false); ++here; }`). -/
def clear_inuse (next_start : Nat) : Nat → List Bool → Nat → List Bool
  | 0, l, _ => l
  | fuel + 1, l, here =>
    if here < next_start ∧ l.getD here false then
      clear_inuse next_start fuel (l.set here false) (here + 1)
    else l

/-- `deallocate(p)`: the `Expects` checks (containment, start flag, in-use
flag) fault; otherwise clear the start flag, find the next allocation
start, spill the hint to `total_size`, and clear `inuse` from `here` up to
the first free location or the next start. -/
def deallocate (pg : gpage) (p : Nat) : Option gpage :=
  if ¬ pg.contains p then none
  else
    let here := (p - pg.base) / pg.min_alloc
    if ¬ pg.starts.getD here false then none
    else if ¬ pg.inuse.getD here false then none
    else
      let starts2 := pg.starts.set here false
      let next_start := find_start starts2 (pg.locations - (here + 1)) (here + 1)
      some { pg with
             starts := starts2
             inuse := clear_inuse next_start (next_start - here) pg.inuse here
             current_known_request_bound := pg.total_size }

/-- The backward scan of `contains_info`
(`while (start > 0 && !starts.get(start - 1)) --start;`). -/
def scan_back (starts : List Bool) : Nat → Nat
  | 0 => 0
  | s + 1 => if starts.getD s false then s + 1 else scan_back starts s

/-- `gpage_find_result`. -/
inductive gpage_find_result where
  | not_in_range
  | in_range_unallocated
  | in_range_allocated_middle
  | in_range_allocated_start
  deriving DecidableEq, Repr

/-- `contains_info_ret`. -/
structure contains_info_ret where
  found : gpage_find_result
  location : Nat
  start_location : Nat
  deriving DecidableEq, Repr

/-- `contains_info(p)`; the `Expects(start > 0)` of the backward scan is
the fault case. -/
def contains_info (pg : gpage) (p : Nat) : Option contains_info_ret :=
  if ¬ pg.contains p then some ⟨.not_in_range, 0, 0⟩
  else
    let wh := (p - pg.base) / pg.min_alloc
    if ¬ pg.inuse.getD wh false then some ⟨.in_range_unallocated, wh, 0⟩
    else if ¬ pg.starts.getD wh false then
      let st := scan_back pg.starts wh
      if st = 0 then none
      else some ⟨.in_range_allocated_middle, wh, st - 1⟩
    else some ⟨.in_range_allocated_start, wh, wh⟩

/-- `location_info(where)`: the start flag and the address of the
location. -/
def location_info (pg : gpage) (wh : Nat) : Bool × Nat :=
  (pg.starts.getD wh false, pg.base + wh * pg.min_alloc)

/-- The effective number of flags `bitflags::all_false` actually examines:
when the flag count is an exact multiple of the 32-bit word width the
final word is masked with the empty mask, so its 32 flags are skipped
(proved as the characterization of the word-level `all_false` in
`all_false_iff_below_eff`). -/
def eff_size (L : Nat) : Nat := if L % 32 = 0 then L - 32 else L

/-- The value `inuse.all_false()` computes on a bitmap of `L` flags. -/
def bits_all_false (l : List Bool) (L : Nat) : Bool :=
  decide (∀ i, i < eff_size L → l.getD i false = false)

/-- `is_empty()`: `inuse.all_false()` with the
`Ensures(!ret || starts.all_false())` contract as the fault case. -/
def is_empty (pg : gpage) : Option Bool :=
  let ret := bits_all_false pg.inuse pg.locations
  if ret && ! bits_all_false pg.starts pg.locations then none
  else some ret

/-- States of a page reachable through its public operations: freshly
constructed, or the page left behind by an `allocate` (successful or
failed) or by a non-faulting `deallocate`.  Requests have the shapes C++
guarantees: `sizeof` and `alignof` are positive.  -/
inductive Reach : gpage → Prop
  | fresh (T C b : Nat) (hC : 0 < C) : Reach (mk_gpage T C b)
  | alloc_ok (pg : gpage) (szT align n p : Nat) (pg1 : gpage) :
      Reach pg → 0 < szT → 0 < align → 0 < n →
      pg.allocate szT align n = .ok p pg1 → Reach pg1
  | alloc_fail (pg : gpage) (szT align n : Nat) (pg1 : gpage) :
      Reach pg → 0 < szT → 0 < align → 0 < n →
      pg.allocate szT align n = .fail pg1 → Reach pg1
  | dealloc (pg : gpage) (p : Nat) (pg1 : gpage) :
      Reach pg → pg.deallocate p = some pg1 → Reach pg1

/-- The structural invariant of a page: bitmap lengths match the location
count, the chunk size is positive and divides the page size, every start
is in use, and every in-use location is covered by an allocation run that
begins at a start at or before it. -/
def INV (pg : gpage) : Prop :=
  pg.inuse.length = pg.locations ∧
  pg.starts.length = pg.locations ∧
  0 < pg.min_alloc ∧
  pg.min_alloc ∣ pg.total_size ∧
  (∀ i, pg.starts.getD i false = true → pg.inuse.getD i false = true) ∧
  (∀ i, pg.inuse.getD i false = true →
    ∃ s, s ≤ i ∧ pg.starts.getD s false = true ∧
      ∀ k, s ≤ k → k ≤ i → pg.inuse.getD k false = true)

end gpage

/-! ### Registration view of the heap (deferred_heap.h: enregister /
deregister and the deferred_ptr lifecycle) -/

namespace reg

/-- Registration-relevant view of one `dhpage`: the storage extent of its
`gpage` and its `deferred_ptrs` vector (the storage addresses of the
tracked deferred_ptr objects, in `push_back` order). -/
structure dhpage where
  base : Nat
  size : Nat
  dps : List Nat
  deriving DecidableEq, Repr

/-- `gpage::contains` for the registration view. -/
def dhpage.containsAddr (pg : dhpage) (a : Nat) : Bool :=
  decide (pg.base ≤ a ∧ a < pg.base + pg.size)

/-- Registration state of a `deferred_heap`: the page list, the root set
(`std::unordered_set`, modelled as a duplicate-free list) and the
`is_destroying` flag. -/
structure deferred_heap where
  pages : List dhpage
  roots : List Nat
  is_destroying : Bool
  deriving DecidableEq, Repr

/-- The page half of `enregister`: `find_dhpage_of` walks the pages in
order; the first page whose storage contains the address receives the
pointer with `deferred_ptrs.push_back`.  `none` means no page contains the
address. -/
def enregPages (a : Nat) : List dhpage → Option (List dhpage)
  | [] => none
  | pg :: rest =>
    if pg.containsAddr a then some ({ pg with dps := pg.dps ++ [a] } :: rest)
    else
      match enregPages a rest with
      | some rest2 => some (pg :: rest2)
      | none => none

/-- `unordered_set::insert`. -/
def insertRoot (roots : List Nat) (a : Nat) : List Nat :=
  if a ∈ roots then roots else roots ++ [a]

/-- `enregister(p)`: a fault (`Expects(!is_destroying)`) during teardown;
otherwise append to the containing page's interior list, or insert into
the root set. -/
def deferred_heap.enregister (h : deferred_heap) (a : Nat) : Option deferred_heap :=
  if h.is_destroying then none
  else
    match enregPages a h.pages with
    | some ps => some { h with pages := ps }
    | none => some { h with roots := insertRoot h.roots a }

/-- Replace the first occurrence of `a` by `b`. -/
def replaceFirst : List Nat → Nat → Nat → List Nat
  | [], _, _ => []
  | x :: xs, a, b => if x = a then b :: xs else x :: replaceFirst xs a b

/-- The swap-pop removal of `deregister`: find the entry from the back
(`find_if(rbegin, rend, ...)`), overwrite it with `back()`, `pop_back()`.
`none` when the pointer is not in this list. -/
def swapPopLast (dps : List Nat) (a : Nat) : Option (List Nat) :=
  match dps.reverse with
  | [] => none
  | last :: rrest =>
    if a = last then some rrest.reverse
    else if a ∈ rrest then some (replaceFirst rrest a last).reverse
    else none

/-- The page half of `deregister`: walk the pages in order and swap-pop the
entry from the first page whose list holds it. -/
def deregPages (a : Nat) : List dhpage → Option (List dhpage)
  | [] => none
  | pg :: rest =>
    match swapPopLast pg.dps a with
    | some l2 => some ({ pg with dps := l2 } :: rest)
    | none =>
      match deregPages a rest with
      | some rest2 => some (pg :: rest2)
      | none => none

/-- `deregister(p)`: skipped during teardown; otherwise erase from the root
set (cheap) or swap-pop from a page's interior list; an unregistered
pointer is a fault (`Expects(!"attempt to deregister an unregistered
deferred_ptr")`). -/
def deferred_heap.deregister (h : deferred_heap) (a : Nat) : Option deferred_heap :=
  if h.is_destroying then some h
  else if a ∈ h.roots then some { h with roots := h.roots.erase a }
  else
    match deregPages a h.pages with
    | some ps => some { h with pages := ps }
    | none => none

/-- One live deferred_ptr object: its own storage address and whether it is
attached (`myheap != nullptr`). -/
structure ptrObj where
  addr : Nat
  attached : Bool
  deriving DecidableEq, Repr

/-- A heap together with the population of live deferred_ptr objects. -/
structure sys where
  heap : deferred_heap
  ptrs : List ptrObj
  deriving DecidableEq, Repr

/-- Mark the pointer at address `a` attached (the lazy attach of
`operator=`). -/
def attachPtr (ptrs : List ptrObj) (a : Nat) : List ptrObj :=
  ptrs.map fun po => if po.addr = a then { po with attached := true } else po

/-- Remove the pointer object at address `a` (its destructor ran). -/
def removePtr (ptrs : List ptrObj) (a : Nat) : List ptrObj :=
  ptrs.filter fun po => po.addr ≠ a

/-- States reachable through the deferred_ptr lifecycle and the heap's
registration operations, starting from a fresh heap:

* `addPage` — the heap grows a page (its storage is fresh memory, so it
  contains no live pointer and its interior list starts empty, and its
  extent is disjoint from every existing page);
* `ctor_unattached` — `deferred_ptr()` / construction from `nullptr`;
* `ctor_attached` — construction with a heap (`make<T>`, copy construction
  from an attached pointer), which enregisters;
* `attach` — assignment into an unattached pointer from an attached one
  (the lazy attach path of `deferred_ptr_void::operator=`); assignments
  that change no registration (same-heap assignment between attached
  pointers, assignment from an unattached null) leave this state unchanged
  and need no transition;
* `dtor_unattached` / `dtor_attached` — `~deferred_ptr_void()`, which
  deregisters when attached.

Construction always happens at a fresh storage address (two live C++
objects never share an address). -/
inductive Reach : sys → Prop
  | init : Reach ⟨⟨[], [], false⟩, []⟩
  | addPage (s : sys) (pg : dhpage) :
      Reach s →
      (∀ po ∈ s.ptrs, pg.containsAddr po.addr = false) →
      pg.dps = [] →
      (∀ pg2 ∈ s.heap.pages, pg.base + pg.size ≤ pg2.base ∨ pg2.base + pg2.size ≤ pg.base) →
      Reach ⟨⟨s.heap.pages ++ [pg], s.heap.roots, s.heap.is_destroying⟩, s.ptrs⟩
  | ctor_unattached (s : sys) (a : Nat) :
      Reach s →
      (∀ po ∈ s.ptrs, po.addr ≠ a) →
      Reach ⟨s.heap, s.ptrs ++ [⟨a, false⟩]⟩
  | ctor_attached (s : sys) (a : Nat) (h2 : deferred_heap) :
      Reach s →
      (∀ po ∈ s.ptrs, po.addr ≠ a) →
      s.heap.enregister a = some h2 →
      Reach ⟨h2, s.ptrs ++ [⟨a, true⟩]⟩
  | attach (s : sys) (a : Nat) (h2 : deferred_heap) :
      Reach s →
      (⟨a, false⟩ : ptrObj) ∈ s.ptrs →
      s.heap.enregister a = some h2 →
      Reach ⟨h2, attachPtr s.ptrs a⟩
  | dtor_unattached (s : sys) (a : Nat) :
      Reach s →
      (⟨a, false⟩ : ptrObj) ∈ s.ptrs →
      Reach ⟨s.heap, removePtr s.ptrs a⟩
  | dtor_attached (s : sys) (a : Nat) (h2 : deferred_heap) :
      Reach s →
      (⟨a, true⟩ : ptrObj) ∈ s.ptrs →
      s.heap.deregister a = some h2 →
      Reach ⟨h2, removePtr s.ptrs a⟩

/-- Total number of interior-list entries for an address. -/
def pagesOcc (a : Nat) : List dhpage → Nat
  | [] => 0
  | pg :: rest => pg.dps.count a + pagesOcc a rest

/-- Interior-list entries for an address counted only in pages whose
storage contains the address. -/
def contOcc (a : Nat) : List dhpage → Nat
  | [] => 0
  | pg :: rest => (if pg.containsAddr a then pg.dps.count a else 0) + contOcc a rest

/-- An address is registered exactly once, in the right place: once in
total between the root set and the interior lists; every interior entry
lies in a page containing the address; and a rooted address lies outside
every page. -/
def placedOnce (h : deferred_heap) (a : Nat) : Prop :=
  h.roots.count a + pagesOcc a h.pages = 1 ∧
  pagesOcc a h.pages = contOcc a h.pages ∧
  (h.roots.count a = 1 → ∀ pg ∈ h.pages, pg.containsAddr a = false)

/-- An address is not registered anywhere. -/
def unregistered (h : deferred_heap) (a : Nat) : Prop :=
  h.roots.count a = 0 ∧ pagesOcc a h.pages = 0

/-- The registration invariant: live heap, duplicate-free pointer
population, pairwise-disjoint page extents; every attached pointer is
registered exactly once and in the right place, every unattached pointer
is unregistered, and addresses with no live pointer are unregistered. -/
def INV (s : sys) : Prop :=
  s.heap.is_destroying = false ∧
  (s.ptrs.map ptrObj.addr).Nodup ∧
  List.Pairwise (fun p q => p.base + p.size ≤ q.base ∨ q.base + q.size ≤ p.base) s.heap.pages ∧
  (∀ po ∈ s.ptrs, po.attached = true → placedOnce s.heap po.addr) ∧
  (∀ po ∈ s.ptrs, po.attached = false → unregistered s.heap po.addr) ∧
  (∀ a, (∀ po ∈ s.ptrs, po.addr ≠ a) → unregistered s.heap a)

end reg

/-! ### Collection view of the heap (deferred_heap.h: mark / collect) -/

namespace col

/-- One entry of a dhpage's `deferred_ptrs` vector (`struct nonroot`): the
storage address of the tracked deferred_ptr object (`p`) and its mark level. -/
structure dpRec where
  addr : Nat
  level : Nat
  deriving DecidableEq, Repr

/-- Collection-relevant view of one `dhpage`: the embedded `gpage`, the
`live_starts` mark bitmap (one flag per location) and the interior
deferred_ptr records. -/
structure cpage where
  page : gpage
  live_starts : List Bool
  deferred_ptrs : List dpRec
  deriving DecidableEq, Repr

/-- A deferred_heap as `collect` sees it: the pages, the root set, and the
memory of deferred_ptr raw fields (`val a` is the raw pointer stored in the
deferred_ptr object at address `a`; `none` is null). -/
structure heap where
  pages : List cpage
  roots : List Nat
  val : Nat → Option Nat

/-- Events observable during a collect: `null a` — the deferred_ptr at
address `a` is reset to null (phase 3); `dtor lo hi` — `destroy_objects`
runs the registered destructors over the byte range `[lo, hi)` (phase 4). -/
inductive event where
  | null (addr : Nat)
  | dtor (lo hi : Nat)
  deriving DecidableEq, Repr

/-- Phase 1 per page: `live_starts.set_all(false)` and `dp.level = 0` for
every interior record. -/
def resetPage (pg : cpage) : cpage :=
  { pg with
    live_starts := List.replicate pg.live_starts.length false
    deferred_ptrs := pg.deferred_ptrs.map fun dp => { dp with level := 0 } }

/-- The inner loop of `mark` over the found page's `deferred_ptrs`: every
record's own address must lie in allocated storage (`Expects`, the `none`
case); a record inside the freshly marked allocation (`start_location`
equal to `S`) whose level is still 0 is promoted to `lvl`. -/
def markDps (S lvl : Nat) (g : gpage) : List dpRec → Option (List dpRec)
  | [] => some []
  | dp :: rest =>
    match g.contains_info dp.addr with
    | none => none
    | some w =>
      if w.found = gpage.gpage_find_result.in_range_allocated_middle ∨
          w.found = gpage.gpage_find_result.in_range_allocated_start then
        match markDps S lvl g rest with
        | none => none
        | some rest2 =>
          some ((if w.start_location = S ∧ dp.level = 0 then { dp with level := lvl }
            else dp) :: rest2)
      else none

/-- The page loop of `mark(p, lvl)` for a non-null pointer value `pv`: find
the first page whose storage contains `pv` (`contains_info`), fault if it
points to unallocated memory (`Expects`), mark the allocation's start
live, promote the interior records of that allocation, and stop (`break`). -/
def markPages (pv lvl : Nat) : List cpage → Option (List cpage)
  | [] => some []
  | pg :: rest =>
    match pg.page.contains_info pv with
    | none => none
    | some w =>
      if w.found = gpage.gpage_find_result.in_range_unallocated then none
      else if w.found = gpage.gpage_find_result.not_in_range then
        match markPages pv lvl rest with
        | none => none
        | some rest2 => some (pg :: rest2)
      else
        match markDps w.start_location lvl pg.page pg.deferred_ptrs with
        | none => none
        | some dps2 =>
          some ({ pg with
            live_starts := pg.live_starts.set w.start_location true
            deferred_ptrs := dps2 } :: rest)

/-- `mark(p, lvl)` including the initial null check (`p.get() == nullptr`
returns without marking). -/
def markPtr (pv : Option Nat) (lvl : Nat) (pages : List cpage) : Option (List cpage) :=
  match pv with
  | none => some pages
  | some p => markPages p lvl pages

/-- Phase 2a: `for (auto& p : roots) mark(*p, level)` at level 1. -/
def markRoots (v : Nat → Option Nat) (lvl : Nat) : List Nat → List cpage → Option (List cpage)
  | [], pages => some pages
  | r :: rs, pages =>
    match markPtr (v r) lvl pages with
    | none => none
    | some pages2 => markRoots v lvl rs pages2

/-- The inner record loop of the breadth-first pass, by index `di` into
page `pi`; `dleft` counts the records still to visit (the vector's length
is unchanged by `mark`, so the C++ range-for bound is the pre-pass
length).  A record at level `lvl - 1` clears `done` and is marked from. -/
def passDps (v : Nat → Option Nat) (lvl pi : Nat) :
    Nat → Nat → List cpage → Bool → Option (List cpage × Bool)
  | 0, _, pages, done => some (pages, done)
  | dleft + 1, di, pages, done =>
    match pages[pi]? with
    | none => some (pages, done)
    | some pg =>
      match pg.deferred_ptrs[di]? with
      | none => some (pages, done)
      | some dp =>
        if dp.level = lvl - 1 then
          match markPtr (v dp.addr) lvl pages with
          | none => none
          | some pages2 => passDps v lvl pi dleft (di + 1) pages2 false
        else passDps v lvl pi dleft (di + 1) pages done

/-- The page loop of one breadth-first pass. -/
def passPages (v : Nat → Option Nat) (lvl : Nat) :
    Nat → Nat → List cpage → Bool → Option (List cpage × Bool)
  | 0, _, pages, done => some (pages, done)
  | pleft + 1, pi, pages, done =>
    match pages[pi]? with
    | none => some (pages, done)
    | some pg =>
      match passDps v lvl pi pg.deferred_ptrs.length 0 pages done with
      | none => none
      | some (pages2, done2) => passPages v lvl pleft (pi + 1) pages2 done2

/-- Total number of interior records, the bound on the number of
breadth-first rounds. -/
def totalDps (pages : List cpage) : Nat :=
  (pages.map fun pg => pg.deferred_ptrs.length).sum

/-- Phase 2b: `while (!done) { done = true; ++level; <double loop> }`.
The fuel bounds the rounds; a terminating C++ run fits in
`totalDps + 2` rounds because each continued round consumed a record
marked at a fresh level. -/
def bfs (v : Nat → Option Nat) : Nat → Nat → List cpage → Option (Nat × List cpage)
  | 0, _, _ => none
  | fuel + 1, lvl, pages =>
    match passPages v (lvl + 1) pages.length 0 pages true with
    | none => none
    | some (pages2, done) =>
      if done then some (lvl + 1, pages2)
      else bfs v fuel (lvl + 1) pages2

/-- Phases 1-2 of `collect`: reset, mark from the roots, then the
breadth-first propagation. -/
def markPhase (h : heap) : Option (List cpage) :=
  match markRoots h.val 1 h.roots (h.pages.map resetPage) with
  | none => none
  | some pages2 =>
    match bfs h.val (totalDps pages2 + 2) 1 pages2 with
    | none => none
    | some res => some res.2

/-- The start location of the allocation containing location `q` — the
`start_location` that `contains_info` reports for an allocated location:
`q` itself when it carries the start flag, otherwise one before the
backward scan's stop. -/
def ownerStart (g : gpage) (q : Nat) : Nat :=
  if g.starts.getD q false then q else gpage.scan_back g.starts q - 1

/-- A deferred_ptr record lying in allocated storage of page `g0`. -/
def dpAlloc (g0 : gpage) (dp : dpRec) : Prop :=
  g0.contains dp.addr = true ∧
  g0.inuse.getD ((dp.addr - g0.base) / g0.min_alloc) false = true

/-- A deferred_ptr record whose own allocation's start is marked live. -/
def dpMarked (g0 : gpage) (live : List Bool) (dp : dpRec) : Prop :=
  live.getD (ownerStart g0 ((dp.addr - g0.base) / g0.min_alloc)) false = true

/-- Intermediate state of phase 4's location loop on one page, relative to
the page state `g0` and the mark bitmap `live` the loop started from: the
invariant and extents persist; a location keeps its start flag iff it is
marked or not yet processed; a location keeps its in-use flag iff its
allocation's start is marked or not yet processed. -/
def SWP (g0 : gpage) (live : List Bool) (i : Nat) (g : gpage) : Prop :=
  gpage.INV g ∧
  g.base = g0.base ∧ g.total_size = g0.total_size ∧ g.min_alloc = g0.min_alloc ∧
  (∀ k, g.starts.getD k false = true ↔
    (g0.starts.getD k false = true ∧ (live.getD k false = true ∨ i ≤ k))) ∧
  (∀ q, g.inuse.getD q false = true ↔
    (g0.inuse.getD q false = true ∧
      (live.getD (ownerStart g0 q) false = true ∨ i ≤ ownerStart g0 q)))

/-- How one interior record can change during a marking call at level
`lvl`: the address is untouched and the level either stays or is promoted
from 0 to `lvl`. -/
def dstrL (lvl : Nat) (dps dps2 : List dpRec) : Prop :=
  List.Forall₂ (fun dp dp2 => dp2.addr = dp.addr ∧
    (dp2.level = dp.level ∨ (dp.level = 0 ∧ dp2.level = lvl))) dps dps2

/-- How the page list can change during marking at level `lvl`: the
`gpage`s are untouched, mark bits only get set, and the interior records
change per `dstrL`. -/
def pstrL (lvl : Nat) (pages pages2 : List cpage) : Prop :=
  List.Forall₂ (fun pg pg2 => pg2.page = pg.page ∧
    (∀ k, pg.live_starts.getD k false = true → pg2.live_starts.getD k false = true) ∧
    dstrL lvl pg.deferred_ptrs pg2.deferred_ptrs) pages pages2

/-- The pointer value `p` lands on a marked allocation: the first page
whose storage yields a `contains_info` hit has the hit's start marked
live.  (`true` when no page contains `p` — such a value marks nothing.) -/
def targetMarked (pages : List cpage) (p : Nat) : Bool :=
  match pages with
  | [] => true
  | pg :: rest =>
    match pg.page.contains_info p with
    | none => true
    | some w =>
      if w.found = gpage.gpage_find_result.not_in_range then targetMarked rest p
      else pg.live_starts.getD w.start_location false

/-- `targetMarked` lifted to a nullable pointer value. -/
def targetMarkedOpt (pages : List cpage) (pv : Option Nat) : Bool :=
  match pv with
  | none => true
  | some p => targetMarked pages p

/-- A pointer value that never points into unallocated page storage — the
`Expects` precondition of `mark`. -/
def valOK (pages : List cpage) (p : Nat) : Prop :=
  ∀ pg ∈ pages, pg.page.contains p = true →
    pg.page.inuse.getD ((p - pg.page.base) / pg.page.min_alloc) false = true

/-- Pages fit for marking: each page satisfies the gpage invariant and
every interior record lies in allocated storage of its page. -/
def pagesOK (pages : List cpage) : Prop :=
  ∀ pg ∈ pages, gpage.INV pg.page ∧ ∀ dp ∈ pg.deferred_ptrs, dpAlloc pg.page dp

/-- Every interior record's pointer value is fit for marking. -/
def scanOK (v : Nat → Option Nat) (pages : List cpage) : Prop :=
  ∀ pg ∈ pages, ∀ dp ∈ pg.deferred_ptrs, ∀ p, v dp.addr = some p → valOK pages p

/-- `deferred_ptr_void::reset()` as seen by the memory: the raw field at
address `a` becomes null (the heap handle is a separate field and is left
attached). -/
def resetVal (v : Nat → Option Nat) (a : Nat) : Nat → Option Nat :=
  fun x => if x = a then none else v x

/-- Phase 3 over one page's records: reset every deferred_ptr whose level
is still 0, emitting a `null` event per reset. -/
def nullOutDps : List dpRec → (Nat → Option Nat) → (Nat → Option Nat) × List event
  | [], v => (v, [])
  | dp :: rest, v =>
    if dp.level = 0 then
      ((nullOutDps rest (resetVal v dp.addr)).1,
        event.null dp.addr :: (nullOutDps rest (resetVal v dp.addr)).2)
    else nullOutDps rest v

/-- Phase 3 over all pages. -/
def nullOutPages : List cpage → (Nat → Option Nat) → (Nat → Option Nat) × List event
  | [], v => (v, [])
  | pg :: rest, v =>
    ((nullOutPages rest (nullOutDps pg.deferred_ptrs v).1).1,
      (nullOutDps pg.deferred_ptrs v).2 ++
        (nullOutPages rest (nullOutDps pg.deferred_ptrs v).1).2)

/-- The end-of-allocation scan of phase 4 (`for (; end_i < locations();
++end_i) ...`): the address of the next start, or the end of the page's
storage. -/
def findEnd (pg : gpage) : Nat → Nat → Nat
  | 0, _ => pg.base + pg.total_size
  | left + 1, e =>
    if (pg.location_info e).1 then (pg.location_info e).2
    else findEnd pg left (e + 1)

/-- Phase 4 over one page's locations: an unmarked allocation start is
destroyed (`destroy_objects` over its byte range, one `dtor` event) and
its storage deallocated; `deallocate`'s contract faults propagate.
Destroying the objects runs the destructors of the deferred_ptr members
stored in the range, each of which deregisters itself
(`~deferred_ptr_void` → `deregister`), so the page's interior records
whose own address lies in the destroyed byte range are removed. -/
def sweepLocs (live : List Bool) :
    Nat → Nat → gpage → List dpRec → List event → Option (gpage × List dpRec × List event)
  | 0, _, g, dps, evs => some (g, dps, evs)
  | left + 1, i, g, dps, evs =>
    if (g.location_info i).1 = true ∧ live.getD i false = false then
      match g.deallocate (g.location_info i).2 with
      | none => none
      | some g2 =>
        sweepLocs live left (i + 1) g2
          (dps.filter fun dp => ¬ ((g.location_info i).2 ≤ dp.addr ∧
            dp.addr < findEnd g (g.locations - (i + 1)) (i + 1)))
          (evs ++ [event.dtor (g.location_info i).2 (findEnd g (g.locations - (i + 1)) (i + 1))])
    else sweepLocs live left (i + 1) g dps evs

/-- Phase 4 over all pages. -/
def sweepPages : List cpage → Option (List cpage × List event)
  | [] => some ([], [])
  | pg :: rest =>
    match sweepLocs pg.live_starts pg.page.locations 0 pg.page pg.deferred_ptrs [] with
    | none => none
    | some (g2, dps2, evs) =>
      match sweepPages rest with
      | none => none
      | some (rest2, evs2) =>
        some ({ pg with page := g2, deferred_ptrs := dps2 } :: rest2, evs ++ evs2)

/-- One scan of phase 5's `find_if` plus the erase: a fault from
`is_empty`'s contract or from the `Ensures` that an empty page has no
interior records; `some none` when no page is empty; otherwise the page
list with the first empty page removed. -/
def eraseFirstEmpty : List cpage → Option (Option (List cpage))
  | [] => some none
  | pg :: rest =>
    match pg.page.is_empty with
    | none => none
    | some true => if pg.deferred_ptrs = [] then some (some rest) else none
    | some false =>
      match eraseFirstEmpty rest with
      | none => none
      | some none => some none
      | some (some rest2) => some (some (pg :: rest2))

/-- Phase 5: repeatedly erase the first empty page; each iteration removes
one page, so `pages.length` fuel always suffices. -/
def dropEmptyLoop : Nat → List cpage → Option (List cpage)
  | 0, pages =>
    match eraseFirstEmpty pages with
    | some none => some pages
    | _ => none
  | fuel + 1, pages =>
    match eraseFirstEmpty pages with
    | none => none
    | some none => some pages
    | some (some pages2) => dropEmptyLoop fuel pages2

/-- `deferred_heap::collect()`: phases 1-2 (mark), phase 3 (null out
unreached deferred_ptrs), phase 4 (destroy and deallocate unreachable
allocations), phase 5 (drop empty pages).  The result is the new heap and
the event trace; `none` is a contract fault (or an exhausted round bound,
which no terminating C++ run hits). -/
def collect (h : heap) : Option (heap × List event) :=
  match markPhase h with
  | none => none
  | some pages3 =>
    match sweepPages pages3 with
    | none => none
    | some (pages4, dtors) =>
      match dropEmptyLoop pages4.length pages4 with
      | none => none
      | some pages5 =>
        some (⟨pages5, h.roots, (nullOutPages pages3 h.val).1⟩,
          (nullOutPages pages3 h.val).2 ++ dtors)

/-- Structural well-formedness of the collection state, guaranteed by the
constructors: each mark bitmap has one flag per location
(`live_starts{ page.locations(), false }`), and each page's chunk size is
positive and divides its storage size (the `gpage` constructor contract). -/
def live_ok (pages : List cpage) : Prop :=
  ∀ pg ∈ pages, pg.live_starts.length = pg.page.locations ∧
    0 < pg.page.min_alloc ∧ pg.page.min_alloc ∣ pg.page.total_size

/-- Soundness of the mark state: a promoted interior record (level ≠ 0)
lives in an allocation whose start is marked live. -/
def marked_sound (pages : List cpage) : Prop :=
  ∀ pg ∈ pages, ∀ dp ∈ pg.deferred_ptrs, dp.level ≠ 0 →
    ∀ w, pg.page.contains_info dp.addr = some w →
      pg.live_starts.getD w.start_location false = true

/-- Promotion invariant of the mark phase: every interior record lying in
an allocation whose start is marked live has already been promoted past
level 0 (because `mark` promotes all level-0 records of an allocation at
the moment it marks it, and nonzero levels never change). -/
def PRM (pages : List cpage) : Prop :=
  ∀ pg ∈ pages, ∀ dp ∈ pg.deferred_ptrs, ∀ w, pg.page.contains_info dp.addr = some w →
    (w.found = gpage.gpage_find_result.in_range_allocated_middle ∨
      w.found = gpage.gpage_find_result.in_range_allocated_start) →
    pg.live_starts.getD w.start_location false = true → dp.level ≠ 0

/-- Cross-level record evolution over the whole mark phase: addresses are
untouched, and a level either stays or is promoted from 0 to nonzero. -/
def dstrA (dps dps2 : List dpRec) : Prop :=
  List.Forall₂ (fun dp dp2 => dp2.addr = dp.addr ∧
    (dp2.level = dp.level ∨ (dp.level = 0 ∧ dp2.level ≠ 0))) dps dps2

/-- Cross-level page evolution over the whole mark phase: `gpage`s
untouched, mark bits only set, records per `dstrA`. -/
def pstrA (pages pages2 : List cpage) : Prop :=
  List.Forall₂ (fun pg pg2 => pg2.page = pg.page ∧
    (∀ k, pg.live_starts.getD k false = true → pg2.live_starts.getD k false = true) ∧
    dstrA pg.deferred_ptrs pg2.deferred_ptrs) pages pages2

/-- All record levels bounded by the current round counter. -/
def levBound (pages : List cpage) (lvl : Nat) : Prop :=
  ∀ pg ∈ pages, ∀ dp ∈ pg.deferred_ptrs, dp.level ≤ lvl

/-- Saturation below the current round: every record promoted at an
already-scanned level has had its pointer value marked from. -/
def SApre (v : Nat → Option Nat) (lvl : Nat) (pages : List cpage) : Prop :=
  ∀ pg ∈ pages, ∀ dp ∈ pg.deferred_ptrs, dp.level ≠ 0 → dp.level < lvl →
    targetMarkedOpt pages (v dp.addr) = true

/-- Full saturation at the end of the breadth-first propagation: every
promoted record has had its pointer value marked from. -/
def SAfull (v : Nat → Option Nat) (pages : List cpage) : Prop :=
  ∀ pg ∈ pages, ∀ dp ∈ pg.deferred_ptrs, dp.level ≠ 0 →
    targetMarkedOpt pages (v dp.addr) = true

/-- Some record carries level `k`. -/
def hasLevel (pages : List cpage) (k : Nat) : Prop :=
  ∃ pg ∈ pages, ∃ dp ∈ pg.deferred_ptrs, dp.level = k

/-- Mark-reachability over the static structure of a collection state: an
allocation (identified by its page's `gpage` and its start location) is
reachable when a root points into it, or when a live-marked reachable
allocation holds a record whose value points into it. -/
inductive ReachT (v : Nat → Option Nat) (roots : List Nat) (pages : List cpage) :
    gpage → Nat → Prop
  | root {r p : Nat} {pg : cpage} {w : gpage.contains_info_ret} :
      r ∈ roots → v r = some p → pg ∈ pages → pg.page.contains_info p = some w →
      (w.found = gpage.gpage_find_result.in_range_allocated_middle ∨
        w.found = gpage.gpage_find_result.in_range_allocated_start) →
      ReachT v roots pages pg.page w.start_location
  | step {g : gpage} {S : Nat} {pg : cpage} {dp : dpRec}
      {w2 : gpage.contains_info_ret} {p : Nat} {pg2 : cpage}
      {w : gpage.contains_info_ret} :
      ReachT v roots pages g S →
      pg ∈ pages → pg.page = g → pg.live_starts.getD S false = true →
      dp ∈ pg.deferred_ptrs →
      pg.page.contains_info dp.addr = some w2 →
      (w2.found = gpage.gpage_find_result.in_range_allocated_middle ∨
        w2.found = gpage.gpage_find_result.in_range_allocated_start) →
      w2.start_location = S →
      v dp.addr = some p →
      pg2 ∈ pages → pg2.page.contains_info p = some w →
      (w.found = gpage.gpage_find_result.in_range_allocated_middle ∨
        w.found = gpage.gpage_find_result.in_range_allocated_start) →
      ReachT v roots pages pg2.page w.start_location

/-- Certificate invariant of the mark phase: every live mark bit is
justified by a reachability certificate. -/
def CERT (v : Nat → Option Nat) (roots : List Nat) (pages : List cpage) : Prop :=
  ∀ pg ∈ pages, ∀ S, pg.live_starts.getD S false = true → ReachT v roots pages pg.page S

/-- Justification for marking the pointer value `p`: it is a root's value,
or the value of a record inside a live-marked allocation. -/
def JP (v : Nat → Option Nat) (roots : List Nat) (pages : List cpage) (p : Nat) : Prop :=
  (∃ r ∈ roots, v r = some p) ∨
  (∃ pg ∈ pages, ∃ dp ∈ pg.deferred_ptrs, ∃ w2,
    pg.page.contains_info dp.addr = some w2 ∧
    (w2.found = gpage.gpage_find_result.in_range_allocated_middle ∨
      w2.found = gpage.gpage_find_result.in_range_allocated_start) ∧
    pg.live_starts.getD w2.start_location false = true ∧ v dp.addr = some p)

/-- Pages occupy pairwise disjoint storage extents (each `dhpage` owns its
own separately obtained storage). -/
def disjExt (pages : List cpage) : Prop :=
  List.Pairwise (fun pg pg2 => ∀ a, pg.page.contains a = true → pg2.page.contains a = false)
    pages

/-- Per-page effect of phase 4 (the sweep): mark bits untouched, the
`gpage` transformed per the sweep invariant, and exactly the records of
live-marked allocations kept. -/
def SWrel (pg3 pg4 : cpage) : Prop :=
  pg4.live_starts = pg3.live_starts ∧
  SWP pg3.page pg3.live_starts pg3.page.locations pg4.page ∧
  (∀ dp, dp ∈ pg4.deferred_ptrs ↔
    (dp ∈ pg3.deferred_ptrs ∧ dpMarked pg3.page pg3.live_starts dp))

/-- The global invariant of a collection state, guaranteed by the
constructors and the registration machinery: well-formed pages, records
in allocated storage, pairwise disjoint page extents, roots outside every
page, and every stored pointer value pointing at allocated storage. -/
def colINV (h : heap) : Prop :=
  live_ok h.pages ∧ pagesOK h.pages ∧ disjExt h.pages ∧
  (∀ r ∈ h.roots, ∀ pg ∈ h.pages, pg.page.contains r = false) ∧
  (∀ a p, h.val a = some p → valOK h.pages p)

/-- A concrete collection state: one page holding two allocations — the
one at 1000 pointed to by the root deferred_ptr at address 50, and an
unreachable one at 1004 containing the deferred_ptr at address 1005. -/
def exampleVal (a : Nat) : Option Nat :=
  if a = 50 then some 1000 else if a = 1005 then some 1004 else none

/-- The page of the concrete state: 8 bytes at 1000 in 4-byte chunks, both
locations allocated, each an allocation start. -/
def exampleGpage : gpage := ⟨8, 4, 1000, [true, true], [true, true], 8⟩

/-- The concrete heap fed to `collect` in the C1 witness. -/
def exampleHeap : heap :=
  ⟨[⟨exampleGpage, [false, false], [⟨1005, 7⟩]⟩], [50], exampleVal⟩

/-- The page after the witness collect: the unreachable allocation at
location 1 destroyed and deallocated. -/
def exampleGpage2 : gpage := ⟨8, 4, 1000, [true, false], [true, false], 8⟩

/-- The heap after the witness collect: the record of the destroyed
deferred_ptr at 1005 has been deregistered. -/
def exampleHeap2 : heap :=
  ⟨[⟨exampleGpage2, [true, false], []⟩], [50], resetVal exampleVal 1005⟩

/-- The trace of the witness collect: the unreachable interior
deferred_ptr at 1005 is nulled, then the unreachable allocation
`[1004, 1008)` is destroyed. -/
def exampleTrace : List event := [event.null 1005, event.dtor 1004 1008]

end col

/-! ## Theorems -/

/-! ### Bit-level helper lemmas -/

theorem tb_exists_of_ne_zero {n : Nat} (h : n ≠ 0) : ∃ i, n.testBit i = true := by
  obtain ⟨i, hi, -⟩ := Nat.exists_most_significant_bit h
  exact ⟨i, hi⟩

theorem ne_zero_of_tb {n i : Nat} (h : n.testBit i = true) : n ≠ 0 := by
  intro h0
  rw [h0, Nat.zero_testBit] at h
  exact Bool.false_ne_true h

theorem land_ne_zero_iff (w m : Nat) :
    w &&& m ≠ 0 ↔ ∃ j, w.testBit j = true ∧ m.testBit j = true := by
  constructor
  · intro h
    obtain ⟨j, hj⟩ := tb_exists_of_ne_zero h
    rw [Nat.testBit_land] at hj
    exact ⟨j, Bool.and_eq_true_iff.mp hj⟩
  · rintro ⟨j, hw, hm⟩
    exact ne_zero_of_tb (i := j) (by rw [Nat.testBit_land, hw, hm]; rfl)

theorem tb_lt_of_lt_two_pow {w j n : Nat} (hw : w < 2 ^ n) (h : w.testBit j = true) :
    j < n := by
  by_contra hj
  have hwj : w < 2 ^ j :=
    lt_of_lt_of_le hw (Nat.pow_le_pow_right (by norm_num) (Nat.le_of_not_lt hj))
  rw [Nat.testBit_lt_two_pow hwj] at h
  exact Bool.false_ne_true h

theorem one_shiftLeft_sub_one_testBit (m j : Nat) :
    ((1 <<< m) - 1).testBit j = decide (j < m) := by
  rw [Nat.shiftLeft_eq, one_mul, Nat.testBit_two_pow_sub_one]

theorem compl32_testBit_lt (x j : Nat) (hj : j < 32) :
    (Gcpp.bitflags.compl32 x).testBit j = !x.testBit j := by
  rw [Gcpp.bitflags.compl32, Gcpp.bitflags.unitBound, Nat.testBit_xor,
    Nat.testBit_two_pow_sub_one]
  simp [hj]

theorem testBit_two_pow_iff (k j : Nat) : (2 ^ k).testBit j = true ↔ j = k := by
  constructor
  · intro h
    by_contra hne
    rw [Nat.testBit_two_pow_of_ne (fun hk => hne hk.symm)] at h
    exact Bool.false_ne_true h
  · intro h
    rw [h, Nat.testBit_two_pow_self]

theorem land_two_pow_ne_zero_iff (w k : Nat) :
    w &&& 2 ^ k ≠ 0 ↔ w.testBit k = true := by
  rw [land_ne_zero_iff]
  constructor
  · rintro ⟨j, hw, hm⟩
    rwa [(testBit_two_pow_iff k j).mp hm] at hw
  · intro h
    exact ⟨k, h, Nat.testBit_two_pow_self⟩

/-- `bitflags.get` reads exactly the bit `i % 32` of the word `i / 32`. -/
theorem bitflags.get_eq_testBit (bf : bitflags) (i : Nat) :
    bf.get i = (bf.bits.getD (i / 32) 0).testBit (i % 32) := by
  rw [bitflags.get, bitflags.bit_unit, bitflags.bit_mask, Nat.shiftLeft_eq, one_mul]
  rcases h : (bf.bits.getD (i / 32) 0).testBit (i % 32) with _ | _
  · rw [bne_eq_false_iff_eq]
    by_contra hne
    have htb := (land_two_pow_ne_zero_iff _ _).mp hne
    rw [h] at htb
    exact Bool.false_ne_true htb
  · rw [bne_iff_ne]
    exact (land_two_pow_ne_zero_iff _ _).mpr h

/-! ### C2 — destructors::run_all order -/

theorem destructors.run_seq_id : ∀ l : List destructor, destructors.run_seq l = l
  | [] => rfl
  | d :: rest => by rw [destructors.run_seq, destructors.run_seq_id rest]

/-- C2 counterexample: with two records stored (first `(1,10)`, then
`(2,20)`), `run_all` does not invoke the record stored last first: the
invocation sequence of the range-for loop is the insertion order, not its
reverse. -/
theorem run_all_not_reverse :
    ((destructors.mk []).store ⟨1, 10⟩ |>.store ⟨2, 20⟩).run_all.1 ≠
      [⟨2, 20⟩, ⟨1, 10⟩] := by
  decide

/-- C2 (amended): `destructors::run_all()` executes every stored record in
forward insertion order — the record stored first runs first — and then
leaves the table empty. -/
theorem run_all_forward_then_clears (d : destructors) :
    d.run_all.1 = d.dtors ∧ d.run_all.2.dtors = [] :=
  ⟨destructors.run_seq_id d.dtors, rfl⟩

/-! ### C3 — bitflags::all_false on an exact multiple of the word width -/

/-- A 32-flag bitflags built by the constructor with every flag false, then
`set(31, true)`: flag 31 is true. -/
def bf_last_set : bitflags := (bitflags.mk_bitflags 32 false).set 31 true

/-- C3: `all_false()` is not true-iff-every-flag-false.  When the flag
count is an exact multiple of the 32-bit word width, `bit_mask(size) - 1`
is the empty mask, so the final storage word is never examined: with flag
31 of 32 set, `all_false()` still returns true.  The code contradicts its
own stated contract (and the `Ensures` of `gpage::is_empty` relies on it). -/
theorem all_false_ignores_last_word :
    (∃ i, i < 32 ∧ bf_last_set.get i = true) ∧ bf_last_set.all_false = true :=
  ⟨⟨31, by decide, by decide⟩, by decide⟩

/-! ### wsub helper lemmas -/

theorem wsub_small {a b : Nat} (ha : a < SZ) (hb : b ≤ a) : wsub a b = a - b := by
  unfold wsub SZ at *
  omega

/-! ### C4 — allocate must fail with null, not a fault, on exhaustion -/

/-- C4: on a fresh 16-byte page with 4-byte chunks (4 locations), the
request `allocate<T>(16)` with `sizeof(T) = alignof(T) = 1` — a byte size
equal to the page's total size, positive count, no overflow — does not
return null: the location count needed (`ceil(16/4) + 1 = 5`) exceeds the
4 locations, `locations() - locations_needed` wraps around in `size_t`,
the search loop runs, and the window probe reads `inuse` at index 4 of a
4-flag bitmap, firing the `Expects` of `bitflags::get` — a programming
fault on a pure-exhaustion request. -/
theorem allocate_full_size_request_faults :
    (gpage.mk_gpage 16 4 64).allocate 1 1 16 = .fault ∧
    1 * 16 ≤ (gpage.mk_gpage 16 4 64).total_size :=
  ⟨by decide, by decide⟩

/-! ### C5 — the advisory hint after a failed allocate -/

/-- C5 counterexample: a fresh 32-byte page whose storage happens to start
at an address ≡ 16 (mod 32).  The request `allocate<T>(1)` with
`sizeof(T) = alignof(T) = 32` (B = 32 bytes) passes the fast-fail check
(`hint` is 32), but `std::align` cannot fit 32 bytes after the 16-byte
alignment adjustment, so the call returns null on the alignment-fit path —
which does not touch the hint.  After this failed allocate of B = 32
bytes the hint is 32 > B - 1 = 31, refuting the claim. -/
theorem allocate_align_fail_keeps_hint :
    gpage.Reach (gpage.mk_gpage 32 4 16) ∧
    (gpage.mk_gpage 32 4 16).allocate 32 32 1 = .fail (gpage.mk_gpage 32 4 16) ∧
    32 - 1 < (gpage.mk_gpage 32 4 16).current_known_request_bound :=
  ⟨gpage.Reach.fresh 32 4 16 (by decide), by decide, by decide⟩

/-- C5 (amended): on every page state, no allocate request whose byte size
`B = sizeof(T) * n` exceeds the current hint can succeed; and after a
failed (null-returning) allocate of `B` bytes the hint is at most `B - 1`,
except when the failure came from the `std::align` alignment-fit check, in
which case the hint is unchanged. -/
theorem hint_never_overestimates (pg : Gcpp.gpage) (szT align n : Nat)
    (hszT : 0 < szT) (hn : 0 < n) :
    (szT * n > pg.current_known_request_bound →
      ∀ p pg1, pg.allocate szT align n ≠ .ok p pg1) ∧
    (∀ pg1, pg.allocate szT align n = .fail pg1 →
      pg1.current_known_request_bound ≤ szT * n - 1 ∨
      (pg.total_size < (align - pg.base % align) % align + szT * n ∧ pg1 = pg)) := by
  constructor
  · intro hgt p pg1
    simp only [gpage.allocate]
    rw [if_neg (by omega : ¬ n = 0)]
    by_cases hrep : szT * n < SZ
    · rw [if_neg (by exact fun hc => hc hrep), if_pos hgt]
      intro hc
      exact Gcpp.gpage.alloc_result.noConfusion hc
    · rw [if_pos hrep]
      intro hc
      exact Gcpp.gpage.alloc_result.noConfusion hc
  · intro pg1 hfail
    simp only [gpage.allocate] at hfail
    by_cases h0 : n = 0
    · rw [if_pos h0] at hfail
      exact absurd hfail (fun hc => Gcpp.gpage.alloc_result.noConfusion hc)
    rw [if_neg h0] at hfail
    by_cases hrep : szT * n < SZ
    · rw [if_neg (fun hc => hc hrep)] at hfail
      by_cases hfast : szT * n > pg.current_known_request_bound
      · rw [if_pos hfast] at hfail
        left
        have hpg := (Gcpp.gpage.alloc_result.fail.injEq _ _).mp hfail
        rw [← hpg]
        omega
      rw [if_neg hfast] at hfail
      by_cases halign : pg.total_size < (align - pg.base % align) % align + szT * n
      · rw [if_pos halign] at hfail
        exact Or.inr ⟨halign, ((Gcpp.gpage.alloc_result.fail.injEq _ _).mp hfail).symm⟩
      rw [if_neg halign] at hfail
      by_cases hoff : (align - pg.base % align) % align / pg.min_alloc ≠ 0
      · rw [if_pos hoff] at hfail
        exact absurd hfail (fun hc => Gcpp.gpage.alloc_result.noConfusion hc)
      rw [if_neg hoff] at hfail
      rcases hs : gpage.search_from pg.inuse (wsub align 1 / pg.min_alloc + 1)
          (1 + wsub (szT * n) 1 / pg.min_alloc + 1)
          (wsub pg.locations (1 + wsub (szT * n) 1 / pg.min_alloc + 1))
          (wsub pg.locations (1 + wsub (szT * n) 1 / pg.min_alloc + 1) + 1) 0 with
        _ | _ | i
      all_goals rw [hs] at hfail
      · exact absurd hfail (fun hc => Gcpp.gpage.alloc_result.noConfusion hc)
      · left
        have hpg1 := (Gcpp.gpage.alloc_result.fail.injEq _ _).mp hfail
        have hB1 : 0 < szT * n := Nat.mul_pos hszT hn
        have hw : wsub (szT * n) 1 = szT * n - 1 := wsub_small hrep (by omega)
        rw [← hpg1]
        simp only [hw]
        exact le_trans (Nat.min_le_right _ _) (le_refl _)
      · exact absurd hfail (fun hc => Gcpp.gpage.alloc_result.noConfusion hc)
    · rw [if_pos hrep] at hfail
      exact absurd hfail (fun hc => Gcpp.gpage.alloc_result.noConfusion hc)

/-- C5 witness: on a fresh 16-byte page, a request of 17 bytes
(`sizeof(T) = 17`, one object) exceeds the hint of 16, and indeed cannot
succeed; and the failed allocate leaves the hint at 16 = B - 1. -/
theorem hint_never_overestimates_witness :
    ((17 * 1 > (gpage.mk_gpage 16 4 64).current_known_request_bound →
      ∀ p pg1, (gpage.mk_gpage 16 4 64).allocate 17 1 1 ≠ .ok p pg1) ∧
     (∀ pg1, (gpage.mk_gpage 16 4 64).allocate 17 1 1 = .fail pg1 →
      pg1.current_known_request_bound ≤ 17 * 1 - 1 ∨
      ((gpage.mk_gpage 16 4 64).total_size <
        (1 - (gpage.mk_gpage 16 4 64).base % 1) % 1 + 17 * 1 ∧
        pg1 = gpage.mk_gpage 16 4 64))) :=
  hint_never_overestimates (gpage.mk_gpage 16 4 64) 17 1 1 (by decide) (by decide)

/-! ### List-level helper lemmas for the page bitmaps -/

theorem getD_true_lt_length {l : List Bool} {i : Nat} (h : l.getD i false = true) :
    i < l.length := by
  by_contra hge
  rw [List.getD_eq_getElem?_getD, List.getElem?_eq_none (Nat.le_of_not_lt hge)] at h
  exact Bool.false_ne_true h

theorem getD_set_self {l : List Bool} {i : Nat} (v : Bool) (h : i < l.length) :
    (l.set i v).getD i false = v := by
  rw [List.getD_eq_getElem?_getD, List.getElem?_set_self h]
  rfl

theorem getD_set_ne {l : List Bool} {i j : Nat} (v : Bool) (h : i ≠ j) :
    (l.set i v).getD j false = l.getD j false := by
  rw [List.getD_eq_getElem?_getD, List.getElem?_set_ne h, ← List.getD_eq_getElem?_getD]

theorem length_setN (l : List Bool) (lo : Nat) (v : Bool) :
    ∀ c, (Gcpp.setN l lo v c).length = l.length
  | 0 => rfl
  | c + 1 => by rw [Gcpp.setN, List.length_set, length_setN l lo v c]

theorem getD_setN_in {l : List Bool} {lo c k : Nat} (v : Bool)
    (h1 : lo ≤ k) (h2 : k < lo + c) (h3 : k < l.length) :
    (Gcpp.setN l lo v c).getD k false = v := by
  induction c with
  | zero => omega
  | succ c ih =>
    rw [Gcpp.setN]
    by_cases hk : k = lo + c
    · rw [hk]
      exact getD_set_self v (by rw [length_setN]; omega)
    · rw [getD_set_ne v (fun hc => hk hc.symm)]
      exact ih (by omega)

theorem getD_setN_out {l : List Bool} {lo c k : Nat} (v : Bool)
    (h : k < lo ∨ lo + c ≤ k) :
    (Gcpp.setN l lo v c).getD k false = l.getD k false := by
  induction c with
  | zero => rfl
  | succ c ih =>
    rw [Gcpp.setN, getD_set_ne v (by omega)]
    exact ih (by omega)

/-- A same-length list determined pointwise by `getD` is equal. -/
theorem list_bool_ext {l1 l2 : List Bool} (hlen : l1.length = l2.length)
    (h : ∀ k, k < l2.length → l1.getD k false = l2.getD k false) : l1 = l2 := by
  apply List.ext_getElem?
  intro n
  by_cases hn : n < l2.length
  · have h1 := List.getElem?_eq_getElem (l := l1) (n := n) (by omega)
    have h2 := List.getElem?_eq_getElem (l := l2) (n := n) hn
    have := h n hn
    rw [List.getD_eq_getElem?_getD, List.getD_eq_getElem?_getD, h1, h2] at this
    rw [h1, h2]
    exact congrArg some this
  · rw [List.getElem?_eq_none (by omega), List.getElem?_eq_none (by omega)]

/-! ### Loop characterizations for gpage -/

theorem probe_clear_window {inuse : List Bool} {i : Nat} :
    ∀ {left j : Nat}, gpage.probe_from inuse i left j = .clear →
      ∀ m, m < left → inuse[i + (j + m)]? = some false := by
  intro left
  induction left with
  | zero => intro j _ m hm; omega
  | succ left ih =>
    intro j hp m hm
    rw [gpage.probe_from] at hp
    rcases hg : inuse[i + j]? with _ | b
    · rw [hg] at hp; exact absurd hp (by simp)
    · rcases b with _ | _
      · rw [hg] at hp
        rcases Nat.eq_zero_or_pos m with hm0 | hmp
        · rw [hm0]; simpa using hg
        · have := ih (j := j + 1) hp (m - 1) (by omega)
          rw [show i + (j + 1 + (m - 1)) = i + (j + m) by omega] at this
          exact this
      · rw [hg] at hp; exact absurd hp (by simp)

theorem search_found_inv {inuse : List Bool} {S needed endv : Nat} :
    ∀ {fuel i r : Nat}, gpage.search_from inuse S needed endv fuel i = .found r →
      gpage.probe_from inuse r needed 0 = .clear ∧ i ≤ r ∧ r < endv := by
  intro fuel
  induction fuel with
  | zero => intro i r h; exact absurd h (by simp [gpage.search_from])
  | succ fuel ih =>
    intro i r h
    rw [gpage.search_from] at h
    by_cases hlt : i < endv
    · rw [if_pos hlt] at h
      rcases hp : gpage.probe_from inuse i needed 0 with _ | j | _
      · rw [hp] at h; exact absurd h (by simp)
      · rw [hp] at h
        obtain ⟨h1, h2, h3⟩ := ih h
        exact ⟨h1, by omega, h3⟩
      · rw [hp] at h
        have : i = r := by simpa using h
        exact ⟨this ▸ hp, by omega, this ▸ hlt⟩
    · rw [if_neg hlt] at h; exact absurd h (by simp)

theorem find_start_spec (starts : List Bool) :
    ∀ (left k : Nat),
      k ≤ gpage.find_start starts left k ∧
      gpage.find_start starts left k ≤ k + left ∧
      (∀ m, k ≤ m → m < gpage.find_start starts left k → starts.getD m false = false) ∧
      (gpage.find_start starts left k < k + left →
        starts.getD (gpage.find_start starts left k) false = true) := by
  intro left
  induction left with
  | zero =>
    intro k
    refine ⟨Nat.le_refl _, by rw [gpage.find_start]; omega, ?_, ?_⟩
    · rw [gpage.find_start]; intro m h1 h2; omega
    · rw [gpage.find_start]; intro h; omega
  | succ left ih =>
    intro k
    rw [gpage.find_start]
    by_cases hk : starts.getD k false = true
    · rw [if_pos hk]
      exact ⟨Nat.le_refl _, by omega, fun m h1 h2 => by omega, fun _ => hk⟩
    · rw [if_neg hk]
      rw [Bool.not_eq_true] at hk
      obtain ⟨h1, h2, h3, h4⟩ := ih (k + 1)
      refine ⟨by omega, by omega, ?_, by intro h; exact h4 (by omega)⟩
      intro m hm1 hm2
      rcases Nat.eq_or_lt_of_le hm1 with he | hlt
      · rw [← he]; exact hk
      · exact h3 m hlt hm2

theorem clear_inuse_spec (next : Nat) :
    ∀ (fuel : Nat) (l : List Bool) (here : Nat), here + fuel = next →
      ∃ stop, here ≤ stop ∧ stop ≤ next ∧
        (∀ k, here ≤ k → k < stop → l.getD k false = true) ∧
        (stop = next ∨ l.getD stop false = false) ∧
        (∀ idx, (gpage.clear_inuse next fuel l here).getD idx false =
          if here ≤ idx ∧ idx < stop then false else l.getD idx false) ∧
        (gpage.clear_inuse next fuel l here).length = l.length := by
  intro fuel
  induction fuel with
  | zero =>
    intro l here hf
    refine ⟨here, Nat.le_refl _, by omega, fun k h1 h2 => by omega, Or.inl (by omega), ?_, rfl⟩
    intro idx
    rw [gpage.clear_inuse, if_neg (by omega)]
  | succ fuel ih =>
    intro l here hf
    rw [gpage.clear_inuse]
    by_cases hg : here < next ∧ l.getD here false
    · rw [if_pos hg]
      have hlen : here < l.length := getD_true_lt_length hg.2
      obtain ⟨stop, hs1, hs2, hs3, hs4, hs5, hs6⟩ := ih (l.set here false) (here + 1) (by omega)
      refine ⟨stop, by omega, hs2, ?_, ?_, ?_, by rw [hs6, List.length_set]⟩
      · intro k h1 h2
        rcases Nat.eq_or_lt_of_le h1 with he | hlt
        · rw [← he]; exact hg.2
        · have := hs3 k hlt h2
          rwa [getD_set_ne false (by omega)] at this
      · rcases hs4 with h | h
        · exact Or.inl h
        · refine Or.inr ?_
          rwa [getD_set_ne false (by omega)] at h
      · intro idx
        rw [hs5 idx]
        by_cases hidx : idx = here
        · rw [hidx, if_neg (by omega), if_pos ⟨Nat.le_refl _, by omega⟩]
          exact getD_set_self false hlen
        · rw [getD_set_ne false (fun hc => hidx hc.symm)]
          by_cases hin : here ≤ idx ∧ idx < stop
          · rw [if_pos ⟨by omega, hin.2⟩, if_pos hin]
          · rw [if_neg (by omega), if_neg hin]
    · rw [if_neg hg]
      refine ⟨here, Nat.le_refl _, by omega, fun k h1 h2 => by omega, ?_, ?_, rfl⟩
      · by_cases hn : here < next
        · refine Or.inr ?_
          rcases hb : l.getD here false with _ | _
          · rfl
          · exact absurd ⟨hn, hb⟩ hg
        · exact Or.inl (by omega)
      · intro idx
        rw [if_neg (by omega)]

/-! ### Inversion of allocate outcomes -/

theorem allocate_ok_inv {pg : Gcpp.gpage} {szT align n p : Nat} {pg1 : Gcpp.gpage}
    (h : pg.allocate szT align n = .ok p pg1) :
    ∃ i, p = pg.base + i * pg.min_alloc ∧
      pg1.total_size = pg.total_size ∧ pg1.min_alloc = pg.min_alloc ∧
      pg1.base = pg.base ∧
      pg1.starts = pg.starts.set i true ∧
      pg1.inuse = Gcpp.setN pg.inuse i true (1 + wsub (szT * n) 1 / pg.min_alloc + 1) ∧
      (∀ m, m < 1 + wsub (szT * n) 1 / pg.min_alloc + 1 → pg.inuse[i + m]? = some false) := by
  simp only [gpage.allocate] at h
  by_cases h0 : n = 0
  · rw [if_pos h0] at h; exact absurd h (by simp)
  rw [if_neg h0] at h
  by_cases hrep : szT * n < SZ
  · rw [if_neg (fun hc => hc hrep)] at h
    by_cases hfast : szT * n > pg.current_known_request_bound
    · rw [if_pos hfast] at h; exact absurd h (by simp)
    rw [if_neg hfast] at h
    by_cases halign : pg.total_size < (align - pg.base % align) % align + szT * n
    · rw [if_pos halign] at h; exact absurd h (by simp)
    rw [if_neg halign] at h
    by_cases hoff : (align - pg.base % align) % align / pg.min_alloc ≠ 0
    · rw [if_pos hoff] at h; exact absurd h (by simp)
    rw [if_neg hoff] at h
    rcases hs : gpage.search_from pg.inuse (wsub align 1 / pg.min_alloc + 1)
        (1 + wsub (szT * n) 1 / pg.min_alloc + 1)
        (wsub pg.locations (1 + wsub (szT * n) 1 / pg.min_alloc + 1))
        (wsub pg.locations (1 + wsub (szT * n) 1 / pg.min_alloc + 1) + 1) 0 with
      _ | _ | i
    all_goals rw [hs] at h
    · exact absurd h (by simp)
    · exact absurd h (by simp)
    · obtain ⟨hprobe, -, -⟩ := search_found_inv hs
      obtain ⟨hp, hpg1⟩ := (Gcpp.gpage.alloc_result.ok.injEq _ _ _ _).mp h
      refine ⟨i, hp.symm, ?_, ?_, ?_, ?_, ?_, ?_⟩
      all_goals try rw [← hpg1]
      · intro m hm
        have := probe_clear_window hprobe m hm
        rwa [Nat.zero_add] at this
  · rw [if_pos hrep] at h; exact absurd h (by simp)

theorem allocate_fail_inv {pg : Gcpp.gpage} {szT align n : Nat} {pg1 : Gcpp.gpage}
    (h : pg.allocate szT align n = .fail pg1) :
    pg1.total_size = pg.total_size ∧ pg1.min_alloc = pg.min_alloc ∧
    pg1.base = pg.base ∧ pg1.inuse = pg.inuse ∧ pg1.starts = pg.starts := by
  simp only [gpage.allocate] at h
  by_cases h0 : n = 0
  · rw [if_pos h0] at h; exact absurd h (by simp)
  rw [if_neg h0] at h
  by_cases hrep : szT * n < SZ
  · rw [if_neg (fun hc => hc hrep)] at h
    by_cases hfast : szT * n > pg.current_known_request_bound
    · rw [if_pos hfast] at h
      have := (Gcpp.gpage.alloc_result.fail.injEq _ _).mp h
      rw [← this]
      exact ⟨rfl, rfl, rfl, rfl, rfl⟩
    rw [if_neg hfast] at h
    by_cases halign : pg.total_size < (align - pg.base % align) % align + szT * n
    · rw [if_pos halign] at h
      have := (Gcpp.gpage.alloc_result.fail.injEq _ _).mp h
      rw [← this]
      exact ⟨rfl, rfl, rfl, rfl, rfl⟩
    rw [if_neg halign] at h
    by_cases hoff : (align - pg.base % align) % align / pg.min_alloc ≠ 0
    · rw [if_pos hoff] at h; exact absurd h (by simp)
    rw [if_neg hoff] at h
    rcases hs : gpage.search_from pg.inuse (wsub align 1 / pg.min_alloc + 1)
        (1 + wsub (szT * n) 1 / pg.min_alloc + 1)
        (wsub pg.locations (1 + wsub (szT * n) 1 / pg.min_alloc + 1))
        (wsub pg.locations (1 + wsub (szT * n) 1 / pg.min_alloc + 1) + 1) 0 with
      _ | _ | i
    all_goals rw [hs] at h
    · exact absurd h (by simp)
    · have := (Gcpp.gpage.alloc_result.fail.injEq _ _).mp h
      rw [← this]
      exact ⟨rfl, rfl, rfl, rfl, rfl⟩
    · exact absurd h (by simp)
  · rw [if_pos hrep] at h; exact absurd h (by simp)

/-! ### The page invariant along reachable states -/

theorem getElem?_some_lt {l : List Bool} {i : Nat} {b : Bool} (h : l[i]? = some b) :
    i < l.length := by
  by_contra hge
  rw [List.getElem?_eq_none (Nat.le_of_not_lt hge)] at h
  exact Option.noConfusion h

theorem getD_of_getElem?_some {l : List Bool} {i : Nat} {b : Bool} (h : l[i]? = some b) :
    l.getD i false = b := by
  rw [List.getD_eq_getElem?_getD, h]
  rfl

theorem INV_mk (T C b : Nat) (hC : 0 < C) : gpage.INV (gpage.mk_gpage T C b) := by
  have hgdr : ∀ k, (List.replicate ((gpage.mk_gpage T C b).total_size / C) false).getD k false = false := by
    intro k
    rw [List.getD_eq_getElem?_getD, List.getElem?_replicate]
    by_cases hk : k < (gpage.mk_gpage T C b).total_size / C
    · rw [if_pos hk]; rfl
    · rw [if_neg hk]; rfl
  refine ⟨?_, ?_, hC, ?_, ?_, ?_⟩
  · simp [gpage.mk_gpage, gpage.locations]
  · simp [gpage.mk_gpage, gpage.locations]
  · show C ∣ T + (if T % C > 0 then C - T % C else 0)
    by_cases hm : T % C > 0
    · rw [if_pos hm]
      have hd := Nat.div_add_mod T C
      have h1 : T % C < C := Nat.mod_lt _ hC
      have h2 : T + (C - T % C) = C * (T / C + 1) := by
        rw [Nat.mul_add, Nat.mul_one]
        omega
      rw [h2]
      exact ⟨T / C + 1, rfl⟩
    · rw [if_neg hm, Nat.add_zero]
      exact Nat.dvd_of_mod_eq_zero (by omega)
  · intro i hi
    exact absurd (hgdr i ▸ hi) (by simp)
  · intro i hi
    exact absurd (hgdr i ▸ hi) (by simp)

theorem INV_alloc_ok {pg : Gcpp.gpage} {szT align n p : Nat} {pg1 : Gcpp.gpage}
    (hinv : gpage.INV pg) (h : pg.allocate szT align n = .ok p pg1) :
    gpage.INV pg1 := by
  obtain ⟨i, -, hts, hma, -, hst, hin, hwin⟩ := allocate_ok_inv h
  obtain ⟨hl1, hl2, hC, hdvd, hsi, hchain⟩ := hinv
  obtain ⟨needed, hw⟩ : ∃ w0, 1 + wsub (szT * n) 1 / pg.min_alloc + 1 = w0 := ⟨_, rfl⟩
  rw [hw] at hin hwin
  have hneed2 : 2 ≤ needed := by
    rw [← hw]
    exact Nat.add_le_add_right (Nat.le_add_right 1 _) 1
  clear hw
  have hiwin : ∀ m, m < needed → pg.inuse.getD (i + m) false = false :=
    fun m hm => getD_of_getElem?_some (hwin m hm)
  have hwlen : ∀ m, m < needed → i + m < pg.inuse.length :=
    fun m hm => getElem?_some_lt (hwin m hm)
  have hilen : i < pg.inuse.length := getElem?_some_lt (hwin 0 (by omega))
  have hloc : pg1.locations = pg.locations := by
    rw [gpage.locations, gpage.locations, hts, hma]
  refine ⟨?_, ?_, hma ▸ hC, ?_, ?_, ?_⟩
  · rw [hin, length_setN, hl1, hloc]
  · rw [hst, List.length_set, hl2, hloc]
  · rw [hts, hma]; exact hdvd
  · -- starts imply inuse
    intro k hk
    rw [hst] at hk
    rw [hin]
    by_cases hki : k = i
    · rw [hki]
      exact getD_setN_in true (Nat.le_refl _) (by omega) hilen
    · rw [getD_set_ne true (fun hc => hki hc.symm)] at hk
      have hkin := hsi k hk
      have hkwin : k < i ∨ i + needed ≤ k := by
        by_contra hc
        push_neg at hc
        have := hiwin (k - i) (by omega)
        rw [show i + (k - i) = k by omega, hkin] at this
        exact Bool.noConfusion this
      rw [getD_setN_out true hkwin]
      exact hkin
  · -- chain
    intro q hq
    rw [hin] at hq
    by_cases hqwin : i ≤ q ∧ q < i + needed
    · refine ⟨i, hqwin.1, ?_, ?_⟩
      · rw [hst]
        exact getD_set_self true (by rw [hl2, ← hl1]; exact hilen)
      · intro k hk1 hk2
        rw [hin]
        refine getD_setN_in true hk1 (by omega) ?_
        have := hwlen (k - i) (by omega)
        omega
    · have hqout : q < i ∨ i + needed ≤ q := by omega
      rw [getD_setN_out true hqout] at hq
      obtain ⟨s, hs1, hs2, hs3⟩ := hchain q hq
      refine ⟨s, hs1, ?_, ?_⟩
      · rw [hst]
        by_cases hsi2 : s = i
        · rw [hsi2]
          exact getD_set_self true (by rw [hl2, ← hl1]; exact hilen)
        · rw [getD_set_ne true (fun hc => hsi2 hc.symm)]
          exact hs2
      · intro k hk1 hk2
        have hko := hs3 k hk1 hk2
        rw [hin]
        by_cases hkwin : i ≤ k ∧ k < i + needed
        · exact getD_setN_in true hkwin.1 hkwin.2 (getD_true_lt_length hko)
        · rw [getD_setN_out true (by omega)]
          exact hko

theorem INV_alloc_fail {pg : Gcpp.gpage} {szT align n : Nat} {pg1 : Gcpp.gpage}
    (hinv : gpage.INV pg) (h : pg.allocate szT align n = .fail pg1) :
    gpage.INV pg1 := by
  obtain ⟨hts, hma, hb, hin, hst⟩ := allocate_fail_inv h
  obtain ⟨hl1, hl2, hC, hdvd, hsi, hchain⟩ := hinv
  have hloc : pg1.locations = pg.locations := by rw [gpage.locations, gpage.locations, hts, hma]
  refine ⟨?_, ?_, hma ▸ hC, hts ▸ hma ▸ hdvd, ?_, ?_⟩
  · rw [hin, hloc, hl1]
  · rw [hst, hloc, hl2]
  · intro i hi
    rw [hin]
    exact hsi i (hst ▸ hi)
  · intro i hi
    rw [hst, hin]
    exact hchain i (hin ▸ hi)

theorem INV_dealloc {pg : Gcpp.gpage} {p : Nat} {pg1 : Gcpp.gpage}
    (hinv : gpage.INV pg) (h : pg.deallocate p = some pg1) : gpage.INV pg1 := by
  obtain ⟨hl1, hl2, hC, hdvd, hsi, hchain⟩ := hinv
  simp only [gpage.deallocate] at h
  by_cases hcont : pg.contains p = true
  case neg =>
    rw [if_pos (by simpa using hcont)] at h
    exact absurd h (by simp)
  rw [if_neg (by simpa using hcont)] at h
  by_cases hstart : pg.starts.getD ((p - pg.base) / pg.min_alloc) false = true
  case neg =>
    rw [if_pos (by simpa using hstart)] at h
    exact absurd h (by simp)
  rw [if_neg (by simpa using hstart)] at h
  by_cases hinuse : pg.inuse.getD ((p - pg.base) / pg.min_alloc) false = true
  case neg =>
    rw [if_pos (by simpa using hinuse)] at h
    exact absurd h (by simp)
  rw [if_neg (by simpa using hinuse)] at h
  have hpg1 := (Option.some.inj h).symm
  clear h
  set L := pg.locations with hLdef
  set here := (p - pg.base) / pg.min_alloc with hheredef
  set starts2 := pg.starts.set here false with hst2def
  set r := gpage.find_start starts2 (L - (here + 1)) (here + 1) with hrdef
  have hhereL : here < L := by
    have := getD_true_lt_length hstart
    omega
  obtain ⟨hr1, hr2, hr3, hr4⟩ := find_start_spec starts2 (L - (here + 1)) (here + 1)
  rw [← hrdef] at hr1 hr2 hr3 hr4
  have hr2L : r ≤ L := by omega
  obtain ⟨stop, hs1, hs2, hs3, hs4, hs5, hs6⟩ :=
    clear_inuse_spec r (r - here) pg.inuse here (by omega)
  have hstophere : here < stop := by
    rcases Nat.eq_or_lt_of_le hs1 with he | hlt
    · rcases hs4 with h4 | h4
      · omega
      · rw [← he] at h4
        rw [hinuse] at h4
        exact absurd h4 (by simp)
    · exact hlt
  have hstarts2 : ∀ m, here + 1 ≤ m → m < r → pg.starts.getD m false = false := by
    intro m h1 h2
    have := hr3 m h1 h2
    rwa [hst2def, getD_set_ne false (by omega)] at this
  have hstarts2r : r < L → pg.starts.getD r false = true := by
    intro hrL
    have := hr4 (by omega)
    rwa [hst2def, getD_set_ne false (by omega)] at this
  have hpg1fields :
      pg1.starts = starts2 ∧
      pg1.inuse = gpage.clear_inuse r (r - here) pg.inuse here ∧
      pg1.total_size = pg.total_size ∧ pg1.min_alloc = pg.min_alloc := by
    rw [hpg1]
    exact ⟨rfl, rfl, rfl, rfl⟩
  obtain ⟨hf1, hf2, hf3, hf4⟩ := hpg1fields
  have hloc1 : pg1.locations = L := by
    rw [gpage.locations, hf3, hf4, hLdef, gpage.locations]
  refine ⟨?_, ?_, hf4 ▸ hC, hf3 ▸ hf4 ▸ hdvd, ?_, ?_⟩
  · rw [hf2, hs6, hl1, hloc1]
  · rw [hf1, hst2def, List.length_set, hl2, hloc1]
  · -- starts imply inuse
    intro k hk
    rw [hf1, hst2def] at hk
    have hkh : k ≠ here := by
      intro he
      rw [he, getD_set_self false (by rw [hl2]; exact hhereL)] at hk
      exact Bool.noConfusion hk
    rw [getD_set_ne false (fun hc => hkh hc.symm)] at hk
    have hkin := hsi k hk
    rw [hf2, hs5 k]
    have hknot : ¬ (here ≤ k ∧ k < stop) := by
      rintro ⟨hk1, hk2⟩
      have hk3 : here + 1 ≤ k := by omega
      have := hstarts2 k hk3 (by omega)
      rw [hk] at this
      exact Bool.noConfusion this
    rw [if_neg hknot]
    exact hkin
  · -- chain
    intro q hq
    rw [hf2, hs5 q] at hq
    by_cases hqc : here ≤ q ∧ q < stop
    · rw [if_pos hqc] at hq
      exact absurd hq (by simp)
    rw [if_neg hqc] at hq
    have hqL : q < L := by
      have := getD_true_lt_length hq
      omega
    obtain ⟨s, hss1, hss2, hss3⟩ := hchain q hq
    by_cases hqhere : q < here
    · refine ⟨s, hss1, ?_, ?_⟩
      · rw [hf1, hst2def, getD_set_ne false (by omega)]
        exact hss2
      · intro k hk1 hk2
        rw [hf2, hs5 k, if_neg (by omega)]
        exact hss3 k hk1 hk2
    · have hqstop : stop ≤ q := by omega
      by_cases hsstop : stop ≤ s
      · refine ⟨s, hss1, ?_, ?_⟩
        · rw [hf1, hst2def, getD_set_ne false (by omega)]
          exact hss2
        · intro k hk1 hk2
          rw [hf2, hs5 k, if_neg (by omega)]
          exact hss3 k hk1 hk2
      · -- s < stop: then stop lies inside the old allocation run, forcing stop = r
        have hsstop2 : s < stop := by omega
        have hstopq : stop ≤ q := hqstop
        have hinstop : pg.inuse.getD stop false = true := hss3 stop (by omega) (by omega)
        have hstopr : stop = r := by
          rcases hs4 with h4 | h4
          · exact h4
          · rw [hinstop] at h4
            exact absurd h4 (by simp)
        have hrL : r < L := by omega
        refine ⟨r, by omega, ?_, ?_⟩
        · rw [hf1]
          exact hr4 (by omega)
        · intro k hk1 hk2
          rw [hf2, hs5 k, if_neg (by omega)]
          exact hss3 k (by omega) hk2

/-- Every reachable page satisfies the invariant. -/
theorem Reach_INV {pg : Gcpp.gpage} (h : gpage.Reach pg) : gpage.INV pg := by
  induction h with
  | fresh T C b hC => exact INV_mk T C b hC
  | alloc_ok pg szT align n p pg1 hre hszT halign hn hok ih => exact INV_alloc_ok ih hok
  | alloc_fail pg szT align n pg1 hre hszT halign hn hfail ih => exact INV_alloc_fail ih hfail
  | dealloc pg p pg1 hre hde ih => exact INV_dealloc ih hde

/-! ### C6 — allocate then immediate deallocate restores the bitmaps -/

/-- C6: on any reachable page state, a successful `allocate<T>(n)` that
returns address `p` followed immediately by `deallocate(p)` does not fault
and restores both the `inuse` and the `starts` bitmaps exactly to their
state before the allocate. -/
theorem alloc_then_dealloc_restores_bitmaps (pg : Gcpp.gpage)
    (hre : gpage.Reach pg) (szT align n p : Nat) (pg1 : Gcpp.gpage)
    (hok : pg.allocate szT align n = .ok p pg1) :
    ∃ pg2, pg1.deallocate p = some pg2 ∧ pg2.inuse = pg.inuse ∧ pg2.starts = pg.starts := by
  obtain ⟨hl1, hl2, hC, hdvd, hsi, hchain⟩ := Reach_INV hre
  obtain ⟨i, hp, hts, hma, hb, hst, hin, hwin⟩ := allocate_ok_inv hok
  obtain ⟨needed, hneq⟩ : ∃ w0, 1 + wsub (szT * n) 1 / pg.min_alloc + 1 = w0 := ⟨_, rfl⟩
  rw [hneq] at hin hwin
  have hneed2 : 2 ≤ needed := by
    rw [← hneq]
    exact Nat.add_le_add_right (Nat.le_add_right 1 _) 1
  clear hneq
  set L := pg.locations with hLdef
  have hwlen : ∀ m, m < needed → i + m < pg.inuse.length :=
    fun m hm => getElem?_some_lt (hwin m hm)
  have hwfalse : ∀ m, m < needed → pg.inuse.getD (i + m) false = false :=
    fun m hm => getD_of_getElem?_some (hwin m hm)
  have hiL : i + needed ≤ L := by
    have := hwlen (needed - 1) (by omega)
    rw [hl1] at this
    omega
  have hstartsi : pg.starts.getD i false = false := by
    rcases hb2 : pg.starts.getD i false with _ | _
    · rfl
    · have := hsi i hb2
      have h0 := hwfalse 0 (by omega)
      rw [Nat.add_zero] at h0
      rw [h0] at this
      exact Bool.noConfusion this
  have hL1 : pg1.locations = L := by
    rw [gpage.locations, hts, hma, hLdef, gpage.locations]
  have hlen1in : pg1.inuse.length = pg.inuse.length := by rw [hin, length_setN]
  have hlen1st : pg1.starts.length = pg.starts.length := by rw [hst, List.length_set]
  have hhere : (p - pg1.base) / pg1.min_alloc = i := by
    rw [hb, hma, hp, Nat.add_sub_cancel_left, Nat.mul_div_cancel _ hC]
  have hTL : pg.min_alloc * L = pg.total_size := by
    rw [hLdef, gpage.locations]
    exact Nat.mul_div_cancel' hdvd
  have hcont1 : pg1.contains p = true := by
    rw [gpage.contains, decide_eq_true_eq, hb, hts, hp]
    refine ⟨Nat.le_add_right _ _, ?_⟩
    have hineq : i * pg.min_alloc < L * pg.min_alloc :=
      (Nat.mul_lt_mul_right hC).mpr (by omega)
    have : L * pg.min_alloc = pg.total_size := by
      rw [Nat.mul_comm]
      exact hTL
    omega
  have hst1i : pg1.starts.getD i false = true := by
    rw [hst]
    exact getD_set_self true (by rw [hl2]; omega)
  have hi0len : i < pg.inuse.length := by
    have := hwlen 0 (by omega)
    rwa [Nat.add_zero] at this
  have hin1i : pg1.inuse.getD i false = true := by
    rw [hin]
    exact getD_setN_in true (Nat.le_refl _) (by omega) hi0len
  have hst2old : pg1.starts.set i false = pg.starts.set i false := by
    rw [hst, List.set_set]
  have hst2pt : ∀ k, (pg1.starts.set i false).getD k false = pg.starts.getD k false := by
    intro k
    rw [hst2old]
    by_cases hk : k = i
    · rw [hk, getD_set_self false (by rw [hl2]; omega), hstartsi]
    · rw [getD_set_ne false (fun hc => hk hc.symm)]
  obtain ⟨hr1, hr2, hr3, hr4⟩ :=
    find_start_spec (pg1.starts.set i false) (pg1.locations - (i + 1)) (i + 1)
  obtain ⟨r, hrdef⟩ :
      ∃ r0, gpage.find_start (pg1.starts.set i false) (pg1.locations - (i + 1)) (i + 1) = r0 :=
    ⟨_, rfl⟩
  rw [hrdef] at hr1 hr2 hr3 hr4
  rw [hL1] at hr2 hr4
  have hr2L : r ≤ L := by omega
  have hrneeded : i + needed ≤ r := by
    by_contra hc
    push_neg at hc
    have h4 := hr4 (by omega)
    rw [hst2pt r] at h4
    have h5 : pg.inuse.getD r false = false := by
      have := hwfalse (r - i) (by omega)
      rwa [show i + (r - i) = r by omega] at this
    have h6 := hsi r h4
    rw [h5] at h6
    exact Bool.noConfusion h6
  obtain ⟨stop, hcs1, hcs2, hcs3, hcs4, hcs5, hcs6⟩ :=
    clear_inuse_spec r (r - i) pg1.inuse i (by omega)
  have hpg1inW : ∀ m, m < needed → pg1.inuse.getD (i + m) false = true := by
    intro m hm
    rw [hin]
    exact getD_setN_in true (Nat.le_add_right _ _) (by omega) (hwlen m hm)
  have hpg1out : ∀ k, k < i ∨ i + needed ≤ k →
      pg1.inuse.getD k false = pg.inuse.getD k false := by
    intro k hk
    rw [hin]
    exact getD_setN_out true hk
  have hstopgeq : i + needed ≤ stop := by
    by_contra hc
    push_neg at hc
    rcases hcs4 with h4 | h4
    · omega
    · have := hpg1inW (stop - i) (by omega)
      rw [show i + (stop - i) = stop by omega] at this
      rw [this] at h4
      exact Bool.noConfusion h4
  have hstople : stop ≤ i + needed := by
    by_contra hc
    push_neg at hc
    have hwprop := hcs3 (i + needed) (by omega) hc
    rw [hpg1out (i + needed) (Or.inr (Nat.le_refl _))] at hwprop
    obtain ⟨s, hss1, hss2, hss3⟩ := hchain (i + needed) hwprop
    have hsIN : s = i + needed := by
      by_contra hcs
      have hk := hss3 (i + needed - 1) (by omega) (by omega)
      have hkf := hwfalse (needed - 1) (by omega)
      rw [show i + (needed - 1) = i + needed - 1 by omega] at hkf
      rw [hkf] at hk
      exact Bool.noConfusion hk
    have h6 := hr3 (i + needed) (by omega) (by omega)
    rw [hst2pt] at h6
    rw [hsIN] at hss2
    rw [hss2] at h6
    exact Bool.noConfusion h6
  have hstopeq : stop = i + needed := Nat.le_antisymm hstople hstopgeq
  have hdeal : pg1.deallocate p = some
      { pg1 with starts := pg1.starts.set i false
                 inuse := gpage.clear_inuse r (r - i) pg1.inuse i
                 current_known_request_bound := pg1.total_size } := by
    simp only [gpage.deallocate]
    rw [hhere]
    rw [if_neg (by simpa using hcont1), if_neg (by simpa using hst1i),
      if_neg (by simpa using hin1i), hrdef]
  refine ⟨_, hdeal, ?_, ?_⟩
  · show gpage.clear_inuse r (r - i) pg1.inuse i = pg.inuse
    apply list_bool_ext
    · rw [hcs6, hlen1in]
    · intro k hk
      rw [hcs5 k]
      by_cases hkw : i ≤ k ∧ k < stop
      · rw [if_pos hkw]
        rw [hstopeq] at hkw
        have := hwfalse (k - i) (by omega)
        rw [show i + (k - i) = k by omega] at this
        exact this.symm
      · rw [if_neg hkw]
        exact hpg1out k (by omega)
  · show pg1.starts.set i false = pg.starts
    apply list_bool_ext
    · rw [hst2old, List.length_set]
    · intro k hk
      exact hst2pt k

/-- C6 witness: a fresh 16-byte page, one 4-byte object allocated at its
base address and immediately deallocated. -/
theorem alloc_then_dealloc_restores_bitmaps_witness :
    ∃ pg2,
      (⟨16, 4, 64, [true, true, false, false], [true, false, false, false], 8⟩ :
        Gcpp.gpage).deallocate 64 = some pg2 ∧
      pg2.inuse = (gpage.mk_gpage 16 4 64).inuse ∧
      pg2.starts = (gpage.mk_gpage 16 4 64).starts :=
  alloc_then_dealloc_restores_bitmaps (gpage.mk_gpage 16 4 64)
    (gpage.Reach.fresh 16 4 64 (by decide)) 4 4 1 64
    ⟨16, 4, 64, [true, true, false, false], [true, false, false, false], 8⟩ (by decide)

/-! ### C8 — bitflags::find_next helper lemmas -/

theorem scanUp_eq_least (bf : Gcpp.bitflags) (v : Bool) :
    ∀ (fuel i m : Nat), i ≤ m → m < i + fuel → bf.get m = v →
      (∀ k, i ≤ k → k < m → bf.get k ≠ v) →
      bitflags.scanUp bf v fuel i = m := by
  intro fuel
  induction fuel with
  | zero => intro i m h1 h2; omega
  | succ fuel ih =>
    intro i m h1 h2 hP hmin
    rw [bitflags.scanUp]
    rcases Nat.eq_or_lt_of_le h1 with he | hlt
    · rw [he, hP, if_pos rfl]
    · rw [if_neg (hmin i (Nat.le_refl _) hlt)]
      exact ih (i + 1) m (by omega) (by omega) hP (fun k hk1 hk2 => hmin k (by omega) hk2)

theorem find_unit_spec (bf : Gcpp.bitflags) (v : Bool) (toU : Nat) :
    ∀ (fuel u : Nat), toU - u ≤ fuel → u ≤ toU →
      u ≤ bitflags.find_unit bf v toU u ∧
      bitflags.find_unit bf v toU u ≤ toU ∧
      (∀ x, u ≤ x → x < bitflags.find_unit bf v toU u →
        bitflags.unit_pred v (bf.bits.getD x 0) = false) ∧
      (bitflags.find_unit bf v toU u < toU →
        bitflags.unit_pred v (bf.bits.getD (bitflags.find_unit bf v toU u) 0) = true) := by
  intro fuel
  induction fuel with
  | zero =>
    intro u hf hu
    have hue : u = toU := by omega
    rw [bitflags.find_unit, if_neg (by omega)]
    exact ⟨hu, Nat.le_refl _, fun x hx1 hx2 => by omega, fun h => by omega⟩
  | succ fuel ih =>
    intro u hf hu
    rw [bitflags.find_unit]
    by_cases hlt : u < toU
    · rw [if_pos hlt]
      by_cases hp : bitflags.unit_pred v (bf.bits.getD u 0) = true
      · rw [if_pos hp]
        exact ⟨Nat.le_refl _, by omega, fun x hx1 hx2 => by omega, fun _ => hp⟩
      · rw [if_neg hp]
        obtain ⟨h1, h2, h3, h4⟩ := ih (u + 1) (by omega) (by omega)
        refine ⟨by omega, h2, ?_, h4⟩
        intro x hx1 hx2
        rcases Nat.eq_or_lt_of_le hx1 with he | hlt2
        · rw [← he]
          rcases hb : bitflags.unit_pred v (bf.bits.getD u 0) with _ | _
          · rfl
          · exact absurd hb hp
        · exact h3 x hlt2 hx2
    · rw [if_neg hlt]
      exact ⟨by omega, Nat.le_refl _, fun x hx1 hx2 => by omega, fun h => by omega⟩

theorem compl32_lt {x : Nat} (hx : x < bitflags.unitBound) :
    bitflags.compl32 x < bitflags.unitBound := by
  rw [bitflags.compl32, bitflags.unitBound] at *
  exact Nat.xor_lt_two_pow hx (by norm_num)

/-- Every storage word of a well-formed bitflags is below 2^32. -/
theorem WF_word {bf : Gcpp.bitflags} (hwf : bitflags.WF bf) (u : Nat) :
    bf.bits.getD u 0 < bitflags.unitBound := by
  by_cases hu : u < bf.bits.length
  · rw [List.getD_eq_getElem?_getD, List.getElem?_eq_getElem hu]
    exact hwf.2 _ (List.getElem_mem hu)
  · rw [List.getD_eq_getElem?_getD, List.getElem?_eq_none (by omega)]
    rw [bitflags.unitBound]
    norm_num

/-- The first-unit mask of `find_next` when the range begins and ends in
different units: bits `[fromMod, 32)`. -/
theorem maskB_char (fm j : Nat) (hfm : fm < 32) :
    (bitflags.compl32 ((1 <<< fm) - 1)).testBit j = decide (fm ≤ j ∧ j < 32) := by
  rw [bitflags.compl32, bitflags.unitBound, Nat.testBit_xor,
    one_shiftLeft_sub_one_testBit, Nat.testBit_two_pow_sub_one]
  by_cases h1 : j < fm <;> by_cases h2 : j < 32 <;>
    simp [h1, h2] <;> omega

/-- The first-unit mask of `find_next` when the whole range lies in one
unit: bits `[fromMod, toMod)`. -/
theorem maskA_char (fm tm j : Nat) (hfm : fm < 32) (htm : tm ≤ 32) :
    (bitflags.compl32 ((1 <<< fm) - 1 ||| bitflags.compl32 ((1 <<< tm) - 1))).testBit j =
      decide (fm ≤ j ∧ j < tm) := by
  rw [bitflags.compl32, bitflags.compl32, bitflags.unitBound, Nat.testBit_xor,
    Nat.testBit_lor, Nat.testBit_xor, one_shiftLeft_sub_one_testBit,
    one_shiftLeft_sub_one_testBit, Nat.testBit_two_pow_sub_one]
  by_cases h1 : j < fm <;> by_cases h2 : j < tm <;> by_cases h3 : j < 32 <;>
    simp [h1, h2, h3] <;> omega

/-- The last-unit mask of `find_next`: bits `[0, toMod)`. -/
theorem maskC_char (tm j : Nat) :
    ((1 <<< tm) - 1).testBit j = decide (0 ≤ j ∧ j < tm) := by
  rw [one_shiftLeft_sub_one_testBit]
  simp

/-- The head/tail check of `find_next` fires exactly when the masked range
of the word holds a bit with the sought value. -/
theorem mask_hit_iff {v : Bool} {w mask a b : Nat} (hb : b ≤ 32)
    (hmask : ∀ j, mask.testBit j = decide (a ≤ j ∧ j < b)) :
    bitflags.mask_hit v w mask = true ↔ ∃ j, a ≤ j ∧ j < b ∧ w.testBit j = v := by
  rcases v with _ | _
  · have hred : bitflags.mask_hit false w mask = (bitflags.compl32 w &&& mask != 0) := by
      rw [bitflags.mask_hit]
      simp
    rw [hred, bne_iff_ne]
    constructor
    · intro h
      obtain ⟨j, hw2, hm⟩ := (land_ne_zero_iff _ _).mp h
      rw [hmask j, decide_eq_true_eq] at hm
      have hj32 : j < 32 := by omega
      rw [compl32_testBit_lt w j hj32] at hw2
      refine ⟨j, hm.1, hm.2, ?_⟩
      rcases hwb : w.testBit j with _ | _
      · rfl
      · rw [hwb] at hw2
        exact absurd hw2 (by simp)
    · rintro ⟨j, h1, h2, h3⟩
      refine (land_ne_zero_iff _ _).mpr ⟨j, ?_, ?_⟩
      · rw [compl32_testBit_lt w j (by omega), h3]
        rfl
      · rw [hmask j, decide_eq_true_eq]
        exact ⟨h1, h2⟩
  · have hred : bitflags.mask_hit true w mask = (w &&& mask != 0) := by
      rw [bitflags.mask_hit]
      simp
    rw [hred, bne_iff_ne]
    constructor
    · intro h
      obtain ⟨j, hw2, hm⟩ := (land_ne_zero_iff _ _).mp h
      rw [hmask j, decide_eq_true_eq] at hm
      exact ⟨j, hm.1, hm.2, hw2⟩
    · rintro ⟨j, h1, h2, h3⟩
      refine (land_ne_zero_iff _ _).mpr ⟨j, h3, ?_⟩
      rw [hmask j, decide_eq_true_eq]
      exact ⟨h1, h2⟩

/-- The whole-unit predicate of `find_next` fires exactly when the word
holds a bit with the sought value (for a well-formed 32-bit word). -/
theorem unit_pred_iff {v : Bool} {w : Nat} (hw : w < bitflags.unitBound) :
    bitflags.unit_pred v w = true ↔ ∃ j, j < 32 ∧ w.testBit j = v := by
  rw [bitflags.unitBound] at hw
  rcases v with _ | _
  · have hred : bitflags.unit_pred false w = (w != 2 ^ 32 - 1) := rfl
    rw [hred, bne_iff_ne]
    constructor
    · intro h
      by_contra hc
      push_neg at hc
      refine absurd (Nat.eq_of_testBit_eq fun j => ?_) h
      rw [Nat.testBit_two_pow_sub_one]
      by_cases hj : j < 32
      · have hcj := hc j hj
        rcases hb : w.testBit j with _ | _
        · exact absurd hb hcj
        · simp [hj]
      · rw [Nat.testBit_lt_two_pow
          (lt_of_lt_of_le hw (Nat.pow_le_pow_right (by norm_num) (by omega)))]
        simp [hj]
    · rintro ⟨j, hj, hb⟩
      intro he
      rw [he, Nat.testBit_two_pow_sub_one] at hb
      simp [hj] at hb
  · have hred : bitflags.unit_pred true w = (w != 0) := rfl
    rw [hred, bne_iff_ne]
    constructor
    · intro h
      obtain ⟨j, hj⟩ := tb_exists_of_ne_zero h
      exact ⟨j, tb_lt_of_lt_two_pow hw hj, hj⟩
    · rintro ⟨j, hj, hb⟩
      exact ne_zero_of_tb hb

/-- Translate a flag position inside unit `u` to the global index. -/
theorem global_get (bf : Gcpp.bitflags) (u j : Nat) (hj : j < 32) :
    bf.get (u * 32 + j) = (bf.bits.getD u 0).testBit j := by
  rw [bitflags.get_eq_testBit]
  have h1 : (u * 32 + j) / 32 = u := by omega
  have h2 : (u * 32 + j) % 32 = j := by omega
  rw [h1, h2]

/-- No unit without the predicate means no flag with the sought value in
the corresponding global range. -/
theorem units_no_flag {bf : Gcpp.bitflags} {v : Bool}
    (hword : ∀ u, bf.bits.getD u 0 < bitflags.unitBound) {su d : Nat}
    (hnp : ∀ x, su ≤ x → x < d → bitflags.unit_pred v (bf.bits.getD x 0) = false) :
    ∀ q, su * 32 ≤ q → q < d * 32 → bf.get q ≠ v := by
  intro q h1 h2 hP
  have hu1 : su ≤ q / 32 := by omega
  have hu2 : q / 32 < d := by omega
  have hnx := hnp (q / 32) hu1 hu2
  have hex : ∃ j, j < 32 ∧ (bf.bits.getD (q / 32) 0).testBit j = v := by
    refine ⟨q % 32, by omega, ?_⟩
    have := global_get bf (q / 32) (q % 32) (by omega)
    rw [show q / 32 * 32 + q % 32 = q by omega] at this
    rw [← this]
    exact hP
  rw [(unit_pred_iff (hword (q / 32))).mpr hex] at hnx
  exact Bool.noConfusion hnx

/-- The whole-units-plus-tail part of `find_next` (the `rest` continuation),
when no flag in `[lo, hi)` has the sought value: it returns `hi`. -/
theorem find_next_rest_eq_hi (bf : Gcpp.bitflags) (v : Bool)
    (hword : ∀ u, bf.bits.getD u 0 < bitflags.unitBound)
    (lo hi su : Nat) (hsu32 : lo ≤ su * 32) (hsu : su ≤ hi / 32)
    (hnone : ∀ k, lo ≤ k → k < hi → bf.get k ≠ v) :
    (if bitflags.find_unit bf v (hi / 32) su < hi / 32 then
      bitflags.scanUp bf v hi (bitflags.find_unit bf v (hi / 32) su * 32)
    else if hi % 32 != 0 then
      (if bitflags.mask_hit v (bf.bits.getD (hi / 32) 0) ((1 <<< (hi % 32)) - 1) = true then
        bitflags.scanUp bf v hi (hi / 32 * 32)
      else hi)
    else hi) = hi := by
  obtain ⟨hd1, hd2, hd3, hd4⟩ := find_unit_spec bf v (hi / 32) (hi / 32) su (by omega) hsu
  have hdeq : bitflags.find_unit bf v (hi / 32) su = hi / 32 := by
    rcases Nat.eq_or_lt_of_le hd2 with he | hlt
    · exact he
    · exfalso
      have hpred := hd4 hlt
      obtain ⟨j, hj32, hjv⟩ :=
        (unit_pred_iff (hword (bitflags.find_unit bf v (hi / 32) su))).mp hpred
      have hq : bf.get (bitflags.find_unit bf v (hi / 32) su * 32 + j) = v := by
        rw [global_get bf _ j hj32]
        exact hjv
      refine hnone _ ?_ ?_ hq
      · have : su * 32 ≤ bitflags.find_unit bf v (hi / 32) su * 32 :=
          Nat.mul_le_mul_right _ hd1
        omega
      · have : bitflags.find_unit bf v (hi / 32) su * 32 + 32 ≤ (hi / 32) * 32 := by
          have : bitflags.find_unit bf v (hi / 32) su + 1 ≤ hi / 32 := by omega
          calc bitflags.find_unit bf v (hi / 32) su * 32 + 32
              = (bitflags.find_unit bf v (hi / 32) su + 1) * 32 := by ring
            _ ≤ (hi / 32) * 32 := Nat.mul_le_mul_right _ this
        omega
  rw [hdeq, if_neg (by omega)]
  by_cases htm : hi % 32 = 0
  · rw [if_neg (by rw [bne_iff_ne]; omega)]
  · rw [if_pos (by rw [bne_iff_ne]; exact htm)]
    have hchk : ¬ (bitflags.mask_hit v (bf.bits.getD (hi / 32) 0)
        ((1 <<< (hi % 32)) - 1) = true) := by
      intro hc
      obtain ⟨j, -, hj2, hj3⟩ := (mask_hit_iff (by omega) (maskC_char (hi % 32))).mp hc
      have hq : bf.get (hi / 32 * 32 + j) = v := by
        rw [global_get bf _ j (by omega)]
        exact hj3
      refine hnone _ ?_ (by omega) hq
      have : su * 32 ≤ hi / 32 * 32 := Nat.mul_le_mul_right _ hsu
      omega
    rw [if_neg hchk]

/-- The whole-units-plus-tail part of `find_next` when the least flag with
the sought value at or above `su * 32` is `m < hi`: it returns `m`. -/
theorem find_next_rest_eq_least (bf : Gcpp.bitflags) (v : Bool)
    (hword : ∀ u, bf.bits.getD u 0 < bitflags.unitBound)
    (hi su m : Nat) (hsu : su ≤ hi / 32)
    (hmsu : su * 32 ≤ m) (hm2 : m < hi) (hPm : bf.get m = v)
    (hmin2 : ∀ k, su * 32 ≤ k → k < m → bf.get k ≠ v) :
    (if bitflags.find_unit bf v (hi / 32) su < hi / 32 then
      bitflags.scanUp bf v hi (bitflags.find_unit bf v (hi / 32) su * 32)
    else if hi % 32 != 0 then
      (if bitflags.mask_hit v (bf.bits.getD (hi / 32) 0) ((1 <<< (hi % 32)) - 1) = true then
        bitflags.scanUp bf v hi (hi / 32 * 32)
      else hi)
    else hi) = m := by
  obtain ⟨hd1, hd2, hd3, hd4⟩ := find_unit_spec bf v (hi / 32) (hi / 32) su (by omega) hsu
  have hum1 : su ≤ m / 32 := by omega
  have hum2 : m / 32 ≤ hi / 32 := by omega
  have hpred_um : bitflags.unit_pred v (bf.bits.getD (m / 32) 0) = true := by
    refine (unit_pred_iff (hword (m / 32))).mpr ⟨m % 32, by omega, ?_⟩
    have := global_get bf (m / 32) (m % 32) (by omega)
    rw [show m / 32 * 32 + m % 32 = m by omega] at this
    rw [← this]
    exact hPm
  have hdum : bitflags.find_unit bf v (hi / 32) su ≤ m / 32 := by
    by_contra hc
    push_neg at hc
    have := hd3 (m / 32) hum1 hc
    rw [hpred_um] at this
    exact Bool.noConfusion this
  by_cases hdlt : bitflags.find_unit bf v (hi / 32) su < hi / 32
  · rw [if_pos hdlt]
    refine scanUp_eq_least bf v hi _ m ?_ (by omega) hPm ?_
    · have h1 : bitflags.find_unit bf v (hi / 32) su * 32 ≤ m / 32 * 32 :=
        Nat.mul_le_mul_right _ hdum
      omega
    · intro k hk1 hk2
      refine hmin2 k ?_ hk2
      have : su * 32 ≤ bitflags.find_unit bf v (hi / 32) su * 32 :=
        Nat.mul_le_mul_right _ hd1
      omega
  · rw [if_neg hdlt]
    have hdeq : bitflags.find_unit bf v (hi / 32) su = hi / 32 := by omega
    -- no matching flag below (hi/32)*32, so m sits in the final partial unit
    have hnolow : ∀ q, su * 32 ≤ q → q < hi / 32 * 32 → bf.get q ≠ v := by
      refine units_no_flag hword ?_
      intro x hx1 hx2
      exact hd3 x hx1 (by omega)
    have hmtail : hi / 32 * 32 ≤ m := by
      by_contra hc
      push_neg at hc
      exact hnolow m hmsu hc hPm
    have htm : hi % 32 ≠ 0 := by omega
    rw [if_pos (by rw [bne_iff_ne]; exact htm)]
    have hchk : bitflags.mask_hit v (bf.bits.getD (hi / 32) 0)
        ((1 <<< (hi % 32)) - 1) = true := by
      refine (mask_hit_iff (by omega) (maskC_char (hi % 32))).mpr ⟨m % 32, by omega, by omega, ?_⟩
      have := global_get bf (hi / 32) (m % 32) (by omega)
      rw [show hi / 32 * 32 + m % 32 = m by omega] at this
      rw [← this]
      exact hPm
    rw [if_pos hchk]
    refine scanUp_eq_least bf v hi _ m (by omega) (by omega) hPm ?_
    intro k hk1 hk2
    refine hmin2 k ?_ hk2
    have : su * 32 ≤ hi / 32 * 32 := Nat.mul_le_mul_right _ hsu
    omega

/-- `find_next` returns `hi` when no flag in `[lo, hi)` has the sought
value. -/
theorem find_next_eq_hi (bf : Gcpp.bitflags) (hwf : bitflags.WF bf)
    (lo hi : Nat) (v : Bool) (hlh : lo ≤ hi) (hhs : hi ≤ bf.size)
    (hnone : ∀ k, lo ≤ k → k < hi → bf.get k ≠ v) :
    bitflags.find_next bf lo hi v = hi := by
  have hword := WF_word hwf
  by_cases hlohi : lo = hi
  · rw [bitflags.find_next, if_pos (by rw [beq_iff_eq]; exact hlohi)]
  have hlt : lo < hi := by omega
  have hfu_le : lo / 32 ≤ hi / 32 := Nat.div_le_div_right hlh
  simp only [bitflags.find_next]
  rw [if_neg (by rw [beq_iff_eq]; exact hlohi)]
  by_cases hfm : lo % 32 = 0
  · rw [if_neg (by rw [bne_iff_ne]; omega)]
    exact find_next_rest_eq_hi bf v hword lo hi (lo / 32) (by omega) hfu_le hnone
  · rw [if_pos (by rw [bne_iff_ne]; exact hfm)]
    by_cases hft : lo / 32 = hi / 32
    · have hbeq : (lo / 32 == hi / 32) = true := beq_iff_eq.mpr hft
      simp only [hbeq, eq_self_iff_true, if_true]
      have hchk : ¬ (bitflags.mask_hit v (bf.bits.getD (lo / 32) 0)
          (bitflags.compl32 ((1 <<< (lo % 32)) - 1 |||
            bitflags.compl32 ((1 <<< (hi % 32)) - 1))) = true) := by
        intro hc
        obtain ⟨j, hj1, hj2, hj3⟩ := (mask_hit_iff (by omega)
          (fun j => maskA_char (lo % 32) (hi % 32) j (by omega) (by omega))).mp hc
        have hq : bf.get (lo / 32 * 32 + j) = v := by
          rw [global_get bf _ j (by omega)]
          exact hj3
        refine hnone _ (by omega) ?_ hq
        have : lo / 32 * 32 = hi / 32 * 32 := by rw [hft]
        omega
      rw [if_neg hchk]
    · have hfu_lt : lo / 32 < hi / 32 := by omega
      have hbeq : (lo / 32 == hi / 32) = false := by
        rw [beq_eq_false_iff_ne]
        exact hft
      simp only [hbeq, Bool.false_eq_true, if_false]
      have hchk : ¬ (bitflags.mask_hit v (bf.bits.getD (lo / 32) 0)
          (bitflags.compl32 ((1 <<< (lo % 32)) - 1)) = true) := by
        intro hc
        obtain ⟨j, hj1, hj2, hj3⟩ := (mask_hit_iff (by omega)
          (fun j => maskB_char (lo % 32) j (by omega))).mp hc
        have hq : bf.get (lo / 32 * 32 + j) = v := by
          rw [global_get bf _ j (by omega)]
          exact hj3
        refine hnone _ (by omega) ?_ hq
        have : (lo / 32 + 1) * 32 ≤ hi / 32 * 32 := Nat.mul_le_mul_right _ (by omega)
        omega
      rw [if_neg hchk]
      exact find_next_rest_eq_hi bf v hword lo hi (lo / 32 + 1) (by omega) (by omega) hnone

/-- `find_next` returns the least flag position `m ∈ [lo, hi)` carrying the
sought value when one exists. -/
theorem find_next_eq_least (bf : Gcpp.bitflags) (hwf : bitflags.WF bf)
    (lo hi : Nat) (v : Bool) (m : Nat) (hhs : hi ≤ bf.size)
    (hm1 : lo ≤ m) (hm2 : m < hi) (hPm : bf.get m = v)
    (hmin : ∀ k, lo ≤ k → k < m → bf.get k ≠ v) :
    bitflags.find_next bf lo hi v = m := by
  have hword := WF_word hwf
  have hlt : lo < hi := by omega
  have hfu_le : lo / 32 ≤ hi / 32 := Nat.div_le_div_right (by omega)
  simp only [bitflags.find_next]
  rw [if_neg (by rw [beq_iff_eq]; omega)]
  by_cases hfm : lo % 32 = 0
  · rw [if_neg (by rw [bne_iff_ne]; omega)]
    exact find_next_rest_eq_least bf v hword hi (lo / 32) m hfu_le (by omega) hm2 hPm
      (fun k hk1 hk2 => hmin k (by omega) hk2)
  · rw [if_pos (by rw [bne_iff_ne]; exact hfm)]
    by_cases hft : lo / 32 = hi / 32
    · have hbeq : (lo / 32 == hi / 32) = true := beq_iff_eq.mpr hft
      simp only [hbeq, eq_self_iff_true, if_true]
      have hhi32 : hi = lo / 32 * 32 + hi % 32 := by
        have : lo / 32 * 32 = hi / 32 * 32 := by rw [hft]
        omega
      have hchk : bitflags.mask_hit v (bf.bits.getD (lo / 32) 0)
          (bitflags.compl32 ((1 <<< (lo % 32)) - 1 |||
            bitflags.compl32 ((1 <<< (hi % 32)) - 1))) = true := by
        refine (mask_hit_iff (by omega)
          (fun j => maskA_char (lo % 32) (hi % 32) j (by omega) (by omega))).mpr
          ⟨m % 32, by omega, by omega, ?_⟩
        have := global_get bf (lo / 32) (m % 32) (by omega)
        rw [show lo / 32 * 32 + m % 32 = m by omega] at this
        rw [← this]
        exact hPm
      rw [if_pos hchk]
      exact scanUp_eq_least bf v hi lo m hm1 (by omega) hPm hmin
    · have hfu_lt : lo / 32 < hi / 32 := by omega
      have hbeq : (lo / 32 == hi / 32) = false := by
        rw [beq_eq_false_iff_ne]
        exact hft
      simp only [hbeq, Bool.false_eq_true, if_false]
      by_cases hchk : bitflags.mask_hit v (bf.bits.getD (lo / 32) 0)
          (bitflags.compl32 ((1 <<< (lo % 32)) - 1)) = true
      · rw [if_pos hchk]
        exact scanUp_eq_least bf v hi lo m hm1 (by omega) hPm hmin
      · rw [if_neg hchk]
        have hnocov : ∀ q, lo ≤ q → q < (lo / 32 + 1) * 32 → bf.get q ≠ v := by
          intro q h1 h2 hq
          refine hchk ((mask_hit_iff (by omega)
            (fun j => maskB_char (lo % 32) j (by omega))).mpr
            ⟨q % 32, by omega, by omega, ?_⟩)
          have := global_get bf (lo / 32) (q % 32) (by omega)
          rw [show lo / 32 * 32 + q % 32 = q by omega] at this
          rw [← this]
          exact hq
        have hmsu : (lo / 32 + 1) * 32 ≤ m := by
          by_contra hc
          push_neg at hc
          exact hnocov m hm1 hc hPm
        refine find_next_rest_eq_least bf v hword hi (lo / 32 + 1) m (by omega) hmsu hm2 hPm ?_
        intro k hk1 hk2
        rcases Nat.lt_or_ge k lo with hkl | hkl
        · -- impossible: k ≥ (lo/32+1)*32 > lo
          omega
        · exact hmin k hkl hk2

/-- C8: for every well-formed bitflags, bounds `lo ≤ hi ≤ size` and sought
value `v`, `find_next(lo, hi, v)` returns the smallest `k ∈ [lo, hi)` with
`get(k) == v`, or `hi` if no such `k` exists.  (The embedding is a pure
function of the flag vector: the flags are left unchanged, as in the
source, which performs no writes.) -/
theorem find_next_finds_least (bf : Gcpp.bitflags) (hwf : bitflags.WF bf)
    (lo hi : Nat) (v : Bool) (hlh : lo ≤ hi) (hhs : hi ≤ bf.size) :
    (∀ k, lo ≤ k → k < bitflags.find_next bf lo hi v → bf.get k ≠ v) ∧
    (bitflags.find_next bf lo hi v = hi ∨
      (lo ≤ bitflags.find_next bf lo hi v ∧ bitflags.find_next bf lo hi v < hi ∧
        bf.get (bitflags.find_next bf lo hi v) = v)) := by
  by_cases hex : ∃ k, lo ≤ k ∧ k < hi ∧ bf.get k = v
  · have hspec := Nat.find_spec hex
    have hmin : ∀ k, lo ≤ k → k < Nat.find hex → bf.get k ≠ v := by
      intro k h1 h2 hc
      exact Nat.find_min hex h2 ⟨h1, by omega, hc⟩
    have heq := find_next_eq_least bf hwf lo hi v (Nat.find hex) hhs hspec.1 hspec.2.1
      hspec.2.2 hmin
    rw [heq]
    exact ⟨hmin, Or.inr ⟨hspec.1, hspec.2.1, hspec.2.2⟩⟩
  · push_neg at hex
    have heq := find_next_eq_hi bf hwf lo hi v hlh hhs (fun k h1 h2 => hex k h1 h2)
    rw [heq]
    exact ⟨fun k h1 h2 => hex k h1 (by omega), Or.inl rfl⟩

/-- C8 witness: a 40-flag vector with only flag 35 set; searching for true
in `[0, 40)` must find 35, and searching below it must find nothing. -/
theorem find_next_finds_least_witness :
    (∀ k, 0 ≤ k →
      k < bitflags.find_next ((bitflags.mk_bitflags 40 false).set 35 true) 0 40 true →
      ((bitflags.mk_bitflags 40 false).set 35 true).get k ≠ true) ∧
    (bitflags.find_next ((bitflags.mk_bitflags 40 false).set 35 true) 0 40 true = 40 ∨
      (0 ≤ bitflags.find_next ((bitflags.mk_bitflags 40 false).set 35 true) 0 40 true ∧
        bitflags.find_next ((bitflags.mk_bitflags 40 false).set 35 true) 0 40 true < 40 ∧
        ((bitflags.mk_bitflags 40 false).set 35 true).get
          (bitflags.find_next ((bitflags.mk_bitflags 40 false).set 35 true) 0 40 true) =
          true)) :=
  find_next_finds_least ((bitflags.mk_bitflags 40 false).set 35 true)
    (by constructor
        · decide
        · decide)
    0 40 true (by decide) (by decide)

/-! ### C9 — registration lemmas -/

theorem replaceFirst_perm {l : List Nat} {a : Nat} (b : Nat) (ha : a ∈ l) :
    (reg.replaceFirst l a b).Perm (b :: l.erase a) := by
  induction l with
  | nil => exact absurd ha (List.not_mem_nil a)
  | cons x xs ih =>
    rw [reg.replaceFirst]
    by_cases hx : x = a
    · rw [if_pos hx, hx, List.erase_cons_head]
    · rw [if_neg hx, List.erase_cons_tail (by simpa using fun hc => hx hc)]
      have hax : a ∈ xs := by
        rcases List.mem_cons.mp ha with he | hm
        · exact absurd he.symm hx
        · exact hm
      exact ((ih hax).cons x).trans (List.Perm.swap b x _)

theorem swapPopLast_some_count {dps : List Nat} {a : Nat} {l2 : List Nat}
    (h : reg.swapPopLast dps a = some l2) :
    (∀ b, b ≠ a → l2.count b = dps.count b) ∧ l2.count a + 1 = dps.count a := by
  rw [reg.swapPopLast] at h
  rcases hrev : dps.reverse with _ | ⟨last, rrest⟩
  · rw [hrev] at h
    exact absurd h (by simp)
  rw [hrev] at h
  dsimp only [] at h
  have hperm : dps.Perm (last :: rrest) := by
    rw [← hrev]
    exact (List.reverse_perm dps).symm
  have hcnt : ∀ c, dps.count c = rrest.count c + if last = c then 1 else 0 := by
    intro c
    rw [hperm.count_eq c, List.count_cons]
    simp
  by_cases hal : a = last
  · rw [if_pos hal] at h
    have hl2 : l2 = rrest.reverse := (Option.some.inj h).symm
    constructor
    · intro b hb
      rw [hl2, List.count_reverse, hcnt b, if_neg (by omega)]
      omega
    · rw [hl2, List.count_reverse, hcnt a, if_pos hal.symm]
  · rw [if_neg hal] at h
    by_cases hmem : a ∈ rrest
    · rw [if_pos hmem] at h
      have hl2 : l2 = (reg.replaceFirst rrest a last).reverse := (Option.some.inj h).symm
      have hp := replaceFirst_perm last hmem
      have hc : ∀ c, l2.count c = (last :: rrest.erase a).count c := by
        intro c
        rw [hl2, List.count_reverse]
        exact hp.count_eq c
      have hapos : 0 < rrest.count a := List.count_pos_iff_mem.mpr hmem
      constructor
      · intro b hb
        rw [hc b, List.count_cons, List.count_erase_of_ne hb, hcnt b]
        simp only [beq_iff_eq]
      · rw [hc a, List.count_cons, List.count_erase_self, hcnt a]
        simp only [beq_iff_eq]
        rw [if_neg (fun hc2 => hal hc2.symm)]
        omega
    · rw [if_neg hmem] at h
      exact absurd h (by simp)

theorem swapPopLast_none {dps : List Nat} {a : Nat}
    (h : reg.swapPopLast dps a = none) : a ∉ dps := by
  rw [reg.swapPopLast] at h
  rcases hrev : dps.reverse with _ | ⟨last, rrest⟩
  · intro hc
    have : a ∈ dps.reverse := List.mem_reverse.mpr hc
    rw [hrev] at this
    exact absurd this (List.not_mem_nil a)
  rw [hrev] at h
  dsimp only [] at h
  by_cases hal : a = last
  · rw [if_pos hal] at h
    exact absurd h (by simp)
  · rw [if_neg hal] at h
    by_cases hmem : a ∈ rrest
    · rw [if_pos hmem] at h
      exact absurd h (by simp)
    · intro hc
      have : a ∈ dps.reverse := List.mem_reverse.mpr hc
      rw [hrev, List.mem_cons] at this
      rcases this with he | hm
      · exact hal he
      · exact hmem hm

theorem pagesOcc_append (a : Nat) (l1 l2 : List reg.dhpage) :
    reg.pagesOcc a (l1 ++ l2) = reg.pagesOcc a l1 + reg.pagesOcc a l2 := by
  induction l1 with
  | nil => rw [List.nil_append, reg.pagesOcc, Nat.zero_add]
  | cons pg rest ih => rw [List.cons_append, reg.pagesOcc, reg.pagesOcc, ih]; omega

theorem contOcc_append (a : Nat) (l1 l2 : List reg.dhpage) :
    reg.contOcc a (l1 ++ l2) = reg.contOcc a l1 + reg.contOcc a l2 := by
  induction l1 with
  | nil => rw [List.nil_append, reg.contOcc, Nat.zero_add]
  | cons pg rest ih => rw [List.cons_append, reg.contOcc, reg.contOcc, ih]; omega

theorem contOcc_le_pagesOcc (a : Nat) (pages : List reg.dhpage) :
    reg.contOcc a pages ≤ reg.pagesOcc a pages := by
  induction pages with
  | nil => exact Nat.le_refl _
  | cons pg rest ih =>
    rw [reg.contOcc, reg.pagesOcc]
    by_cases hc : pg.containsAddr a
    · rw [if_pos hc]; omega
    · rw [if_neg hc]; omega

theorem forall2_mem_right {R : reg.dhpage → reg.dhpage → Prop} :
    ∀ {l1 l2 : List reg.dhpage}, List.Forall₂ R l1 l2 → ∀ {y}, y ∈ l2 → ∃ x ∈ l1, R x y := by
  intro l1 l2 h
  induction h with
  | nil => intro y hy; exact absurd hy (List.not_mem_nil y)
  | cons hr hrest ih =>
    intro y hy
    rcases List.mem_cons.mp hy with he | hm
    · exact ⟨_, List.mem_cons_self _ _, he ▸ hr⟩
    · obtain ⟨x, hx1, hx2⟩ := ih hm
      exact ⟨x, List.mem_cons_of_mem _ hx1, hx2⟩

theorem enregPages_none_iff {a : Nat} :
    ∀ {pages : List reg.dhpage},
      reg.enregPages a pages = none ↔ ∀ pg ∈ pages, pg.containsAddr a = false := by
  intro pages
  induction pages with
  | nil => simp [reg.enregPages]
  | cons pg rest ih =>
    rw [reg.enregPages]
    by_cases hc : pg.containsAddr a = true
    · rw [if_pos hc]
      constructor
      · intro h
        exact absurd h (by simp)
      · intro h
        have h2 := h pg (List.mem_cons_self _ _)
        rw [hc] at h2
        exact absurd h2 (by simp)
    · rw [if_neg hc]
      have hcf : pg.containsAddr a = false := by
        rcases hb : pg.containsAddr a with _ | _
        · rfl
        · exact absurd hb hc
      rcases hrec : reg.enregPages a rest with _ | rest2
      · constructor
        · intro _ pg2 hpg2
          rcases List.mem_cons.mp hpg2 with he | hm
          · rw [he]
            exact hcf
          · exact ih.mp hrec pg2 hm
        · intro _
          rfl
      · constructor
        · intro h2
          exact absurd h2 (by simp)
        · intro h2
          have h3 := ih.mpr (fun pg2 hm => h2 pg2 (List.mem_cons_of_mem _ hm))
          rw [hrec] at h3
          exact absurd h3 (by simp)

theorem enregPages_some_spec {a : Nat} :
    ∀ {pages ps : List reg.dhpage}, reg.enregPages a pages = some ps →
      reg.pagesOcc a ps = reg.pagesOcc a pages + 1 ∧
      (∀ b, b ≠ a → reg.pagesOcc b ps = reg.pagesOcc b pages) ∧
      reg.contOcc a ps = reg.contOcc a pages + 1 ∧
      (∀ b, b ≠ a → reg.contOcc b ps = reg.contOcc b pages) ∧
      List.Forall₂ (fun p q => q.base = p.base ∧ q.size = p.size) pages ps := by
  intro pages
  induction pages with
  | nil => intro ps h; exact absurd h (by simp [reg.enregPages])
  | cons pg rest ih =>
    intro ps h
    rw [reg.enregPages] at h
    by_cases hc : pg.containsAddr a
    · rw [if_pos hc] at h
      have hps : ps = { pg with dps := pg.dps ++ [a] } :: rest := (Option.some.inj h).symm
      have hcnt : ∀ b, (pg.dps ++ [a]).count b = pg.dps.count b + if b = a then 1 else 0 := by
        intro b
        rw [List.count_append, List.count_singleton]
        simp only [beq_iff_eq]
        by_cases hb : b = a
        · rw [if_pos hb, if_pos hb.symm]
        · rw [if_neg hb, if_neg (fun hc2 => hb hc2.symm)]
      have hcont2 : (⟨pg.base, pg.size, pg.dps ++ [a]⟩ : reg.dhpage).containsAddr a =
          pg.containsAddr a := rfl
      refine ⟨?_, ?_, ?_, ?_, ?_⟩
      · rw [hps, reg.pagesOcc, reg.pagesOcc, hcnt a, if_pos rfl]; omega
      · intro b hb
        rw [hps, reg.pagesOcc, reg.pagesOcc, hcnt b, if_neg hb]
        omega
      · rw [hps, reg.contOcc, reg.contOcc]
        show (if pg.containsAddr a then (pg.dps ++ [a]).count a else 0) + _ = _
        rw [if_pos hc, if_pos hc, hcnt a, if_pos rfl]
        omega
      · intro b hb
        rw [hps, reg.contOcc, reg.contOcc]
        show (if pg.containsAddr b then (pg.dps ++ [a]).count b else 0) + _ = _
        by_cases hcb : pg.containsAddr b
        · rw [if_pos hcb, if_pos hcb, hcnt b, if_neg hb]
          omega
        · rw [if_neg hcb, if_neg hcb]
      · rw [hps]
        exact List.Forall₂.cons ⟨rfl, rfl⟩ (List.forall₂_same.mpr fun x _ => ⟨rfl, rfl⟩)
    · rw [if_neg hc] at h
      rcases hrec : reg.enregPages a rest with _ | rest2
      · rw [hrec] at h
        exact absurd h (by simp)
      · rw [hrec] at h
        have hps : ps = pg :: rest2 := (Option.some.inj h).symm
        obtain ⟨h1, h2, h3, h4, h5⟩ := ih hrec
        refine ⟨?_, ?_, ?_, ?_, ?_⟩
        · rw [hps, reg.pagesOcc, reg.pagesOcc, h1]; omega
        · intro b hb
          rw [hps, reg.pagesOcc, reg.pagesOcc, h2 b hb]
        · rw [hps, reg.contOcc, reg.contOcc, h3]; omega
        · intro b hb
          rw [hps, reg.contOcc, reg.contOcc, h4 b hb]
        · rw [hps]
          exact List.Forall₂.cons ⟨rfl, rfl⟩ h5

theorem deregPages_some_spec {a : Nat} :
    ∀ {pages ps : List reg.dhpage}, reg.deregPages a pages = some ps →
      reg.pagesOcc a ps + 1 = reg.pagesOcc a pages ∧
      (∀ b, b ≠ a → reg.pagesOcc b ps = reg.pagesOcc b pages) ∧
      (∀ b, b ≠ a → reg.contOcc b ps = reg.contOcc b pages) ∧
      List.Forall₂ (fun p q => q.base = p.base ∧ q.size = p.size) pages ps := by
  intro pages
  induction pages with
  | nil => intro ps h; exact absurd h (by simp [reg.deregPages])
  | cons pg rest ih =>
    intro ps h
    rw [reg.deregPages] at h
    rcases hsp : reg.swapPopLast pg.dps a with _ | l2
    · rw [hsp] at h
      rcases hrec : reg.deregPages a rest with _ | rest2
      · rw [hrec] at h
        exact absurd h (by simp)
      · rw [hrec] at h
        have hps : ps = pg :: rest2 := (Option.some.inj h).symm
        obtain ⟨h1, h2, h3, h4⟩ := ih hrec
        refine ⟨?_, ?_, ?_, ?_⟩
        · rw [hps, reg.pagesOcc, reg.pagesOcc]; omega
        · intro b hb
          rw [hps, reg.pagesOcc, reg.pagesOcc, h2 b hb]
        · intro b hb
          rw [hps, reg.contOcc, reg.contOcc, h3 b hb]
        · rw [hps]
          exact List.Forall₂.cons ⟨rfl, rfl⟩ h4
    · rw [hsp] at h
      have hps : ps = { pg with dps := l2 } :: rest := (Option.some.inj h).symm
      obtain ⟨hcb, hca⟩ := swapPopLast_some_count hsp
      refine ⟨?_, ?_, ?_, ?_⟩
      · rw [hps, reg.pagesOcc, reg.pagesOcc]
        dsimp only []
        omega
      · intro b hb
        rw [hps, reg.pagesOcc, reg.pagesOcc, hcb b hb]
      · intro b hb
        rw [hps, reg.contOcc, reg.contOcc]
        show (if pg.containsAddr b then l2.count b else 0) + _ = _
        by_cases hcc : pg.containsAddr b
        · rw [if_pos hcc, if_pos hcc, hcb b hb]
        · rw [if_neg hcc, if_neg hcc]
      · rw [hps]
        exact List.Forall₂.cons ⟨rfl, rfl⟩ (List.forall₂_same.mpr fun x _ => ⟨rfl, rfl⟩)

theorem deregPages_isSome {a : Nat} :
    ∀ {pages : List reg.dhpage}, 0 < reg.pagesOcc a pages →
      ∃ ps, reg.deregPages a pages = some ps := by
  intro pages
  induction pages with
  | nil => intro h; rw [reg.pagesOcc] at h; omega
  | cons pg rest ih =>
    intro h
    rw [reg.pagesOcc] at h
    rw [reg.deregPages]
    by_cases hmem : a ∈ pg.dps
    · rcases hsp : reg.swapPopLast pg.dps a with _ | l2
      · exact absurd (swapPopLast_none hsp) (by exact fun hc => hc hmem)
      · exact ⟨_, rfl⟩
    · have hz : pg.dps.count a = 0 := List.count_eq_zero_of_not_mem hmem
      rcases hsp : reg.swapPopLast pg.dps a with _ | l2
      · obtain ⟨ps2, hps2⟩ := ih (by omega)
        rw [hps2]
        exact ⟨_, rfl⟩
      · exact ⟨_, rfl⟩

theorem count_insertRoot_self {roots : List Nat} {a : Nat} (h : a ∉ roots) :
    (reg.insertRoot roots a).count a = roots.count a + 1 := by
  rw [reg.insertRoot, if_neg h, List.count_append, List.count_singleton]
  simp

theorem count_insertRoot_ne {roots : List Nat} {a b : Nat} (h : b ≠ a) :
    (reg.insertRoot roots a).count b = roots.count b := by
  rw [reg.insertRoot]
  by_cases hm : a ∈ roots
  · rw [if_pos hm]
  · rw [if_neg hm, List.count_append, List.count_singleton]
    simp only [beq_iff_eq]
    rw [if_neg (fun hc => h hc.symm)]
    omega

theorem containsAddr_congr {p q : reg.dhpage} (hb : q.base = p.base)
    (hs : q.size = p.size) (b : Nat) : q.containsAddr b = p.containsAddr b := by
  rw [reg.dhpage.containsAddr, reg.dhpage.containsAddr, hb, hs]

theorem pairwise_disjoint_transfer :
    ∀ {ps qs : List reg.dhpage},
      List.Forall₂ (fun p q => q.base = p.base ∧ q.size = p.size) ps qs →
      List.Pairwise (fun p q => p.base + p.size ≤ q.base ∨ q.base + q.size ≤ p.base) ps →
      List.Pairwise (fun p q => p.base + p.size ≤ q.base ∨ q.base + q.size ≤ p.base) qs := by
  intro ps qs h
  induction h with
  | nil => intro _; exact List.Pairwise.nil
  | @cons p q ps2 qs2 hr hrest ih =>
    intro hp
    rcases List.pairwise_cons.mp hp with ⟨hhead, htail⟩
    refine List.pairwise_cons.mpr ⟨?_, ih htail⟩
    intro y hy
    obtain ⟨x, hx1, hx2⟩ := forall2_mem_right hrest hy
    have hd := hhead x hx1
    rw [hr.1, hr.2, hx2.1, hx2.2]
    exact hd

theorem attachPtr_map_addr (ptrs : List reg.ptrObj) (a : Nat) :
    (reg.attachPtr ptrs a).map reg.ptrObj.addr = ptrs.map reg.ptrObj.addr := by
  induction ptrs with
  | nil => rfl
  | cons po rest ih =>
    simp only [reg.attachPtr, List.map_cons] at ih ⊢
    rw [ih]
    by_cases h : po.addr = a
    · rw [if_pos h]
    · rw [if_neg h]

theorem placedOnce_congr {h1 h2 : reg.deferred_heap} {b : Nat}
    (hroots : h2.roots.count b = h1.roots.count b)
    (hocc : reg.pagesOcc b h2.pages = reg.pagesOcc b h1.pages)
    (hcont : reg.contOcc b h2.pages = reg.contOcc b h1.pages)
    (hf : List.Forall₂ (fun p q => q.base = p.base ∧ q.size = p.size) h1.pages h2.pages)
    (h : reg.placedOnce h1 b) : reg.placedOnce h2 b := by
  obtain ⟨h1a, h1b, h1c⟩ := h
  refine ⟨by omega, by omega, ?_⟩
  intro hone pg2 hpg2
  obtain ⟨pg1, hm1, hext⟩ := forall2_mem_right hf hpg2
  rw [containsAddr_congr hext.1 hext.2]
  exact h1c (by omega) pg1 hm1

theorem unregistered_congr {h1 h2 : reg.deferred_heap} {b : Nat}
    (hroots : h2.roots.count b = h1.roots.count b)
    (hocc : reg.pagesOcc b h2.pages = reg.pagesOcc b h1.pages)
    (h : reg.unregistered h1 b) : reg.unregistered h2 b := by
  obtain ⟨u1, u2⟩ := h
  exact ⟨by omega, by omega⟩

theorem enregister_spec {h1 h2 : reg.deferred_heap} {a : Nat}
    (hd : h1.is_destroying = false)
    (hunreg : reg.unregistered h1 a)
    (henr : h1.enregister a = some h2) :
    reg.placedOnce h2 a ∧
    h2.is_destroying = h1.is_destroying ∧
    (∀ b, b ≠ a → h2.roots.count b = h1.roots.count b) ∧
    (∀ b, b ≠ a → reg.pagesOcc b h2.pages = reg.pagesOcc b h1.pages) ∧
    (∀ b, b ≠ a → reg.contOcc b h2.pages = reg.contOcc b h1.pages) ∧
    List.Forall₂ (fun p q => q.base = p.base ∧ q.size = p.size) h1.pages h2.pages := by
  obtain ⟨hu1, hu2⟩ := hunreg
  rw [reg.deferred_heap.enregister, hd] at henr
  simp only [Bool.false_eq_true, if_false] at henr
  have hcle : reg.contOcc a h1.pages = 0 := by
    have := contOcc_le_pagesOcc a h1.pages
    omega
  rcases hp : reg.enregPages a h1.pages with _ | ps
  · rw [hp] at henr
    have hh2 : h2 = { h1 with roots := reg.insertRoot h1.roots a, is_destroying := false } :=
      (Option.some.inj henr).symm
    subst hh2
    have hmem0 : a ∉ h1.roots := List.count_eq_zero.mp hu1
    refine ⟨⟨?_, ?_, ?_⟩, hd.symm, ?_, fun b hb => rfl, fun b hb => rfl,
      List.forall₂_same.mpr fun x _ => ⟨rfl, rfl⟩⟩
    · show (reg.insertRoot h1.roots a).count a + reg.pagesOcc a h1.pages = 1
      rw [count_insertRoot_self hmem0]
      omega
    · show reg.pagesOcc a h1.pages = reg.contOcc a h1.pages
      omega
    · intro hone pg hpg
      exact enregPages_none_iff.mp hp pg hpg
    · intro b hb
      show (reg.insertRoot h1.roots a).count b = h1.roots.count b
      exact count_insertRoot_ne hb
  · rw [hp] at henr
    have hh2 : h2 = { h1 with pages := ps, is_destroying := false } :=
      (Option.some.inj henr).symm
    subst hh2
    obtain ⟨e1, e2, e3, e4, e5⟩ := enregPages_some_spec hp
    refine ⟨⟨?_, ?_, ?_⟩, hd.symm, fun b hb => rfl, ?_, ?_, e5⟩
    · show h1.roots.count a + reg.pagesOcc a ps = 1
      rw [e1]
      omega
    · show reg.pagesOcc a ps = reg.contOcc a ps
      rw [e1, e3]
      omega
    · intro hone
      have hone2 : h1.roots.count a = 1 := hone
      exact absurd hone2 (by omega)
    · intro b hb
      exact e2 b hb
    · intro b hb
      exact e4 b hb

theorem deregister_spec {h1 h2 : reg.deferred_heap} {a : Nat}
    (hd : h1.is_destroying = false)
    (hpl : reg.placedOnce h1 a)
    (hder : h1.deregister a = some h2) :
    reg.unregistered h2 a ∧
    h2.is_destroying = h1.is_destroying ∧
    (∀ b, b ≠ a → h2.roots.count b = h1.roots.count b) ∧
    (∀ b, b ≠ a → reg.pagesOcc b h2.pages = reg.pagesOcc b h1.pages) ∧
    (∀ b, b ≠ a → reg.contOcc b h2.pages = reg.contOcc b h1.pages) ∧
    List.Forall₂ (fun p q => q.base = p.base ∧ q.size = p.size) h1.pages h2.pages := by
  obtain ⟨hp1, hp2, hp3⟩ := hpl
  rw [reg.deferred_heap.deregister, hd] at hder
  simp only [Bool.false_eq_true, if_false] at hder
  by_cases hmem : a ∈ h1.roots
  · rw [if_pos hmem] at hder
    have hh2 : h2 = { h1 with roots := h1.roots.erase a, is_destroying := false } :=
      (Option.some.inj hder).symm
    subst hh2
    have hpos : 0 < h1.roots.count a := List.count_pos_iff_mem.mpr hmem
    refine ⟨⟨?_, ?_⟩, hd.symm, ?_, fun b hb => rfl, fun b hb => rfl,
      List.forall₂_same.mpr fun x _ => ⟨rfl, rfl⟩⟩
    · show (h1.roots.erase a).count a = 0
      rw [List.count_erase_self]
      omega
    · show reg.pagesOcc a h1.pages = 0
      omega
    · intro b hb
      show (h1.roots.erase a).count b = h1.roots.count b
      exact List.count_erase_of_ne hb h1.roots
  · rw [if_neg hmem] at hder
    have hz : h1.roots.count a = 0 := List.count_eq_zero.mpr hmem
    rcases hdp : reg.deregPages a h1.pages with _ | ps
    · rw [hdp] at hder
      exact absurd hder (by simp)
    · rw [hdp] at hder
      have hh2 : h2 = { h1 with pages := ps, is_destroying := false } :=
        (Option.some.inj hder).symm
      subst hh2
      obtain ⟨d1, d2, d3, d4⟩ := deregPages_some_spec hdp
      refine ⟨⟨hz, ?_⟩, hd.symm, fun b hb => rfl, ?_, ?_, d4⟩
      · show reg.pagesOcc a ps = 0
        omega
      · intro b hb
        exact d2 b hb
      · intro b hb
        exact d3 b hb

theorem reg_Reach_INV {s : reg.sys} (h : reg.Reach s) : reg.INV s := by
  induction h with
  | init =>
    refine ⟨rfl, List.nodup_nil, List.Pairwise.nil, ?_, ?_, ?_⟩
    · intro po hpo
      exact absurd hpo (List.not_mem_nil po)
    · intro po hpo
      exact absurd hpo (List.not_mem_nil po)
    · intro a _
      exact ⟨rfl, rfl⟩
  | addPage s pg hR hnc hdps hdisj ih =>
    obtain ⟨ihd, ihn, ihp, iha, ihu, ihdead⟩ := ih
    have hz : ∀ b, reg.pagesOcc b [pg] = 0 := by
      intro b
      rw [reg.pagesOcc, reg.pagesOcc, hdps, List.count_nil]
    have hz2 : ∀ b, reg.contOcc b [pg] = 0 := by
      intro b
      rw [reg.contOcc, reg.contOcc, hdps, List.count_nil]
      simp
    refine ⟨ihd, ihn, ?_, ?_, ?_, ?_⟩
    · show List.Pairwise _ (s.heap.pages ++ [pg])
      refine List.pairwise_append.mpr ⟨ihp, List.pairwise_singleton _ pg, ?_⟩
      intro p hp q hq
      rw [List.mem_singleton.mp hq]
      exact (hdisj p hp).symm
    · intro po hpo hatt
      obtain ⟨p1, p2, p3⟩ := iha po hpo hatt
      refine ⟨?_, ?_, ?_⟩
      · show s.heap.roots.count po.addr + reg.pagesOcc po.addr (s.heap.pages ++ [pg]) = 1
        rw [pagesOcc_append]
        have := hz po.addr
        omega
      · show reg.pagesOcc po.addr (s.heap.pages ++ [pg]) =
          reg.contOcc po.addr (s.heap.pages ++ [pg])
        rw [pagesOcc_append, contOcc_append]
        have := hz po.addr
        have := hz2 po.addr
        omega
      · intro hone pg2 hpg2
        rcases List.mem_append.mp hpg2 with hm | hm
        · exact p3 hone pg2 hm
        · rw [List.mem_singleton.mp hm]
          exact hnc po hpo
    · intro po hpo hatt
      obtain ⟨u1, u2⟩ := ihu po hpo hatt
      refine ⟨u1, ?_⟩
      show reg.pagesOcc po.addr (s.heap.pages ++ [pg]) = 0
      rw [pagesOcc_append]
      have := hz po.addr
      omega
    · intro b hb
      obtain ⟨u1, u2⟩ := ihdead b hb
      refine ⟨u1, ?_⟩
      show reg.pagesOcc b (s.heap.pages ++ [pg]) = 0
      rw [pagesOcc_append]
      have := hz b
      omega
  | ctor_unattached s a hR hfresh ih =>
    obtain ⟨ihd, ihn, ihp, iha, ihu, ihdead⟩ := ih
    refine ⟨ihd, ?_, ihp, ?_, ?_, ?_⟩
    · show ((s.ptrs ++ [(⟨a, false⟩ : reg.ptrObj)]).map reg.ptrObj.addr).Nodup
      rw [List.map_append]
      refine List.nodup_append.mpr ⟨ihn, List.nodup_singleton a, ?_⟩
      intro x hx hx2
      obtain ⟨po, hpo, hpa⟩ := List.mem_map.mp hx
      exact hfresh po hpo (hpa.trans (List.mem_singleton.mp hx2))
    · intro po hpo hatt
      rcases List.mem_append.mp hpo with hm | hm
      · exact iha po hm hatt
      · rw [List.mem_singleton.mp hm] at hatt
        exact Bool.noConfusion hatt
    · intro po hpo hatt
      rcases List.mem_append.mp hpo with hm | hm
      · exact ihu po hm hatt
      · rw [List.mem_singleton.mp hm]
        exact ihdead a hfresh
    · intro b hb
      exact ihdead b fun po hpo => hb po (List.mem_append_left _ hpo)
  | ctor_attached s a h2 hR hfresh henr ih =>
    obtain ⟨ihd, ihn, ihp, iha, ihu, ihdead⟩ := ih
    obtain ⟨hplA, hdq, hrtsA, hoccA, hcontA, hfA⟩ :=
      enregister_spec ihd (ihdead a hfresh) henr
    refine ⟨?_, ?_, ?_, ?_, ?_, ?_⟩
    · show h2.is_destroying = false
      rw [hdq]
      exact ihd
    · show ((s.ptrs ++ [(⟨a, true⟩ : reg.ptrObj)]).map reg.ptrObj.addr).Nodup
      rw [List.map_append]
      refine List.nodup_append.mpr ⟨ihn, List.nodup_singleton a, ?_⟩
      intro x hx hx2
      obtain ⟨po, hpo, hpa⟩ := List.mem_map.mp hx
      exact hfresh po hpo (hpa.trans (List.mem_singleton.mp hx2))
    · exact pairwise_disjoint_transfer hfA ihp
    · intro po hpo hatt
      rcases List.mem_append.mp hpo with hm | hm
      · have hne : po.addr ≠ a := hfresh po hm
        exact placedOnce_congr (hrtsA _ hne) (hoccA _ hne) (hcontA _ hne) hfA
          (iha po hm hatt)
      · rw [List.mem_singleton.mp hm]
        exact hplA
    · intro po hpo hatt
      rcases List.mem_append.mp hpo with hm | hm
      · have hne : po.addr ≠ a := hfresh po hm
        exact unregistered_congr (hrtsA _ hne) (hoccA _ hne) (ihu po hm hatt)
      · rw [List.mem_singleton.mp hm] at hatt
        exact Bool.noConfusion hatt
    · intro b hb
      have hba : a ≠ b :=
        hb (⟨a, true⟩ : reg.ptrObj) (List.mem_append_right _ (List.mem_singleton_self _))
      have hnotin : ∀ po ∈ s.ptrs, po.addr ≠ b :=
        fun po hpo => hb po (List.mem_append_left _ hpo)
      have hne : b ≠ a := Ne.symm hba
      exact unregistered_congr (hrtsA _ hne) (hoccA _ hne) (ihdead b hnotin)
  | attach s a h2 hR hmem henr ih =>
    obtain ⟨ihd, ihn, ihp, iha, ihu, ihdead⟩ := ih
    obtain ⟨hplA, hdq, hrtsA, hoccA, hcontA, hfA⟩ :=
      enregister_spec ihd (ihu ⟨a, false⟩ hmem rfl) henr
    have haddr : ∀ po : reg.ptrObj,
        ((if po.addr = a then { po with attached := true } else po) : reg.ptrObj).addr =
          po.addr := by
      intro po
      by_cases hpa : po.addr = a
      · rw [if_pos hpa]
      · rw [if_neg hpa]
    refine ⟨?_, ?_, ?_, ?_, ?_, ?_⟩
    · show h2.is_destroying = false
      rw [hdq]
      exact ihd
    · show ((reg.attachPtr s.ptrs a).map reg.ptrObj.addr).Nodup
      rw [attachPtr_map_addr]
      exact ihn
    · exact pairwise_disjoint_transfer hfA ihp
    · intro po2 hpo2 hatt
      rw [reg.attachPtr] at hpo2
      obtain ⟨po, hpo, hfe⟩ := List.mem_map.mp hpo2
      subst hfe
      by_cases hpa : po.addr = a
      · rw [if_pos hpa]
        show reg.placedOnce h2 po.addr
        rw [hpa]
        exact hplA
      · rw [if_neg hpa] at hatt ⊢
        exact placedOnce_congr (hrtsA _ hpa) (hoccA _ hpa) (hcontA _ hpa) hfA
          (iha po hpo hatt)
    · intro po2 hpo2 hatt
      rw [reg.attachPtr] at hpo2
      obtain ⟨po, hpo, hfe⟩ := List.mem_map.mp hpo2
      subst hfe
      by_cases hpa : po.addr = a
      · rw [if_pos hpa] at hatt
        exact Bool.noConfusion hatt
      · rw [if_neg hpa] at hatt ⊢
        exact unregistered_congr (hrtsA _ hpa) (hoccA _ hpa) (ihu po hpo hatt)
    · intro b hb
      have hfm : (⟨a, true⟩ : reg.ptrObj) ∈ reg.attachPtr s.ptrs a := by
        rw [reg.attachPtr]
        refine List.mem_map.mpr ⟨⟨a, false⟩, hmem, ?_⟩
        rw [if_pos rfl]
      have hba : a ≠ b := hb (⟨a, true⟩ : reg.ptrObj) hfm
      have hnotin : ∀ po ∈ s.ptrs, po.addr ≠ b := by
        intro po hpo hcon
        have hfm2 : (if po.addr = a then { po with attached := true } else po) ∈
            reg.attachPtr s.ptrs a := by
          rw [reg.attachPtr]
          exact List.mem_map.mpr ⟨po, hpo, rfl⟩
        exact hb _ hfm2 (by rw [haddr po]; exact hcon)
      have hne : b ≠ a := Ne.symm hba
      exact unregistered_congr (hrtsA _ hne) (hoccA _ hne) (ihdead b hnotin)
  | dtor_unattached s a hR hmem ih =>
    obtain ⟨ihd, ihn, ihp, iha, ihu, ihdead⟩ := ih
    refine ⟨ihd, ?_, ihp, ?_, ?_, ?_⟩
    · show ((reg.removePtr s.ptrs a).map reg.ptrObj.addr).Nodup
      have hsub : List.Sublist ((reg.removePtr s.ptrs a).map reg.ptrObj.addr)
          (s.ptrs.map reg.ptrObj.addr) := (List.filter_sublist s.ptrs).map _
      exact List.Nodup.sublist hsub ihn
    · intro po hpo hatt
      exact iha po (List.mem_filter.mp hpo).1 hatt
    · intro po hpo hatt
      exact ihu po (List.mem_filter.mp hpo).1 hatt
    · intro b hb
      by_cases hba : b = a
      · rw [hba]
        exact ihu ⟨a, false⟩ hmem rfl
      · have hnotin : ∀ po ∈ s.ptrs, po.addr ≠ b := by
          intro po hpo hcon
          refine hb po (List.mem_filter.mpr ⟨hpo, ?_⟩) hcon
          rw [hcon]
          exact decide_eq_true hba
        exact ihdead b hnotin
  | dtor_attached s a h2 hR hmem hder ih =>
    obtain ⟨ihd, ihn, ihp, iha, ihu, ihdead⟩ := ih
    obtain ⟨hunregA, hdq, hrtsA, hoccA, hcontA, hfA⟩ :=
      deregister_spec ihd (iha ⟨a, true⟩ hmem rfl) hder
    refine ⟨?_, ?_, ?_, ?_, ?_, ?_⟩
    · show h2.is_destroying = false
      rw [hdq]
      exact ihd
    · show ((reg.removePtr s.ptrs a).map reg.ptrObj.addr).Nodup
      have hsub : List.Sublist ((reg.removePtr s.ptrs a).map reg.ptrObj.addr)
          (s.ptrs.map reg.ptrObj.addr) := (List.filter_sublist s.ptrs).map _
      exact List.Nodup.sublist hsub ihn
    · exact pairwise_disjoint_transfer hfA ihp
    · intro po hpo hatt
      obtain ⟨hm, hpred⟩ := List.mem_filter.mp hpo
      have hne : po.addr ≠ a := of_decide_eq_true hpred
      exact placedOnce_congr (hrtsA _ hne) (hoccA _ hne) (hcontA _ hne) hfA
        (iha po hm hatt)
    · intro po hpo hatt
      obtain ⟨hm, hpred⟩ := List.mem_filter.mp hpo
      have hne : po.addr ≠ a := of_decide_eq_true hpred
      exact unregistered_congr (hrtsA _ hne) (hoccA _ hne) (ihu po hm hatt)
    · intro b hb
      by_cases hba : b = a
      · rw [hba]
        exact hunregA
      · have hnotin : ∀ po ∈ s.ptrs, po.addr ≠ b := by
          intro po hpo hcon
          refine hb po (List.mem_filter.mpr ⟨hpo, ?_⟩) hcon
          rw [hcon]
          exact decide_eq_true hba
        exact unregistered_congr (hrtsA _ hba) (hoccA _ hba) (ihdead b hnotin)

/-- C9: in every reachable quiescent state of the registration system, a live
deferred_ptr is attached (non-null heap handle) exactly when its own storage
address is currently enregistered with the heap; an attached pointer is
registered exactly once and in the right place (once in total between the root
set and the pages' interior deferred_ptrs lists; every interior entry lies in a
page whose storage contains the pointer, and a rooted pointer lies outside
every page); an unattached pointer is registered nowhere.  Every constructor,
assignment, destructor and heap operation modelled by reg.Reach preserves
this. -/
theorem attached_iff_registered_once {s : reg.sys} (h : reg.Reach s) :
    ∀ po ∈ s.ptrs,
      (po.attached = true ↔
        0 < s.heap.roots.count po.addr + reg.pagesOcc po.addr s.heap.pages) ∧
      (po.attached = true → reg.placedOnce s.heap po.addr) ∧
      (po.attached = false → reg.unregistered s.heap po.addr) := by
  obtain ⟨ihd, ihn, ihp, iha, ihu, ihdead⟩ := reg_Reach_INV h
  intro po hpo
  refine ⟨?_, iha po hpo, ihu po hpo⟩
  rcases hatt : po.attached with _ | _
  · constructor
    · intro hc
      exact Bool.noConfusion hc
    · intro hlt
      obtain ⟨u1, u2⟩ := ihu po hpo hatt
      exact absurd hlt (by omega)
  · constructor
    · intro _
      obtain ⟨p1, p2, p3⟩ := iha po hpo hatt
      omega
    · intro _
      rfl

/-- Witness for C9: from the empty heap, constructing one attached
deferred_ptr at stack address 5 (outside every page, so it enregisters into
the root set) yields a state whose single live pointer is attached, rooted
exactly once, and covered by the theorem's characterisation. -/
theorem attached_iff_registered_once_witness :
    ((⟨5, true⟩ : reg.ptrObj).attached = true ↔
      0 < (⟨⟨[], [5], false⟩, [⟨5, true⟩]⟩ : reg.sys).heap.roots.count 5 +
        reg.pagesOcc 5 (⟨⟨[], [5], false⟩, [⟨5, true⟩]⟩ : reg.sys).heap.pages) ∧
    ((⟨5, true⟩ : reg.ptrObj).attached = true →
      reg.placedOnce (⟨⟨[], [5], false⟩, [⟨5, true⟩]⟩ : reg.sys).heap 5) ∧
    ((⟨5, true⟩ : reg.ptrObj).attached = false →
      reg.unregistered (⟨⟨[], [5], false⟩, [⟨5, true⟩]⟩ : reg.sys).heap 5) :=
  attached_iff_registered_once
    (reg.Reach.ctor_attached ⟨⟨[], [], false⟩, []⟩ 5 ⟨[], [5], false⟩
      reg.Reach.init (fun po hpo => absurd hpo (List.not_mem_nil po)) rfl)
    ⟨5, true⟩ (List.mem_singleton_self _)

/-! ### C1 — collect: null-out before destruction -/

theorem getD_set_true {l : List Bool} {S k : Nat} (h : l.getD k false = true) :
    (l.set S true).getD k false = true := by
  by_cases hS : S = k
  · subst hS
    exact getD_set_self true (getD_true_lt_length h)
  · rw [getD_set_ne true hS]
    exact h

theorem scan_back_le (starts : List Bool) : ∀ n, gpage.scan_back starts n ≤ n := by
  intro n
  induction n with
  | zero =>
    rw [gpage.scan_back]
  | succ s ih =>
    rw [gpage.scan_back]
    by_cases hs : starts.getD s false
    · rw [if_pos hs]
    · rw [if_neg hs]
      omega

theorem contains_info_start_lt {g : gpage} {p : Nat} {w : gpage.contains_info_ret}
    (hC : 0 < g.min_alloc) (hdvd : g.min_alloc ∣ g.total_size)
    (hci : g.contains_info p = some w)
    (hf : w.found = gpage.gpage_find_result.in_range_allocated_middle ∨
      w.found = gpage.gpage_find_result.in_range_allocated_start) :
    w.start_location < g.locations := by
  rw [gpage.contains_info] at hci
  by_cases hcont : g.contains p = true
  · rw [if_neg (fun hc => hc hcont)] at hci
    dsimp only [] at hci
    obtain ⟨hb1, hb2⟩ := of_decide_eq_true hcont
    obtain ⟨m, hm⟩ := hdvd
    have hlocs : g.locations = m := by
      rw [gpage.locations, hm, Nat.mul_div_cancel_left m hC]
    have hwh : (p - g.base) / g.min_alloc < m := by
      rw [Nat.div_lt_iff_lt_mul hC, Nat.mul_comm]
      omega
    by_cases hiu : g.inuse.getD ((p - g.base) / g.min_alloc) false = true
    · rw [if_neg (fun hc => hc hiu)] at hci
      by_cases hst : g.starts.getD ((p - g.base) / g.min_alloc) false = true
      · rw [if_neg (fun hc => hc hst)] at hci
        rw [← Option.some.inj hci, hlocs]
        exact hwh
      · rw [if_pos hst] at hci
        by_cases hst0 : gpage.scan_back g.starts ((p - g.base) / g.min_alloc) = 0
        · rw [if_pos hst0] at hci
          exact absurd hci (by simp)
        · rw [if_neg hst0] at hci
          rw [← Option.some.inj hci, hlocs]
          show gpage.scan_back g.starts ((p - g.base) / g.min_alloc) - 1 < m
          have hle := scan_back_le g.starts ((p - g.base) / g.min_alloc)
          omega
    · rw [if_pos hiu] at hci
      rw [← Option.some.inj hci] at hf
      rcases hf with hf | hf
      · exact gpage.gpage_find_result.noConfusion hf
      · exact gpage.gpage_find_result.noConfusion hf
  · rw [if_pos hcont] at hci
    rw [← Option.some.inj hci] at hf
    rcases hf with hf | hf
    · exact gpage.gpage_find_result.noConfusion hf
    · exact gpage.gpage_find_result.noConfusion hf

theorem markDps_cases {S lvl : Nat} {g : gpage} :
    ∀ {dps dps2 : List col.dpRec}, col.markDps S lvl g dps = some dps2 →
      ∀ dp2 ∈ dps2, ∃ dp ∈ dps, dp2.addr = dp.addr ∧
        (dp2 = dp ∨
          ∃ w, g.contains_info dp.addr = some w ∧
            (w.found = gpage.gpage_find_result.in_range_allocated_middle ∨
              w.found = gpage.gpage_find_result.in_range_allocated_start) ∧
            w.start_location = S) := by
  intro dps
  induction dps with
  | nil =>
    intro dps2 h dp2 hdp2
    rw [col.markDps] at h
    rw [← Option.some.inj h] at hdp2
    exact absurd hdp2 (List.not_mem_nil dp2)
  | cons dp rest ih =>
    intro dps2 h dp2 hdp2
    rw [col.markDps] at h
    rcases hci : g.contains_info dp.addr with _ | w
    · rw [hci] at h
      exact absurd h (by simp)
    rw [hci] at h
    dsimp only [] at h
    by_cases hf : w.found = gpage.gpage_find_result.in_range_allocated_middle ∨
        w.found = gpage.gpage_find_result.in_range_allocated_start
    · rw [if_pos hf] at h
      rcases hrec : col.markDps S lvl g rest with _ | rest2
      · rw [hrec] at h
        exact absurd h (by simp)
      rw [hrec] at h
      dsimp only [] at h
      rw [← Option.some.inj h] at hdp2
      rcases List.mem_cons.mp hdp2 with he | hm
      · by_cases hcond : w.start_location = S ∧ dp.level = 0
        · rw [if_pos hcond] at he
          exact ⟨dp, List.mem_cons_self _ _, by rw [he], Or.inr ⟨w, hci, hf, hcond.1⟩⟩
        · rw [if_neg hcond] at he
          exact ⟨dp, List.mem_cons_self _ _, by rw [he], Or.inl he⟩
      · obtain ⟨dp0, hdp0, haddr, hcase⟩ := ih hrec dp2 hm
        exact ⟨dp0, List.mem_cons_of_mem _ hdp0, haddr, hcase⟩
    · rw [if_neg hf] at h
      exact absurd h (by simp)

theorem markPages_preserves {pv lvl : Nat} :
    ∀ {pages pages2 : List col.cpage}, col.markPages pv lvl pages = some pages2 →
      col.live_ok pages → col.marked_sound pages →
      col.live_ok pages2 ∧ col.marked_sound pages2 := by
  intro pages
  induction pages with
  | nil =>
    intro pages2 h hok hms
    rw [col.markPages] at h
    rw [← Option.some.inj h]
    exact ⟨hok, hms⟩
  | cons pg rest ih =>
    intro pages2 h hok hms
    rw [col.markPages] at h
    rcases hci : pg.page.contains_info pv with _ | w
    · rw [hci] at h
      exact absurd h (by simp)
    rw [hci] at h
    dsimp only [] at h
    by_cases hun : w.found = gpage.gpage_find_result.in_range_unallocated
    · rw [if_pos hun] at h
      exact absurd h (by simp)
    rw [if_neg hun] at h
    by_cases hnr : w.found = gpage.gpage_find_result.not_in_range
    · rw [if_pos hnr] at h
      rcases hrec : col.markPages pv lvl rest with _ | rest2
      · rw [hrec] at h
        exact absurd h (by simp)
      rw [hrec] at h
      dsimp only [] at h
      rw [← Option.some.inj h]
      obtain ⟨hok2, hms2⟩ := ih hrec (fun q hq => hok q (List.mem_cons_of_mem _ hq))
        (fun q hq => hms q (List.mem_cons_of_mem _ hq))
      constructor
      · intro q hq
        rcases List.mem_cons.mp hq with he | hm
        · rw [he]
          exact hok pg (List.mem_cons_self _ _)
        · exact hok2 q hm
      · intro q hq
        rcases List.mem_cons.mp hq with he | hm
        · rw [he]
          exact hms pg (List.mem_cons_self _ _)
        · exact hms2 q hm
    · rw [if_neg hnr] at h
      rcases hmd : col.markDps w.start_location lvl pg.page pg.deferred_ptrs with _ | dps2
      · rw [hmd] at h
        exact absurd h (by simp)
      rw [hmd] at h
      dsimp only [] at h
      rw [← Option.some.inj h]
      obtain ⟨hlen, hC, hdvd⟩ := hok pg (List.mem_cons_self _ _)
      constructor
      · intro q hq
        rcases List.mem_cons.mp hq with he | hm
        · rw [he]
          refine ⟨?_, hC, hdvd⟩
          show (pg.live_starts.set w.start_location true).length = pg.page.locations
          rw [List.length_set]
          exact hlen
        · exact hok q (List.mem_cons_of_mem _ hm)
      · intro q hq
        rcases List.mem_cons.mp hq with he | hm
        · rw [he]
          intro dp2 hdp2 hlvl w2 hci2
          obtain ⟨dp, hdp, haddr, hcase⟩ := markDps_cases hmd dp2 hdp2
          rcases hcase with he2 | ⟨w0, hci0, hf0, hS0⟩
          · have hold := hms pg (List.mem_cons_self _ _) dp hdp
              (by rw [← he2]; exact hlvl) w2 (by rw [← haddr]; exact hci2)
            exact getD_set_true hold
          · have hw2 : w2 = w0 := by
              have h1 : pg.page.contains_info dp.addr = some w2 := by
                rw [← haddr]
                exact hci2
              exact Option.some.inj (h1.symm.trans hci0)
            show (pg.live_starts.set w.start_location true).getD w2.start_location false = true
            rw [hw2, hS0]
            refine getD_set_self true ?_
            rw [hlen, ← hS0]
            exact contains_info_start_lt hC hdvd hci0 hf0
        · exact hms q (List.mem_cons_of_mem _ hm)

theorem markPtr_preserves {pv : Option Nat} {lvl : Nat} {pages pages2 : List col.cpage}
    (h : col.markPtr pv lvl pages = some pages2)
    (hok : col.live_ok pages) (hms : col.marked_sound pages) :
    col.live_ok pages2 ∧ col.marked_sound pages2 := by
  rcases pv with _ | p
  · rw [← Option.some.inj h]
    exact ⟨hok, hms⟩
  · exact markPages_preserves h hok hms

theorem markRoots_preserves {v : Nat → Option Nat} {lvl : Nat} :
    ∀ {rs : List Nat} {pages pages2 : List col.cpage},
      col.markRoots v lvl rs pages = some pages2 →
      col.live_ok pages → col.marked_sound pages →
      col.live_ok pages2 ∧ col.marked_sound pages2 := by
  intro rs
  induction rs with
  | nil =>
    intro pages pages2 h hok hms
    rw [col.markRoots] at h
    rw [← Option.some.inj h]
    exact ⟨hok, hms⟩
  | cons r rest ih =>
    intro pages pages2 h hok hms
    rw [col.markRoots] at h
    rcases hmk : col.markPtr (v r) lvl pages with _ | pages3
    · rw [hmk] at h
      exact absurd h (by simp)
    rw [hmk] at h
    dsimp only [] at h
    obtain ⟨hok2, hms2⟩ := markPtr_preserves hmk hok hms
    exact ih h hok2 hms2

theorem passDps_preserves {v : Nat → Option Nat} {lvl pi : Nat} :
    ∀ {dleft di : Nat} {pages : List col.cpage} {done : Bool}
      {pages2 : List col.cpage} {done2 : Bool},
      col.passDps v lvl pi dleft di pages done = some (pages2, done2) →
      col.live_ok pages → col.marked_sound pages →
      col.live_ok pages2 ∧ col.marked_sound pages2 := by
  intro dleft
  induction dleft with
  | zero =>
    intro di pages done pages2 done2 h hok hms
    rw [col.passDps] at h
    have hpd := Option.some.inj h
    rw [Prod.mk.injEq] at hpd
    rw [← hpd.1]
    exact ⟨hok, hms⟩
  | succ dl ih =>
    intro di pages done pages2 done2 h hok hms
    rw [col.passDps] at h
    rcases hpi : pages[pi]? with _ | pg
    · rw [hpi] at h
      dsimp only [] at h
      have hpd := Option.some.inj h
      rw [Prod.mk.injEq] at hpd
      rw [← hpd.1]
      exact ⟨hok, hms⟩
    rw [hpi] at h
    dsimp only [] at h
    rcases hdi : pg.deferred_ptrs[di]? with _ | dp
    · rw [hdi] at h
      dsimp only [] at h
      have hpd := Option.some.inj h
      rw [Prod.mk.injEq] at hpd
      rw [← hpd.1]
      exact ⟨hok, hms⟩
    rw [hdi] at h
    dsimp only [] at h
    by_cases hl : dp.level = lvl - 1
    · rw [if_pos hl] at h
      rcases hmk : col.markPtr (v dp.addr) lvl pages with _ | pages3
      · rw [hmk] at h
        exact absurd h (by simp)
      rw [hmk] at h
      dsimp only [] at h
      obtain ⟨hok2, hms2⟩ := markPtr_preserves hmk hok hms
      exact ih h hok2 hms2
    · rw [if_neg hl] at h
      exact ih h hok hms

theorem passPages_preserves {v : Nat → Option Nat} {lvl : Nat} :
    ∀ {pleft pi : Nat} {pages : List col.cpage} {done : Bool}
      {pages2 : List col.cpage} {done2 : Bool},
      col.passPages v lvl pleft pi pages done = some (pages2, done2) →
      col.live_ok pages → col.marked_sound pages →
      col.live_ok pages2 ∧ col.marked_sound pages2 := by
  intro pleft
  induction pleft with
  | zero =>
    intro pi pages done pages2 done2 h hok hms
    rw [col.passPages] at h
    have hpd := Option.some.inj h
    rw [Prod.mk.injEq] at hpd
    rw [← hpd.1]
    exact ⟨hok, hms⟩
  | succ pl ih =>
    intro pi pages done pages2 done2 h hok hms
    rw [col.passPages] at h
    rcases hpi : pages[pi]? with _ | pg
    · rw [hpi] at h
      dsimp only [] at h
      have hpd := Option.some.inj h
      rw [Prod.mk.injEq] at hpd
      rw [← hpd.1]
      exact ⟨hok, hms⟩
    rw [hpi] at h
    dsimp only [] at h
    rcases hpd : col.passDps v lvl pi pg.deferred_ptrs.length 0 pages done with _ | pr
    · rw [hpd] at h
      exact absurd h (by simp)
    obtain ⟨pages3, done3⟩ := pr
    rw [hpd] at h
    dsimp only [] at h
    obtain ⟨hok2, hms2⟩ := passDps_preserves hpd hok hms
    exact ih h hok2 hms2

theorem bfs_preserves {v : Nat → Option Nat} :
    ∀ {fuel lvl : Nat} {pages : List col.cpage} {res : Nat × List col.cpage},
      col.bfs v fuel lvl pages = some res →
      col.live_ok pages → col.marked_sound pages →
      col.live_ok res.2 ∧ col.marked_sound res.2 := by
  intro fuel
  induction fuel with
  | zero =>
    intro lvl pages res h hok hms
    rw [col.bfs] at h
    exact absurd h (by simp)
  | succ f ih =>
    intro lvl pages res h hok hms
    rw [col.bfs] at h
    rcases hpp : col.passPages v (lvl + 1) pages.length 0 pages true with _ | pr
    · rw [hpp] at h
      exact absurd h (by simp)
    obtain ⟨pages2, done⟩ := pr
    rw [hpp] at h
    dsimp only [] at h
    obtain ⟨hok2, hms2⟩ := passPages_preserves hpp hok hms
    by_cases hd : done = true
    · rw [if_pos hd] at h
      rw [← Option.some.inj h]
      exact ⟨hok2, hms2⟩
    · rw [if_neg hd] at h
      exact ih h hok2 hms2

theorem reset_live_ok {pages : List col.cpage} (hok : col.live_ok pages) :
    col.live_ok (pages.map col.resetPage) := by
  intro q hq
  obtain ⟨pg, hpg, he⟩ := List.mem_map.mp hq
  obtain ⟨h1, h2, h3⟩ := hok pg hpg
  rw [← he]
  refine ⟨?_, h2, h3⟩
  show (List.replicate pg.live_starts.length false).length = pg.page.locations
  rw [List.length_replicate]
  exact h1

theorem reset_sound (pages : List col.cpage) :
    col.marked_sound (pages.map col.resetPage) := by
  intro q hq dp hdp hlvl w hci
  obtain ⟨pg, hpg, he⟩ := List.mem_map.mp hq
  rw [← he] at hdp
  obtain ⟨dp0, hdp0, he0⟩ := List.mem_map.mp hdp
  exact absurd (by rw [← he0]) hlvl

theorem markPhase_spec {h : col.heap} {pages3 : List col.cpage}
    (hok : col.live_ok h.pages) (hmp : col.markPhase h = some pages3) :
    col.live_ok pages3 ∧ col.marked_sound pages3 := by
  rw [col.markPhase] at hmp
  rcases hmr : col.markRoots h.val 1 h.roots (h.pages.map col.resetPage) with _ | pages2
  · rw [hmr] at hmp
    exact absurd hmp (by simp)
  rw [hmr] at hmp
  dsimp only [] at hmp
  rcases hb : col.bfs h.val (col.totalDps pages2 + 2) 1 pages2 with _ | res
  · rw [hb] at hmp
    exact absurd hmp (by simp)
  rw [hb] at hmp
  dsimp only [] at hmp
  obtain ⟨hok2, hms2⟩ := markRoots_preserves hmr (reset_live_ok hok) (reset_sound _)
  obtain ⟨hok3, hms3⟩ := bfs_preserves hb hok2 hms2
  rw [← Option.some.inj hmp]
  exact ⟨hok3, hms3⟩

theorem nullOutDps_mono {a : Nat} :
    ∀ {dps : List col.dpRec} {v : Nat → Option Nat}, v a = none →
      (col.nullOutDps dps v).1 a = none := by
  intro dps
  induction dps with
  | nil =>
    intro v h
    exact h
  | cons dp rest ih =>
    intro v h
    rw [col.nullOutDps]
    by_cases hl : dp.level = 0
    · rw [if_pos hl]
      show (col.nullOutDps rest (col.resetVal v dp.addr)).1 a = none
      refine ih ?_
      rw [col.resetVal]
      by_cases hx : a = dp.addr
      · rw [if_pos hx]
      · rw [if_neg hx]
        exact h
    · rw [if_neg hl]
      exact ih h

theorem nullOutDps_nulls :
    ∀ {dps : List col.dpRec} {v : Nat → Option Nat} {dp : col.dpRec},
      dp ∈ dps → dp.level = 0 → (col.nullOutDps dps v).1 dp.addr = none := by
  intro dps
  induction dps with
  | nil =>
    intro v dp hdp
    exact absurd hdp (List.not_mem_nil dp)
  | cons dp0 rest ih =>
    intro v dp hdp hl
    rw [col.nullOutDps]
    rcases List.mem_cons.mp hdp with he | hm
    · rw [← he, if_pos hl]
      show (col.nullOutDps rest (col.resetVal v dp.addr)).1 dp.addr = none
      refine nullOutDps_mono ?_
      rw [col.resetVal, if_pos rfl]
    · by_cases hl0 : dp0.level = 0
      · rw [if_pos hl0]
        show (col.nullOutDps rest (col.resetVal v dp0.addr)).1 dp.addr = none
        exact ih hm hl
      · rw [if_neg hl0]
        exact ih hm hl

theorem nullOutPages_mono {a : Nat} :
    ∀ {pages : List col.cpage} {v : Nat → Option Nat}, v a = none →
      (col.nullOutPages pages v).1 a = none := by
  intro pages
  induction pages with
  | nil =>
    intro v h
    exact h
  | cons pg rest ih =>
    intro v h
    rw [col.nullOutPages]
    show (col.nullOutPages rest (col.nullOutDps pg.deferred_ptrs v).1).1 a = none
    exact ih (nullOutDps_mono h)

theorem nullOutPages_nulls {pg : col.cpage} {dp : col.dpRec} :
    ∀ {pages : List col.cpage} {v : Nat → Option Nat},
      pg ∈ pages → dp ∈ pg.deferred_ptrs → dp.level = 0 →
      (col.nullOutPages pages v).1 dp.addr = none := by
  intro pages
  induction pages with
  | nil =>
    intro v hpg
    exact absurd hpg (List.not_mem_nil pg)
  | cons pg0 rest ih =>
    intro v hpg hdp hl
    rw [col.nullOutPages]
    show (col.nullOutPages rest (col.nullOutDps pg0.deferred_ptrs v).1).1 dp.addr = none
    rcases List.mem_cons.mp hpg with he | hm
    · refine nullOutPages_mono ?_
      rw [← he]
      exact nullOutDps_nulls hdp hl
    · exact ih hm hdp hl

theorem nullOutDps_events :
    ∀ {dps : List col.dpRec} {v : Nat → Option Nat},
      ∀ e ∈ (col.nullOutDps dps v).2, ∃ a, e = col.event.null a := by
  intro dps
  induction dps with
  | nil =>
    intro v e he
    exact absurd he (List.not_mem_nil e)
  | cons dp rest ih =>
    intro v e he
    rw [col.nullOutDps] at he
    by_cases hl : dp.level = 0
    · rw [if_pos hl] at he
      have he2 : e ∈ col.event.null dp.addr ::
          (col.nullOutDps rest (col.resetVal v dp.addr)).2 := he
      rcases List.mem_cons.mp he2 with he3 | hm
      · exact ⟨dp.addr, he3⟩
      · exact ih e hm
    · rw [if_neg hl] at he
      exact ih e he

theorem nullOutPages_events :
    ∀ {pages : List col.cpage} {v : Nat → Option Nat},
      ∀ e ∈ (col.nullOutPages pages v).2, ∃ a, e = col.event.null a := by
  intro pages
  induction pages with
  | nil =>
    intro v e he
    exact absurd he (List.not_mem_nil e)
  | cons pg rest ih =>
    intro v e he
    rw [col.nullOutPages] at he
    have he2 : e ∈ (col.nullOutDps pg.deferred_ptrs v).2 ++
        (col.nullOutPages rest (col.nullOutDps pg.deferred_ptrs v).1).2 := he
    rcases List.mem_append.mp he2 with hm | hm
    · exact nullOutDps_events e hm
    · exact ih e hm

theorem sweepLocs_events {live : List Bool} :
    ∀ {left i : Nat} {g g2 : gpage} {dps dps2 : List col.dpRec} {evs evs2 : List col.event},
      col.sweepLocs live left i g dps evs = some (g2, dps2, evs2) →
      ∀ e ∈ evs2, e ∈ evs ∨ ∃ a b, e = col.event.dtor a b := by
  intro left
  induction left with
  | zero =>
    intro i g g2 dps dps2 evs evs2 h e he
    rw [col.sweepLocs] at h
    have hpd := Option.some.inj h
    rw [Prod.mk.injEq, Prod.mk.injEq] at hpd
    rw [← hpd.2.2] at he
    exact Or.inl he
  | succ lf ih =>
    intro i g g2 dps dps2 evs evs2 h e he
    rw [col.sweepLocs] at h
    by_cases hc : (g.location_info i).1 = true ∧ live.getD i false = false
    · rw [if_pos hc] at h
      rcases hd : g.deallocate (g.location_info i).2 with _ | g3
      · rw [hd] at h
        exact absurd h (by simp)
      rw [hd] at h
      dsimp only [] at h
      rcases ih h e he with hm | hsh
      · rcases List.mem_append.mp hm with hm2 | hm2
        · exact Or.inl hm2
        · exact Or.inr ⟨(g.location_info i).2,
            col.findEnd g (g.locations - (i + 1)) (i + 1), List.mem_singleton.mp hm2⟩
      · exact Or.inr hsh
    · rw [if_neg hc] at h
      exact ih h e he

theorem sweepPages_events :
    ∀ {pages : List col.cpage} {pages2 : List col.cpage} {evs : List col.event},
      col.sweepPages pages = some (pages2, evs) →
      ∀ e ∈ evs, ∃ a b, e = col.event.dtor a b := by
  intro pages
  induction pages with
  | nil =>
    intro pages2 evs h e he
    rw [col.sweepPages] at h
    have hpd := Option.some.inj h
    rw [Prod.mk.injEq] at hpd
    rw [← hpd.2] at he
    exact absurd he (List.not_mem_nil e)
  | cons pg rest ih =>
    intro pages2 evs h e he
    rw [col.sweepPages] at h
    rcases hsl : col.sweepLocs pg.live_starts pg.page.locations 0 pg.page
        pg.deferred_ptrs [] with _ | pr
    · rw [hsl] at h
      exact absurd h (by simp)
    obtain ⟨g2, dps2, evs1⟩ := pr
    rw [hsl] at h
    dsimp only [] at h
    rcases hsp : col.sweepPages rest with _ | pr2
    · rw [hsp] at h
      exact absurd h (by simp)
    obtain ⟨rest2, evs2⟩ := pr2
    rw [hsp] at h
    dsimp only [] at h
    have hpd := Option.some.inj h
    rw [Prod.mk.injEq] at hpd
    rw [← hpd.2] at he
    rcases List.mem_append.mp he with hm | hm
    · rcases sweepLocs_events hsl e hm with hm2 | hsh
      · exact absurd hm2 (List.not_mem_nil e)
      · exact hsh
    · exact ih hsp e hm

/-- C1: whenever `collect()` completes on a structurally well-formed heap
(mark bitmaps sized to their pages, positive chunk sizes dividing the page
sizes), the trace it produces is the phase-3 null-out events followed by
the phase-4 destructor events — every unreached interior deferred_ptr is
reset strictly before any destructor of any unreachable allocation runs.
Moreover in the memory the whole sweep phase executes under (`h2.val`,
unchanged from the end of phase 3), every interior record whose level is
still 0 after marking reads null, and so does every interior record that
lies in an unreachable allocation (one whose start is unmarked in
`live_starts`), because a record can only be promoted past level 0 when
its own allocation is marked live.  Hence every destructor executed during
the sweep observes every unreachable sibling deferred_ptr as null. -/
theorem collect_nulls_unreachable_before_destructors {h h2 : col.heap}
    {tr : List col.event}
    (hok : col.live_ok h.pages)
    (hrun : col.collect h = some (h2, tr)) :
    ∃ pages3 dtors,
      col.markPhase h = some pages3 ∧
      h2.val = (col.nullOutPages pages3 h.val).1 ∧
      tr = (col.nullOutPages pages3 h.val).2 ++ dtors ∧
      (∀ e ∈ (col.nullOutPages pages3 h.val).2, ∃ a, e = col.event.null a) ∧
      (∀ e ∈ dtors, ∃ a b, e = col.event.dtor a b) ∧
      (∀ pg ∈ pages3, ∀ dp ∈ pg.deferred_ptrs, dp.level = 0 →
        h2.val dp.addr = none) ∧
      (∀ pg ∈ pages3, ∀ dp ∈ pg.deferred_ptrs, ∀ w,
        pg.page.contains_info dp.addr = some w →
        pg.live_starts.getD w.start_location false = false →
        h2.val dp.addr = none) := by
  rw [col.collect] at hrun
  rcases hmp : col.markPhase h with _ | pages3
  · rw [hmp] at hrun
    exact absurd hrun (by simp)
  rw [hmp] at hrun
  dsimp only [] at hrun
  rcases hsw : col.sweepPages pages3 with _ | pr
  · rw [hsw] at hrun
    exact absurd hrun (by simp)
  obtain ⟨pages4, dtors⟩ := pr
  rw [hsw] at hrun
  dsimp only [] at hrun
  rcases hde : col.dropEmptyLoop pages4.length pages4 with _ | pages5
  · rw [hde] at hrun
    exact absurd hrun (by simp)
  rw [hde] at hrun
  dsimp only [] at hrun
  have hpair := Option.some.inj hrun
  have hh2 : (⟨pages5, h.roots, (col.nullOutPages pages3 h.val).1⟩ : col.heap) = h2 :=
    congrArg Prod.fst hpair
  have htr : (col.nullOutPages pages3 h.val).2 ++ dtors = tr :=
    congrArg Prod.snd hpair
  obtain ⟨hok3, hms3⟩ := markPhase_spec hok hmp
  refine ⟨pages3, dtors, rfl, ?_, ?_, ?_, ?_, ?_, ?_⟩
  · rw [← hh2]
  · rw [← htr]
  · intro e he
    exact nullOutPages_events e he
  · intro e he
    exact sweepPages_events hsw e he
  · intro pg hpg dp hdp hl
    rw [← hh2]
    exact nullOutPages_nulls hpg hdp hl
  · intro pg hpg dp hdp w hciw hlive
    by_cases hl : dp.level = 0
    · rw [← hh2]
      exact nullOutPages_nulls hpg hdp hl
    · exact absurd (hms3 pg hpg dp hdp hl w hciw) (by rw [hlive]; exact Bool.false_ne_true)

/-- C1 witness: the concrete heap with one rooted allocation and one
unreachable allocation containing the deferred_ptr at address 1005:
collect's trace nulls 1005 first and only then destroys `[1004, 1008)`. -/
theorem collect_nulls_unreachable_before_destructors_witness :
    col.live_ok col.exampleHeap.pages ∧
    col.collect col.exampleHeap = some (col.exampleHeap2, col.exampleTrace) ∧
    (∃ pages3 dtors,
      col.markPhase col.exampleHeap = some pages3 ∧
      col.exampleHeap2.val = (col.nullOutPages pages3 col.exampleHeap.val).1 ∧
      col.exampleTrace = (col.nullOutPages pages3 col.exampleHeap.val).2 ++ dtors ∧
      (∀ e ∈ (col.nullOutPages pages3 col.exampleHeap.val).2,
        ∃ a, e = col.event.null a) ∧
      (∀ e ∈ dtors, ∃ a b, e = col.event.dtor a b) ∧
      (∀ pg ∈ pages3, ∀ dp ∈ pg.deferred_ptrs, dp.level = 0 →
        col.exampleHeap2.val dp.addr = none) ∧
      (∀ pg ∈ pages3, ∀ dp ∈ pg.deferred_ptrs, ∀ w,
        pg.page.contains_info dp.addr = some w →
        pg.live_starts.getD w.start_location false = false →
        col.exampleHeap2.val dp.addr = none)) := by
  have hok : col.live_ok col.exampleHeap.pages := by
    intro pg hpg
    rw [List.mem_singleton.mp hpg]
    exact ⟨by decide, by decide, by decide⟩
  exact ⟨hok, rfl,
    collect_nulls_unreachable_before_destructors hok
      (rfl : col.collect col.exampleHeap = some (col.exampleHeap2, col.exampleTrace))⟩

/-! ### C7 — sweep analysis of one page -/

theorem scan_back_spec (starts : List Bool) :
    ∀ n, (gpage.scan_back starts n = 0 ∧ ∀ k, k < n → starts.getD k false = false) ∨
      (0 < gpage.scan_back starts n ∧
        starts.getD (gpage.scan_back starts n - 1) false = true ∧
        ∀ k, gpage.scan_back starts n ≤ k → k < n → starts.getD k false = false) := by
  intro n
  induction n with
  | zero =>
    refine Or.inl ⟨by rw [gpage.scan_back], ?_⟩
    intro k hk
    exact absurd hk (Nat.not_lt_zero k)
  | succ s ih =>
    rw [gpage.scan_back]
    by_cases hs : starts.getD s false = true
    · rw [if_pos hs]
      refine Or.inr ⟨by omega, ?_, ?_⟩
      · show starts.getD s false = true
        exact hs
      · intro k h1 h2
        omega
    · rw [if_neg hs]
      have hsf : starts.getD s false = false := Bool.eq_false_iff.mpr hs
      rcases ih with ⟨h0, hall⟩ | ⟨hpos, hst, hall⟩
      · refine Or.inl ⟨h0, ?_⟩
        intro k hk
        by_cases hks : k = s
        · rw [hks]
          exact hsf
        · exact hall k (by omega)
      · refine Or.inr ⟨hpos, hst, ?_⟩
        intro k h1 h2
        by_cases hks : k = s
        · rw [hks]
          exact hsf
        · exact hall k h1 (by omega)

theorem scan_back_eq {starts : List Bool} {S n : Nat} (hS : starts.getD S false = true)
    (hmid : ∀ k, S < k → k < n → starts.getD k false = false) (hn : S < n) :
    gpage.scan_back starts n = S + 1 := by
  obtain ⟨m, hm⟩ : ∃ m, gpage.scan_back starts n = m := ⟨_, rfl⟩
  have hle2 := scan_back_le starts n
  rcases scan_back_spec starts n with ⟨h0, hall⟩ | ⟨hpos, hst, hall⟩
  · rw [hall S hn] at hS
    exact absurd hS Bool.false_ne_true
  · rw [hm] at hpos hst hall hle2 ⊢
    by_cases hlt : m - 1 < S
    · rw [hall S (by omega) hn] at hS
      exact absurd hS Bool.false_ne_true
    · by_cases hgt : S < m - 1
      · rw [hmid (m - 1) hgt (by omega)] at hst
        exact absurd hst Bool.false_ne_true
      · omega

theorem ownerStart_eq {g : gpage} {S q : Nat} (hS : g.starts.getD S false = true)
    (hmid : ∀ k, S < k → k ≤ q → g.starts.getD k false = false) (hle : S ≤ q) :
    col.ownerStart g q = S := by
  rw [col.ownerStart]
  by_cases hq : g.starts.getD q false = true
  · rw [if_pos hq]
    by_cases hqs : q = S
    · exact hqs
    · rw [hmid q (by omega) (Nat.le_refl q)] at hq
      exact absurd hq Bool.false_ne_true
  · rw [if_neg hq]
    have hSq : S < q := by
      rcases Nat.eq_or_lt_of_le hle with he | h
      · rw [he] at hS
        exact absurd hS hq
      · exact h
    rw [scan_back_eq hS (fun k h1 h2 => hmid k h1 (by omega)) hSq]
    omega

theorem ownerStart_spec {g : gpage} (hinv : gpage.INV g) {q : Nat}
    (hq : g.inuse.getD q false = true) :
    g.starts.getD (col.ownerStart g q) false = true ∧ col.ownerStart g q ≤ q ∧
    (∀ k, col.ownerStart g q < k → k ≤ q → g.starts.getD k false = false) ∧
    (∀ k, col.ownerStart g q ≤ k → k ≤ q → g.inuse.getD k false = true) := by
  obtain ⟨hl1, hl2, hC, hdvd, hsi, hchain⟩ := hinv
  obtain ⟨s, hs1, hs2, hs3⟩ := hchain q hq
  rw [col.ownerStart]
  by_cases hsq : g.starts.getD q false = true
  · rw [if_pos hsq]
    refine ⟨hsq, Nat.le_refl q, ?_, ?_⟩
    · intro k h1 h2
      omega
    · intro k h1 h2
      have hk : k = q := by omega
      rw [hk]
      exact hq
  · rw [if_neg hsq]
    have hsltq : s < q := by
      rcases Nat.eq_or_lt_of_le hs1 with he | h
      · rw [he] at hs2
        exact absurd hs2 hsq
      · exact h
    rcases scan_back_spec g.starts q with ⟨h0, hall⟩ | ⟨hpos, hst, hall⟩
    · rw [hall s hsltq] at hs2
      exact absurd hs2 Bool.false_ne_true
    · have hsble := scan_back_le g.starts q
      refine ⟨hst, by omega, ?_, ?_⟩
      · intro k h1 h2
        by_cases hkq : k = q
        · rw [hkq]
          exact Bool.eq_false_iff.mpr hsq
        · exact hall k (by omega) (by omega)
      · intro k h1 h2
        have hss : s ≤ gpage.scan_back g.starts q - 1 := by
          by_cases hcmp : gpage.scan_back g.starts q ≤ s
          · rw [hall s hcmp hsltq] at hs2
            exact absurd hs2 Bool.false_ne_true
          · omega
        exact hs3 k (by omega) h2

theorem cell_of_addr {C base x a b : Nat} (hC : 0 < C)
    (h1 : base + a * C ≤ x) (h2 : x < base + b * C) :
    a ≤ (x - base) / C ∧ (x - base) / C < b := by
  constructor
  · rw [Nat.le_div_iff_mul_le hC]
    omega
  · rw [Nat.div_lt_iff_lt_mul hC]
    omega

theorem addr_of_cell {C base x a b : Nat} (hC : 0 < C) (hbase : base ≤ x)
    (h1 : a ≤ (x - base) / C) (h2 : (x - base) / C < b) :
    base + a * C ≤ x ∧ x < base + b * C := by
  rw [Nat.le_div_iff_mul_le hC] at h1
  rw [Nat.div_lt_iff_lt_mul hC] at h2
  omega

theorem total_eq_locations_mul {g : gpage} (hC : 0 < g.min_alloc)
    (hdvd : g.min_alloc ∣ g.total_size) :
    g.total_size = g.locations * g.min_alloc := by
  obtain ⟨m, hm⟩ := hdvd
  rw [gpage.locations, hm, Nat.mul_div_cancel_left m hC, Nat.mul_comm]

theorem findEnd_spec (g : gpage) :
    ∀ left e,
      (∃ k, e ≤ k ∧ k < e + left ∧ g.starts.getD k false = true ∧
        (∀ j, e ≤ j → j < k → g.starts.getD j false = false) ∧
        col.findEnd g left e = g.base + k * g.min_alloc) ∨
      ((∀ k, e ≤ k → k < e + left → g.starts.getD k false = false) ∧
        col.findEnd g left e = g.base + g.total_size) := by
  intro left
  induction left with
  | zero =>
    intro e
    refine Or.inr ⟨?_, by rw [col.findEnd]⟩
    intro k h1 h2
    omega
  | succ lf ih =>
    intro e
    rw [col.findEnd]
    by_cases hs : g.starts.getD e false = true
    · rw [if_pos (show (g.location_info e).1 = true from hs)]
      refine Or.inl ⟨e, Nat.le_refl e, by omega, hs, ?_, rfl⟩
      intro j h1 h2
      omega
    · rw [if_neg (show ¬ (g.location_info e).1 = true from hs)]
      have hsf : g.starts.getD e false = false := Bool.eq_false_iff.mpr hs
      rcases ih (e + 1) with ⟨k, h1, h2, h3, h4, h5⟩ | ⟨hall, h5⟩
      · refine Or.inl ⟨k, by omega, by omega, h3, ?_, h5⟩
        intro j hj1 hj2
        by_cases hje : j = e
        · rw [hje]
          exact hsf
        · exact h4 j (by omega) hj2
      · refine Or.inr ⟨?_, h5⟩
        intro k hk1 hk2
        by_cases hke : k = e
        · rw [hke]
          exact hsf
        · exact hall k (by omega) (by omega)


theorem dealloc_effect {g g2 : gpage} {p : Nat}
    (hinv : gpage.INV g) (h : g.deallocate p = some g2) :
    g2.base = g.base ∧ g2.total_size = g.total_size ∧ g2.min_alloc = g.min_alloc ∧
    g.contains p = true ∧
    g.starts.getD ((p - g.base) / g.min_alloc) false = true ∧
    g.inuse.getD ((p - g.base) / g.min_alloc) false = true ∧
    g2.starts = g.starts.set ((p - g.base) / g.min_alloc) false ∧
    ∃ stop, (p - g.base) / g.min_alloc < stop ∧ stop ≤ g.locations ∧
      (∀ k, (p - g.base) / g.min_alloc ≤ k → k < stop → g.inuse.getD k false = true) ∧
      (∀ k, (p - g.base) / g.min_alloc < k → k < stop → g.starts.getD k false = false) ∧
      (∀ q, stop ≤ q → col.ownerStart g q = (p - g.base) / g.min_alloc →
        g.inuse.getD q false = false) ∧
      (∀ idx, g2.inuse.getD idx false =
        if (p - g.base) / g.min_alloc ≤ idx ∧ idx < stop then false
        else g.inuse.getD idx false) := by
  have hinv2 := hinv
  obtain ⟨hl1, hl2, hC, hdvd, hsi, hchain⟩ := hinv2
  simp only [gpage.deallocate] at h
  by_cases hcont : g.contains p = true
  case neg =>
    rw [if_pos (by simpa using hcont)] at h
    exact absurd h (by simp)
  rw [if_neg (by simpa using hcont)] at h
  by_cases hstart : g.starts.getD ((p - g.base) / g.min_alloc) false = true
  case neg =>
    rw [if_pos (by simpa using hstart)] at h
    exact absurd h (by simp)
  rw [if_neg (by simpa using hstart)] at h
  by_cases hinuse : g.inuse.getD ((p - g.base) / g.min_alloc) false = true
  case neg =>
    rw [if_pos (by simpa using hinuse)] at h
    exact absurd h (by simp)
  rw [if_neg (by simpa using hinuse)] at h
  have hpg1 := (Option.some.inj h).symm
  clear h
  set L := g.locations with hLdef
  set here := (p - g.base) / g.min_alloc with hheredef
  set starts2 := g.starts.set here false with hst2def
  set r := gpage.find_start starts2 (L - (here + 1)) (here + 1) with hrdef
  have hhereL : here < L := by
    have := getD_true_lt_length hstart
    omega
  obtain ⟨hr1, hr2, hr3, hr4⟩ := find_start_spec starts2 (L - (here + 1)) (here + 1)
  rw [← hrdef] at hr1 hr2 hr3 hr4
  have hr2L : r ≤ L := by omega
  obtain ⟨stop, hs1, hs2, hs3, hs4, hs5, hs6⟩ :=
    clear_inuse_spec r (r - here) g.inuse here (by omega)
  have hstophere : here < stop := by
    rcases Nat.eq_or_lt_of_le hs1 with he | hlt
    · rcases hs4 with h4 | h4
      · omega
      · rw [← he] at h4
        rw [hinuse] at h4
        exact absurd h4 (by simp)
    · exact hlt
  have hstarts2 : ∀ m, here + 1 ≤ m → m < r → g.starts.getD m false = false := by
    intro m h1 h2
    have := hr3 m h1 h2
    rwa [hst2def, getD_set_ne false (by omega)] at this
  have hstarts2r : r < L → g.starts.getD r false = true := by
    intro hrL
    have := hr4 (by omega)
    rwa [hst2def, getD_set_ne false (by omega)] at this
  refine ⟨by rw [hpg1], by rw [hpg1], by rw [hpg1], hcont, hstart, hinuse,
    by rw [hpg1], stop, hstophere, by omega, ?_, ?_, ?_, ?_⟩
  · intro k h1 h2
    exact hs3 k h1 h2
  · intro k h1 h2
    exact hstarts2 k (by omega) (by omega)
  · intro q hq1 hq2
    rcases hb : g.inuse.getD q false with _ | _
    · rfl
    · exfalso
      obtain ⟨ho1, ho2, ho3, ho4⟩ := ownerStart_spec hinv hb
      rw [hq2] at ho1 ho2 ho3 ho4
      rcases hs4 with h4 | h4
      · by_cases hrL : r < L
        · have hsr := hstarts2r hrL
          have hmid := ho3 r (by omega) (by omega)
          rw [hsr] at hmid
          exact Bool.noConfusion hmid
        · have hlen := getD_true_lt_length hb
          rw [hl1] at hlen
          omega
      · have hin := ho4 stop (by omega) (by omega)
        rw [h4] at hin
        exact Bool.noConfusion hin
  · intro idx
    rw [hpg1]
    exact hs5 idx

theorem locations_congr {g g0 : gpage} (h1 : g.total_size = g0.total_size)
    (h2 : g.min_alloc = g0.min_alloc) : g.locations = g0.locations := by
  rw [gpage.locations, gpage.locations, h1, h2]

theorem owner_window_iff {g0 : gpage} (hinv0 : gpage.INV g0) {i Ecell wh : Nat}
    (hin : g0.inuse.getD wh false = true)
    (hst0i : g0.starts.getD i false = true)
    (hmid : ∀ k, i < k → k < Ecell → g0.starts.getD k false = false)
    (hiE : i < Ecell)
    (hEor : Ecell = g0.locations ∨ g0.starts.getD Ecell false = true)
    (hwhL : wh < g0.locations) :
    col.ownerStart g0 wh = i ↔ (i ≤ wh ∧ wh < Ecell) := by
  constructor
  · intro ho
    obtain ⟨ho1, ho2, ho3, ho4⟩ := ownerStart_spec hinv0 hin
    rw [ho] at ho1 ho2 ho3 ho4
    refine ⟨ho2, ?_⟩
    by_contra hcon
    rcases hEor with hE | hE
    · omega
    · have hf := ho3 Ecell hiE (by omega)
      rw [hE] at hf
      exact Bool.noConfusion hf
  · rintro ⟨h1, h2⟩
    exact ownerStart_eq hst0i (fun k hk1 hk2 => hmid k hk1 (by omega)) h1

theorem sweepLocs_spec {g0 : gpage} {live : List Bool} {dps0 : List col.dpRec}
    (hinv0 : gpage.INV g0)
    (hdall : ∀ dp ∈ dps0, col.dpAlloc g0 dp) :
    ∀ {left i : Nat} {g : gpage} {dps : List col.dpRec} {evs : List col.event}
      {g2 : gpage} {dps2 : List col.dpRec} {evs2 : List col.event},
      col.sweepLocs live left i g dps evs = some (g2, dps2, evs2) →
      i + left = g0.locations →
      col.SWP g0 live i g →
      (∀ dp, dp ∈ dps ↔ (dp ∈ dps0 ∧ (col.dpMarked g0 live dp ∨
        i ≤ col.ownerStart g0 ((dp.addr - g0.base) / g0.min_alloc)))) →
      col.SWP g0 live g0.locations g2 ∧
      (∀ dp, dp ∈ dps2 ↔ (dp ∈ dps0 ∧ (col.dpMarked g0 live dp ∨
        g0.locations ≤ col.ownerStart g0 ((dp.addr - g0.base) / g0.min_alloc)))) := by
  have hCg0 : 0 < g0.min_alloc := hinv0.2.2.1
  have hdvd0 : g0.min_alloc ∣ g0.total_size := hinv0.2.2.2.1
  intro left
  induction left with
  | zero =>
    intro i g dps evs g2 dps2 evs2 h hli hswp hmem
    rw [col.sweepLocs] at h
    have hpd := Option.some.inj h
    rw [Prod.mk.injEq, Prod.mk.injEq] at hpd
    have hi : i = g0.locations := by omega
    rw [← hpd.1, ← hpd.2.1, ← hi]
    exact ⟨hswp, hmem⟩
  | succ lf ih =>
    intro i g dps evs g2 dps2 evs2 h hli hswp hmem
    rw [col.sweepLocs] at h
    obtain ⟨hswpInv, hb0, ht0, hm0, hstIff, hinIff⟩ := hswp
    have hC : 0 < g.min_alloc := hswpInv.2.2.1
    have hlocg : g.locations = g0.locations := locations_congr ht0 hm0
    have hLi : i < g0.locations := by omega
    have hstarts0_of : ∀ k, i < k → g.starts.getD k false = false →
        g0.starts.getD k false = false := by
      intro k hk hgk
      rcases hb : g0.starts.getD k false with _ | _
      · rfl
      · have hgt := (hstIff k).mpr ⟨hb, Or.inr (by omega)⟩
        rw [hgk] at hgt
        exact Bool.noConfusion hgt
    by_cases hc : (g.location_info i).1 = true ∧ live.getD i false = false
    · rw [if_pos hc] at h
      rcases hd : g.deallocate (g.location_info i).2 with _ | g3
      · rw [hd] at h
        exact absurd h (by simp)
      rw [hd] at h
      dsimp only [] at h
      have hst0i : g0.starts.getD i false = true := ((hstIff i).mp hc.1).1
      have hlivei : live.getD i false = false := hc.2
      have hhere : ((g.location_info i).2 - g.base) / g.min_alloc = i := by
        show (g.base + i * g.min_alloc - g.base) / g.min_alloc = i
        rw [Nat.add_sub_cancel_left]
        exact Nat.mul_div_cancel i hC
      obtain ⟨he1, he2, he3, hecont, hest, hein, hestarts, stop, hst1, hst2,
        hwin_in, hwin_st, hmax, hform⟩ := dealloc_effect hswpInv hd
      rw [hhere] at hest hein hestarts hst1 hwin_in hwin_st hmax hform
      obtain ⟨Ecell, hiE, hEcellL, hmid0, hEor, hendv⟩ :
          ∃ Ecell, i < Ecell ∧ Ecell ≤ g0.locations ∧
            (∀ k, i < k → k < Ecell → g0.starts.getD k false = false) ∧
            (Ecell = g0.locations ∨ g0.starts.getD Ecell false = true) ∧
            col.findEnd g (g.locations - (i + 1)) (i + 1) =
              g0.base + Ecell * g0.min_alloc := by
        rcases findEnd_spec g (g.locations - (i + 1)) (i + 1) with
          ⟨E, hE1, hE2, hE3, hE4, hE5⟩ | ⟨hEall, hE5⟩
        · refine ⟨E, by omega, by omega, ?_, Or.inr ((hstIff E).mp hE3).1, ?_⟩
          · intro k h1 h2
            exact hstarts0_of k h1 (hE4 k (by omega) h2)
          · rw [hE5, hb0, hm0]
        · refine ⟨g0.locations, by omega, Nat.le_refl _, ?_, Or.inl rfl, ?_⟩
          · intro k h1 h2
            exact hstarts0_of k h1 (hEall k (by omega) (by omega))
          · rw [hE5, hb0, ht0, total_eq_locations_mul hCg0 hdvd0]
      have hstIff3 : ∀ k, g3.starts.getD k false = true ↔
          (g0.starts.getD k false = true ∧
            (live.getD k false = true ∨ i + 1 ≤ k)) := by
        intro k
        rw [hestarts]
        by_cases hk : k = i
        · subst hk
          rw [getD_set_self false (by rw [hswpInv.2.1, hlocg]; exact hLi)]
          constructor
          · intro hcon
            exact absurd hcon Bool.false_ne_true
          · rintro ⟨h1, hor⟩
            rcases hor with hl | hl
            · rw [hlivei] at hl
              exact absurd hl Bool.false_ne_true
            · omega
        · rw [getD_set_ne false (fun hc2 => hk hc2.symm)]
          rw [hstIff k]
          constructor
          · rintro ⟨h1, hor⟩
            refine ⟨h1, ?_⟩
            rcases hor with hl | hl
            · exact Or.inl hl
            · exact Or.inr (by omega)
          · rintro ⟨h1, hor⟩
            refine ⟨h1, ?_⟩
            rcases hor with hl | hl
            · exact Or.inl hl
            · exact Or.inr (by omega)
      have hinIff3 : ∀ q, g3.inuse.getD q false = true ↔
          (g0.inuse.getD q false = true ∧
            (live.getD (col.ownerStart g0 q) false = true ∨
              i + 1 ≤ col.ownerStart g0 q)) := by
        intro q
        rw [hform q]
        by_cases hw : i ≤ q ∧ q < stop
        · rw [if_pos hw]
          constructor
          · intro hfalse
            exact absurd hfalse Bool.false_ne_true
          · rintro ⟨hin0, hor⟩
            have hmidq : ∀ k, i < k → k ≤ q → g0.starts.getD k false = false := by
              intro k h1 h2
              exact hstarts0_of k h1 (hwin_st k h1 (by omega))
            have ho : col.ownerStart g0 q = i := ownerStart_eq hst0i hmidq hw.1
            rw [ho] at hor
            rcases hor with hl | hl
            · rw [hlivei] at hl
              exact absurd hl Bool.false_ne_true
            · omega
        · rw [if_neg hw]
          by_cases hoq : col.ownerStart g0 q = i
          · constructor
            · intro hing
              exfalso
              have hin0q := ((hinIff q).mp hing).1
              obtain ⟨ho1, ho2, ho3, ho4⟩ := ownerStart_spec hinv0 hin0q
              rw [hoq] at ho1 ho2 ho3 ho4
              have hogq : col.ownerStart g q = i := by
                refine ownerStart_eq (show g.starts.getD i false = true from hc.1)
                  (fun k h1 h2 => ?_) ho2
                rcases hbk : g.starts.getD k false with _ | _
                · rfl
                · have hk0 := ((hstIff k).mp hbk).1
                  rw [ho3 k h1 h2] at hk0
                  exact Bool.noConfusion hk0
              have hq_ge_stop : stop ≤ q := by omega
              have hmx := hmax q hq_ge_stop hogq
              rw [hing] at hmx
              exact Bool.noConfusion hmx
            · rintro ⟨hin0, hor⟩
              exfalso
              rw [hoq] at hor
              rcases hor with hl | hl
              · rw [hlivei] at hl
                exact Bool.noConfusion hl
              · omega
          · rw [hinIff q]
            constructor
            · rintro ⟨hin0, hor⟩
              refine ⟨hin0, ?_⟩
              rcases hor with hl | hl
              · exact Or.inl hl
              · exact Or.inr (by omega)
            · rintro ⟨hin0, hor⟩
              refine ⟨hin0, ?_⟩
              rcases hor with hl | hl
              · exact Or.inl hl
              · exact Or.inr (by omega)
      have hmem3 : ∀ dp, dp ∈ (dps.filter fun dp =>
          ¬((g.location_info i).2 ≤ dp.addr ∧
            dp.addr < col.findEnd g (g.locations - (i + 1)) (i + 1))) ↔
          (dp ∈ dps0 ∧ (col.dpMarked g0 live dp ∨
            i + 1 ≤ col.ownerStart g0 ((dp.addr - g0.base) / g0.min_alloc))) := by
        intro dp
        constructor
        · intro hm
          obtain ⟨hmm, hpred⟩ := List.mem_filter.mp hm
          obtain ⟨hdp0, hor⟩ := (hmem dp).mp hmm
          have hpred2 : ¬((g.location_info i).2 ≤ dp.addr ∧
              dp.addr < col.findEnd g (g.locations - (i + 1)) (i + 1)) :=
            of_decide_eq_true hpred
          obtain ⟨hcont0, hin0⟩ := hdall dp hdp0
          have hba : g0.base ≤ dp.addr := (of_decide_eq_true hcont0).1
          have hwhL : (dp.addr - g0.base) / g0.min_alloc < g0.locations := by
            rw [Nat.div_lt_iff_lt_mul hCg0]
            have htot := total_eq_locations_mul hCg0 hdvd0
            have hbb := (of_decide_eq_true hcont0).2
            omega
          have hwiff := owner_window_iff hinv0 hin0 hst0i hmid0 hiE hEor hwhL
          have honei : ¬ col.ownerStart g0 ((dp.addr - g0.base) / g0.min_alloc) = i := by
            intro hoi
            obtain ⟨hw1, hw2⟩ := hwiff.mp hoi
            refine hpred2 ⟨?_, ?_⟩
            · show g.base + i * g.min_alloc ≤ dp.addr
              rw [hb0, hm0]
              exact (addr_of_cell hCg0 hba hw1 hw2).1
            · rw [hendv]
              exact (addr_of_cell hCg0 hba hw1 hw2).2
          refine ⟨hdp0, ?_⟩
          rcases hor with hl | hl
          · exact Or.inl hl
          · exact Or.inr (by omega)
        · rintro ⟨hdp0, hor⟩
          have hor2 : col.dpMarked g0 live dp ∨
              i ≤ col.ownerStart g0 ((dp.addr - g0.base) / g0.min_alloc) := by
            rcases hor with hl | hl
            · exact Or.inl hl
            · exact Or.inr (by omega)
          refine List.mem_filter.mpr ⟨(hmem dp).mpr ⟨hdp0, hor2⟩, ?_⟩
          refine decide_eq_true ?_
          rintro ⟨hlo, hhi⟩
          obtain ⟨hcont0, hin0⟩ := hdall dp hdp0
          have hba : g0.base ≤ dp.addr := (of_decide_eq_true hcont0).1
          have hwhL : (dp.addr - g0.base) / g0.min_alloc < g0.locations := by
            rw [Nat.div_lt_iff_lt_mul hCg0]
            have htot := total_eq_locations_mul hCg0 hdvd0
            have hbb := (of_decide_eq_true hcont0).2
            omega
          have hwiff := owner_window_iff hinv0 hin0 hst0i hmid0 hiE hEor hwhL
          have hlo2 : g0.base + i * g0.min_alloc ≤ dp.addr := by
            rw [← hb0, ← hm0]
            exact hlo
          have hhi2 : dp.addr < g0.base + Ecell * g0.min_alloc := by
            rw [← hendv]
            exact hhi
          have hoi := hwiff.mpr (cell_of_addr hCg0 hlo2 hhi2)
          rcases hor with hl | hl
          · rw [col.dpMarked, hoi, hlivei] at hl
            exact Bool.noConfusion hl
          · rw [hoi] at hl
            omega
      have hswp3 : col.SWP g0 live (i + 1) g3 :=
        ⟨INV_dealloc hswpInv hd, by rw [he1, hb0], by rw [he2, ht0], by rw [he3, hm0],
          hstIff3, hinIff3⟩
      exact ih h (by omega) hswp3 hmem3
    · rw [if_neg hc] at h
      have hskip0 : g0.starts.getD i false = true → live.getD i false = true := by
        intro hs0
        have hsg := (hstIff i).mpr ⟨hs0, Or.inr (Nat.le_refl i)⟩
        rcases hb : live.getD i false with _ | _
        · exact absurd ⟨hsg, hb⟩ hc
        · rfl
      have hstIff2 : ∀ k, g.starts.getD k false = true ↔
          (g0.starts.getD k false = true ∧
            (live.getD k false = true ∨ i + 1 ≤ k)) := by
        intro k
        rw [hstIff k]
        by_cases hk : k = i
        · subst hk
          constructor
          · rintro ⟨h1, hor⟩
            exact ⟨h1, Or.inl (hskip0 h1)⟩
          · rintro ⟨h1, hor⟩
            exact ⟨h1, Or.inr (Nat.le_refl _)⟩
        · constructor
          · rintro ⟨h1, hor⟩
            refine ⟨h1, ?_⟩
            rcases hor with hl | hl
            · exact Or.inl hl
            · exact Or.inr (by omega)
          · rintro ⟨h1, hor⟩
            refine ⟨h1, ?_⟩
            rcases hor with hl | hl
            · exact Or.inl hl
            · exact Or.inr (by omega)
      have hinIff2 : ∀ q, g.inuse.getD q false = true ↔
          (g0.inuse.getD q false = true ∧
            (live.getD (col.ownerStart g0 q) false = true ∨
              i + 1 ≤ col.ownerStart g0 q)) := by
        intro q
        rw [hinIff q]
        by_cases hoq : col.ownerStart g0 q = i
        · constructor
          · rintro ⟨hin0, hor⟩
            refine ⟨hin0, Or.inl ?_⟩
            have hos := (ownerStart_spec hinv0 hin0).1
            rw [hoq]
            rw [hoq] at hos
            exact hskip0 hos
          · rintro ⟨hin0, hor⟩
            refine ⟨hin0, ?_⟩
            rcases hor with hl | hl
            · exact Or.inl hl
            · exact Or.inr (by omega)
        · constructor
          · rintro ⟨hin0, hor⟩
            refine ⟨hin0, ?_⟩
            rcases hor with hl | hl
            · exact Or.inl hl
            · exact Or.inr (by omega)
          · rintro ⟨hin0, hor⟩
            refine ⟨hin0, ?_⟩
            rcases hor with hl | hl
            · exact Or.inl hl
            · exact Or.inr (by omega)
      have hmem2 : ∀ dp, dp ∈ dps ↔ (dp ∈ dps0 ∧ (col.dpMarked g0 live dp ∨
          i + 1 ≤ col.ownerStart g0 ((dp.addr - g0.base) / g0.min_alloc))) := by
        intro dp
        rw [hmem dp]
        by_cases hoq : col.ownerStart g0 ((dp.addr - g0.base) / g0.min_alloc) = i
        · constructor
          · rintro ⟨hdp0, hor⟩
            refine ⟨hdp0, Or.inl ?_⟩
            obtain ⟨hcont0, hin0⟩ := hdall dp hdp0
            have hos := (ownerStart_spec hinv0 hin0).1
            rw [hoq] at hos
            rw [col.dpMarked, hoq]
            exact hskip0 hos
          · rintro ⟨hdp0, hor⟩
            refine ⟨hdp0, ?_⟩
            rcases hor with hl | hl
            · exact Or.inl hl
            · exact Or.inr (by omega)
        · constructor
          · rintro ⟨hdp0, hor⟩
            refine ⟨hdp0, ?_⟩
            rcases hor with hl | hl
            · exact Or.inl hl
            · exact Or.inr (by omega)
          · rintro ⟨hdp0, hor⟩
            refine ⟨hdp0, ?_⟩
            rcases hor with hl | hl
            · exact Or.inl hl
            · exact Or.inr (by omega)
      exact ih h (by omega) ⟨hswpInv, hb0, ht0, hm0, hstIff2, hinIff2⟩ hmem2

theorem sweepLocs_run {g0 : gpage} {live : List Bool} {dps0 : List col.dpRec}
    {g2 : gpage} {dps2 : List col.dpRec} {evs2 : List col.event}
    (hinv0 : gpage.INV g0)
    (hdall : ∀ dp ∈ dps0, col.dpAlloc g0 dp)
    (h : col.sweepLocs live g0.locations 0 g0 dps0 [] = some (g2, dps2, evs2)) :
    col.SWP g0 live g0.locations g2 ∧
    (∀ dp, dp ∈ dps2 ↔ (dp ∈ dps0 ∧ col.dpMarked g0 live dp)) := by
  have hinit : col.SWP g0 live 0 g0 := by
    refine ⟨hinv0, rfl, rfl, rfl, ?_, ?_⟩
    · intro k
      constructor
      · intro h1
        exact ⟨h1, Or.inr (Nat.zero_le k)⟩
      · rintro ⟨h1, h2⟩
        exact h1
    · intro q
      constructor
      · intro h1
        exact ⟨h1, Or.inr (Nat.zero_le _)⟩
      · rintro ⟨h1, h2⟩
        exact h1
  have hmem0 : ∀ dp, dp ∈ dps0 ↔ (dp ∈ dps0 ∧ (col.dpMarked g0 live dp ∨
      0 ≤ col.ownerStart g0 ((dp.addr - g0.base) / g0.min_alloc))) := by
    intro dp
    constructor
    · intro h1
      exact ⟨h1, Or.inr (Nat.zero_le _)⟩
    · rintro ⟨h1, h2⟩
      exact h1
  obtain ⟨hswp, hmem⟩ := sweepLocs_spec hinv0 hdall h (by omega) hinit hmem0
  refine ⟨hswp, ?_⟩
  intro dp
  rw [hmem dp]
  constructor
  · rintro ⟨h1, hor⟩
    refine ⟨h1, ?_⟩
    rcases hor with hl | hl
    · exact hl
    · exfalso
      obtain ⟨hcont0, hin0⟩ := hdall dp h1
      have hCg0 : 0 < g0.min_alloc := hinv0.2.2.1
      have hdvd0 := hinv0.2.2.2.1
      have hwhL : (dp.addr - g0.base) / g0.min_alloc < g0.locations := by
        rw [Nat.div_lt_iff_lt_mul hCg0]
        have htot := total_eq_locations_mul hCg0 hdvd0
        have hbb := (of_decide_eq_true hcont0).2
        have hba := (of_decide_eq_true hcont0).1
        omega
      have hole := (ownerStart_spec hinv0 hin0).2.1
      omega
  · rintro ⟨h1, hm⟩
    exact ⟨h1, Or.inl hm⟩

theorem contains_congr {g g0 : gpage} (hb : g.base = g0.base)
    (ht : g.total_size = g0.total_size) (p : Nat) : g.contains p = g0.contains p := by
  rw [gpage.contains, gpage.contains, hb, ht]

theorem contains_info_allocated {g : gpage} {p : Nat} {w : gpage.contains_info_ret}
    (hci : g.contains_info p = some w)
    (hf : w.found = gpage.gpage_find_result.in_range_allocated_middle ∨
      w.found = gpage.gpage_find_result.in_range_allocated_start) :
    g.contains p = true ∧
    g.inuse.getD ((p - g.base) / g.min_alloc) false = true ∧
    w.location = (p - g.base) / g.min_alloc ∧
    w.start_location = col.ownerStart g ((p - g.base) / g.min_alloc) := by
  rw [gpage.contains_info] at hci
  by_cases hcont : g.contains p = true
  · rw [if_neg (fun hc => hc hcont)] at hci
    dsimp only [] at hci
    by_cases hiu : g.inuse.getD ((p - g.base) / g.min_alloc) false = true
    · rw [if_neg (fun hc => hc hiu)] at hci
      by_cases hst : g.starts.getD ((p - g.base) / g.min_alloc) false = true
      · rw [if_neg (fun hc => hc hst)] at hci
        have hw := (Option.some.inj hci).symm
        refine ⟨hcont, hiu, by rw [hw], ?_⟩
        rw [hw, col.ownerStart, if_pos hst]
      · rw [if_pos hst] at hci
        by_cases hst0 : gpage.scan_back g.starts ((p - g.base) / g.min_alloc) = 0
        · rw [if_pos hst0] at hci
          exact absurd hci (by simp)
        · rw [if_neg hst0] at hci
          have hw := (Option.some.inj hci).symm
          refine ⟨hcont, hiu, by rw [hw], ?_⟩
          rw [hw, col.ownerStart, if_neg hst]
    · rw [if_pos hiu] at hci
      rw [← Option.some.inj hci] at hf
      rcases hf with hf | hf
      · exact gpage.gpage_find_result.noConfusion hf
      · exact gpage.gpage_find_result.noConfusion hf
  · rw [if_pos hcont] at hci
    rw [← Option.some.inj hci] at hf
    rcases hf with hf | hf
    · exact gpage.gpage_find_result.noConfusion hf
    · exact gpage.gpage_find_result.noConfusion hf

theorem sweep_contains_info_stable {g0 g2 : gpage} {live : List Bool}
    (hinv0 : gpage.INV g0) (hswp : col.SWP g0 live g0.locations g2) :
    ∀ p w, g0.contains_info p = some w →
      (w.found = gpage.gpage_find_result.in_range_allocated_middle ∨
        w.found = gpage.gpage_find_result.in_range_allocated_start) →
      live.getD w.start_location false = true →
      g2.contains_info p = some w := by
  intro p w hci hf hlive
  obtain ⟨hswpInv, hb0, ht0, hm0, hstIff, hinIff⟩ := hswp
  obtain ⟨hcont0, hin0, hwl, hwsl⟩ := contains_info_allocated hci hf
  obtain ⟨ho1, ho2, ho3, ho4⟩ := ownerStart_spec hinv0 hin0
  have hCg0 : 0 < g0.min_alloc := hinv0.2.2.1
  have hdvd0 := hinv0.2.2.2.1
  have hwhL : (p - g0.base) / g0.min_alloc < g0.locations := by
    rw [Nat.div_lt_iff_lt_mul hCg0]
    have htot := total_eq_locations_mul hCg0 hdvd0
    have hbb := (of_decide_eq_true hcont0).2
    have hba := (of_decide_eq_true hcont0).1
    omega
  have hwh2 : (p - g2.base) / g2.min_alloc = (p - g0.base) / g0.min_alloc := by
    rw [hb0, hm0]
  have hcont2 : g2.contains p = true := by
    rw [contains_congr hb0 ht0]
    exact hcont0
  have hin2 : g2.inuse.getD ((p - g0.base) / g0.min_alloc) false = true :=
    (hinIff _).mpr ⟨hin0, Or.inl (by rw [← hwsl]; exact hlive)⟩
  rw [gpage.contains_info]
  rw [if_neg (fun hc => hc hcont2)]
  dsimp only []
  rw [hwh2]
  rw [if_neg (fun hc => hc hin2)]
  by_cases hst0 : g0.starts.getD ((p - g0.base) / g0.min_alloc) false = true
  · have hst2 : g2.starts.getD ((p - g0.base) / g0.min_alloc) false = true := by
      refine (hstIff _).mpr ⟨hst0, Or.inl ?_⟩
      have howner : col.ownerStart g0 ((p - g0.base) / g0.min_alloc) =
          (p - g0.base) / g0.min_alloc := by
        rw [col.ownerStart, if_pos hst0]
      rw [← howner, ← hwsl]
      exact hlive
    rw [if_neg (fun hc => hc hst2)]
    rcases w with ⟨f, l, sl⟩
    dsimp only [] at hwl hwsl
    rw [hwl, hwsl, col.ownerStart, if_pos hst0]
    have hfeq : f = gpage.gpage_find_result.in_range_allocated_start := by
      rcases hf with hf | hf
      · exfalso
        rw [gpage.contains_info] at hci
        rw [if_neg (fun hc => hc hcont0)] at hci
        dsimp only [] at hci
        rw [if_neg (fun hc => hc hin0)] at hci
        rw [if_neg (fun hc => hc hst0)] at hci
        have hw := Option.some.inj hci
        have hff : gpage.gpage_find_result.in_range_allocated_start = f :=
          congrArg gpage.contains_info_ret.found hw
        rw [← hff] at hf
        exact gpage.gpage_find_result.noConfusion hf
      · exact hf
    rw [hfeq]
  · have hstf : g0.starts.getD ((p - g0.base) / g0.min_alloc) false = false :=
      Bool.eq_false_iff.mpr hst0
    have hst2 : ¬ g2.starts.getD ((p - g0.base) / g0.min_alloc) false = true := by
      intro hc
      have := ((hstIff _).mp hc).1
      rw [hstf] at this
      exact Bool.noConfusion this
    rw [if_pos hst2]
    have howner : col.ownerStart g0 ((p - g0.base) / g0.min_alloc) =
        gpage.scan_back g0.starts ((p - g0.base) / g0.min_alloc) - 1 := by
      rw [col.ownerStart, if_neg hst0]
    have holt : col.ownerStart g0 ((p - g0.base) / g0.min_alloc) <
        (p - g0.base) / g0.min_alloc := by
      rcases Nat.eq_or_lt_of_le ho2 with he | h2
      · rw [he] at ho1
        exact absurd ho1 hst0
      · exact h2
    have hsb2 : gpage.scan_back g2.starts ((p - g0.base) / g0.min_alloc) =
        col.ownerStart g0 ((p - g0.base) / g0.min_alloc) + 1 := by
      refine scan_back_eq ?_ ?_ holt
      · refine (hstIff _).mpr ⟨ho1, Or.inl ?_⟩
        rw [← hwsl]
        exact hlive
      · intro k h1 h2
        rcases hbk : g2.starts.getD k false with _ | _
        · rfl
        · have hk0 := ((hstIff k).mp hbk).1
          rw [ho3 k h1 (by omega)] at hk0
          exact Bool.noConfusion hk0
    rw [hsb2]
    rw [if_neg (by omega)]
    rcases w with ⟨f, l, sl⟩
    dsimp only [] at hwl hwsl
    rw [hwl, hwsl]
    have hfeq : f = gpage.gpage_find_result.in_range_allocated_middle := by
      rcases hf with hf | hf
      · exact hf
      · exfalso
        rw [gpage.contains_info] at hci
        rw [if_neg (fun hc => hc hcont0)] at hci
        dsimp only [] at hci
        rw [if_neg (fun hc => hc hin0)] at hci
        rw [if_pos (fun hc => hst0 hc)] at hci
        by_cases hz : gpage.scan_back g0.starts ((p - g0.base) / g0.min_alloc) = 0
        · rw [if_pos hz] at hci
          exact absurd hci (by simp)
        · rw [if_neg hz] at hci
          have hw := Option.some.inj hci
          have hff : gpage.gpage_find_result.in_range_allocated_middle = f :=
            congrArg gpage.contains_info_ret.found hw
          rw [← hff] at hf
          exact gpage.gpage_find_result.noConfusion hf
    rw [hfeq]
    have hsl : col.ownerStart g0 ((p - g0.base) / g0.min_alloc) + 1 - 1 =
        col.ownerStart g0 ((p - g0.base) / g0.min_alloc) := by omega
    rw [hsl]

/-! ### C7 — structure of marking -/

theorem forall2_memr {α β : Type} {R : α → β → Prop} :
    ∀ {l1 : List α} {l2 : List β}, List.Forall₂ R l1 l2 →
      ∀ {y}, y ∈ l2 → ∃ x ∈ l1, R x y := by
  intro l1 l2 h
  induction h with
  | nil =>
    intro y hy
    exact absurd hy (List.not_mem_nil y)
  | @cons a b t1 t2 hr hrest ih =>
    intro y hy
    rcases List.mem_cons.mp hy with he | hm
    · exact ⟨a, List.mem_cons_self _ _, he ▸ hr⟩
    · obtain ⟨x, hx1, hx2⟩ := ih hm
      exact ⟨x, List.mem_cons_of_mem _ hx1, hx2⟩

theorem forall2_meml {α β : Type} {R : α → β → Prop} :
    ∀ {l1 : List α} {l2 : List β}, List.Forall₂ R l1 l2 →
      ∀ {x}, x ∈ l1 → ∃ y ∈ l2, R x y := by
  intro l1 l2 h
  induction h with
  | nil =>
    intro x hx
    exact absurd hx (List.not_mem_nil x)
  | @cons a b t1 t2 hr hrest ih =>
    intro x hx
    rcases List.mem_cons.mp hx with he | hm
    · exact ⟨b, List.mem_cons_self _ _, he ▸ hr⟩
    · obtain ⟨y, hy1, hy2⟩ := ih hm
      exact ⟨y, List.mem_cons_of_mem _ hy1, hy2⟩

theorem forall2_get {α β : Type} {R : α → β → Prop} :
    ∀ {l1 : List α} {l2 : List β}, List.Forall₂ R l1 l2 →
      ∀ {i : Nat} {a : α}, l1[i]? = some a → ∃ b, l2[i]? = some b ∧ R a b := by
  intro l1 l2 h
  induction h with
  | nil =>
    intro i a ha
    rw [List.getElem?_nil] at ha
    exact absurd ha (by simp)
  | @cons x y t1 t2 hr hrest ih =>
    intro i a ha
    match i with
    | 0 =>
      rw [List.getElem?_cons_zero] at ha
      rw [Option.some.inj ha] at hr
      exact ⟨y, List.getElem?_cons_zero, hr⟩
    | i + 1 =>
      rw [List.getElem?_cons_succ] at ha
      obtain ⟨b, hb1, hb2⟩ := ih ha
      exact ⟨b, by rw [List.getElem?_cons_succ]; exact hb1, hb2⟩

theorem forall2_get_r {α β : Type} {R : α → β → Prop} :
    ∀ {l1 : List α} {l2 : List β}, List.Forall₂ R l1 l2 →
      ∀ {i : Nat} {b : β}, l2[i]? = some b → ∃ a, l1[i]? = some a ∧ R a b := by
  intro l1 l2 h
  induction h with
  | nil =>
    intro i b hb
    rw [List.getElem?_nil] at hb
    exact absurd hb (by simp)
  | @cons x y t1 t2 hr hrest ih =>
    intro i b hb
    match i with
    | 0 =>
      rw [List.getElem?_cons_zero] at hb
      rw [Option.some.inj hb] at hr
      exact ⟨x, List.getElem?_cons_zero, hr⟩
    | i + 1 =>
      rw [List.getElem?_cons_succ] at hb
      obtain ⟨a, ha1, ha2⟩ := ih hb
      exact ⟨a, by rw [List.getElem?_cons_succ]; exact ha1, ha2⟩

theorem dstrL_refl (lvl : Nat) (dps : List col.dpRec) : col.dstrL lvl dps dps :=
  List.forall₂_same.mpr fun dp _ => ⟨rfl, Or.inl rfl⟩

theorem pstrL_refl (lvl : Nat) (pages : List col.cpage) : col.pstrL lvl pages pages :=
  List.forall₂_same.mpr fun pg _ => ⟨rfl, fun k hk => hk, dstrL_refl lvl pg.deferred_ptrs⟩

theorem dstrL_trans {lvl : Nat} :
    ∀ {a b c : List col.dpRec}, col.dstrL lvl a b → col.dstrL lvl b c → col.dstrL lvl a c := by
  intro a b c h1
  induction h1 generalizing c with
  | nil =>
    intro h2
    cases h2
    exact List.Forall₂.nil
  | @cons x y t1 t2 hr hrest ih =>
    intro h2
    cases h2 with
    | cons hr2 hrest2 =>
      refine List.Forall₂.cons ⟨?_, ?_⟩ (ih hrest2)
      · rw [hr2.1, hr.1]
      · rcases hr.2 with he | ⟨hz, hl⟩
        · rcases hr2.2 with he2 | ⟨hz2, hl2⟩
          · exact Or.inl (he2.trans he)
          · exact Or.inr ⟨he ▸ hz2, hl2⟩
        · rcases hr2.2 with he2 | ⟨hz2, hl2⟩
          · exact Or.inr ⟨hz, he2.trans hl⟩
          · exact Or.inr ⟨hz, hl2⟩

theorem pstrL_trans {lvl : Nat} :
    ∀ {a b c : List col.cpage}, col.pstrL lvl a b → col.pstrL lvl b c → col.pstrL lvl a c := by
  intro a b c h1
  induction h1 generalizing c with
  | nil =>
    intro h2
    cases h2
    exact List.Forall₂.nil
  | @cons x y t1 t2 hr hrest ih =>
    intro h2
    cases h2 with
    | cons hr2 hrest2 =>
      refine List.Forall₂.cons ⟨?_, ?_, ?_⟩ (ih hrest2)
      · rw [hr2.1, hr.1]
      · intro k hk
        exact hr2.2.1 k (hr.2.1 k hk)
      · exact dstrL_trans hr.2.2 hr2.2.2

theorem markDps_forall2 {S lvl : Nat} {g : gpage} :
    ∀ {dps dps2 : List col.dpRec}, col.markDps S lvl g dps = some dps2 →
      List.Forall₂ (fun dp dp2 => ∃ w, g.contains_info dp.addr = some w ∧
        (w.found = gpage.gpage_find_result.in_range_allocated_middle ∨
          w.found = gpage.gpage_find_result.in_range_allocated_start) ∧
        dp2 = (if w.start_location = S ∧ dp.level = 0 then { dp with level := lvl }
          else dp)) dps dps2 := by
  intro dps
  induction dps with
  | nil =>
    intro dps2 h
    rw [col.markDps] at h
    rw [← Option.some.inj h]
    exact List.Forall₂.nil
  | cons dp rest ih =>
    intro dps2 h
    rw [col.markDps] at h
    rcases hci : g.contains_info dp.addr with _ | w
    · rw [hci] at h
      exact absurd h (by simp)
    rw [hci] at h
    dsimp only [] at h
    by_cases hf : w.found = gpage.gpage_find_result.in_range_allocated_middle ∨
        w.found = gpage.gpage_find_result.in_range_allocated_start
    · rw [if_pos hf] at h
      rcases hrec : col.markDps S lvl g rest with _ | rest2
      · rw [hrec] at h
        exact absurd h (by simp)
      rw [hrec] at h
      dsimp only [] at h
      rw [← Option.some.inj h]
      exact List.Forall₂.cons ⟨w, hci, hf, rfl⟩ (ih hrec)
    · rw [if_neg hf] at h
      exact absurd h (by simp)

theorem markDps_dstrL {S lvl : Nat} {g : gpage} {dps dps2 : List col.dpRec}
    (h : col.markDps S lvl g dps = some dps2) : col.dstrL lvl dps dps2 := by
  refine (markDps_forall2 h).imp ?_
  rintro dp dp2 ⟨w, hci, hf, hdp2⟩
  by_cases hcond : w.start_location = S ∧ dp.level = 0
  · rw [if_pos hcond] at hdp2
    rw [hdp2]
    exact ⟨rfl, Or.inr ⟨hcond.2, rfl⟩⟩
  · rw [if_neg hcond] at hdp2
    rw [hdp2]
    exact ⟨rfl, Or.inl rfl⟩

theorem markPages_pstrL {pv lvl : Nat} :
    ∀ {pages pages2 : List col.cpage}, col.markPages pv lvl pages = some pages2 →
      col.pstrL lvl pages pages2 := by
  intro pages
  induction pages with
  | nil =>
    intro pages2 h
    rw [col.markPages] at h
    rw [← Option.some.inj h]
    exact List.Forall₂.nil
  | cons pg rest ih =>
    intro pages2 h
    rw [col.markPages] at h
    rcases hci : pg.page.contains_info pv with _ | w
    · rw [hci] at h
      exact absurd h (by simp)
    rw [hci] at h
    dsimp only [] at h
    by_cases hun : w.found = gpage.gpage_find_result.in_range_unallocated
    · rw [if_pos hun] at h
      exact absurd h (by simp)
    rw [if_neg hun] at h
    by_cases hnr : w.found = gpage.gpage_find_result.not_in_range
    · rw [if_pos hnr] at h
      rcases hrec : col.markPages pv lvl rest with _ | rest2
      · rw [hrec] at h
        exact absurd h (by simp)
      rw [hrec] at h
      dsimp only [] at h
      rw [← Option.some.inj h]
      exact List.Forall₂.cons ⟨rfl, fun k hk => hk, dstrL_refl lvl _⟩ (ih hrec)
    · rw [if_neg hnr] at h
      rcases hmd : col.markDps w.start_location lvl pg.page pg.deferred_ptrs with _ | dps2
      · rw [hmd] at h
        exact absurd h (by simp)
      rw [hmd] at h
      dsimp only [] at h
      rw [← Option.some.inj h]
      exact List.Forall₂.cons ⟨rfl, fun k hk => getD_set_true hk, markDps_dstrL hmd⟩
        (pstrL_refl lvl rest)

theorem markPtr_pstrL {pv : Option Nat} {lvl : Nat} {pages pages2 : List col.cpage}
    (h : col.markPtr pv lvl pages = some pages2) : col.pstrL lvl pages pages2 := by
  rcases pv with _ | p
  · rw [← Option.some.inj h]
    exact pstrL_refl lvl pages
  · exact markPages_pstrL h

theorem passDps_pstrL {v : Nat → Option Nat} {lvl pi : Nat} :
    ∀ {dleft di : Nat} {pages : List col.cpage} {done : Bool}
      {pages2 : List col.cpage} {done2 : Bool},
      col.passDps v lvl pi dleft di pages done = some (pages2, done2) →
      col.pstrL lvl pages pages2 := by
  intro dleft
  induction dleft with
  | zero =>
    intro di pages done pages2 done2 h
    rw [col.passDps] at h
    have hpd := Option.some.inj h
    rw [Prod.mk.injEq] at hpd
    rw [← hpd.1]
    exact pstrL_refl lvl pages
  | succ dl ih =>
    intro di pages done pages2 done2 h
    rw [col.passDps] at h
    rcases hpi : pages[pi]? with _ | pg
    · rw [hpi] at h
      dsimp only [] at h
      have hpd := Option.some.inj h
      rw [Prod.mk.injEq] at hpd
      rw [← hpd.1]
      exact pstrL_refl lvl pages
    rw [hpi] at h
    dsimp only [] at h
    rcases hdi : pg.deferred_ptrs[di]? with _ | dp
    · rw [hdi] at h
      dsimp only [] at h
      have hpd := Option.some.inj h
      rw [Prod.mk.injEq] at hpd
      rw [← hpd.1]
      exact pstrL_refl lvl pages
    rw [hdi] at h
    dsimp only [] at h
    by_cases hl : dp.level = lvl - 1
    · rw [if_pos hl] at h
      rcases hmk : col.markPtr (v dp.addr) lvl pages with _ | pages3
      · rw [hmk] at h
        exact absurd h (by simp)
      rw [hmk] at h
      dsimp only [] at h
      exact pstrL_trans (markPtr_pstrL hmk) (ih h)
    · rw [if_neg hl] at h
      exact ih h

theorem passPages_pstrL {v : Nat → Option Nat} {lvl : Nat} :
    ∀ {pleft pi : Nat} {pages : List col.cpage} {done : Bool}
      {pages2 : List col.cpage} {done2 : Bool},
      col.passPages v lvl pleft pi pages done = some (pages2, done2) →
      col.pstrL lvl pages pages2 := by
  intro pleft
  induction pleft with
  | zero =>
    intro pi pages done pages2 done2 h
    rw [col.passPages] at h
    have hpd := Option.some.inj h
    rw [Prod.mk.injEq] at hpd
    rw [← hpd.1]
    exact pstrL_refl lvl pages
  | succ pl ih =>
    intro pi pages done pages2 done2 h
    rw [col.passPages] at h
    rcases hpi : pages[pi]? with _ | pg
    · rw [hpi] at h
      dsimp only [] at h
      have hpd := Option.some.inj h
      rw [Prod.mk.injEq] at hpd
      rw [← hpd.1]
      exact pstrL_refl lvl pages
    rw [hpi] at h
    dsimp only [] at h
    rcases hpd2 : col.passDps v lvl pi pg.deferred_ptrs.length 0 pages done with _ | pr
    · rw [hpd2] at h
      exact absurd h (by simp)
    obtain ⟨pages3, done3⟩ := pr
    rw [hpd2] at h
    dsimp only [] at h
    exact pstrL_trans (passDps_pstrL hpd2) (ih h)

theorem found_allocated (f : gpage.gpage_find_result)
    (h1 : f ≠ gpage.gpage_find_result.in_range_unallocated)
    (h2 : f ≠ gpage.gpage_find_result.not_in_range) :
    f = gpage.gpage_find_result.in_range_allocated_middle ∨
      f = gpage.gpage_find_result.in_range_allocated_start := by
  cases f
  · exact absurd rfl h2
  · exact absurd rfl h1
  · exact Or.inl rfl
  · exact Or.inr rfl

theorem targetMarked_mono {lvl : Nat} {p : Nat} :
    ∀ {pages pages2 : List col.cpage}, col.pstrL lvl pages pages2 →
      col.targetMarked pages p = true → col.targetMarked pages2 p = true := by
  intro pages pages2 h
  induction h with
  | nil =>
    intro h2
    exact h2
  | @cons pg pg2 t1 t2 hr hrest ih =>
    intro h2
    rw [col.targetMarked] at h2 ⊢
    rw [hr.1]
    rcases hci : pg.page.contains_info p with _ | w
    · rfl
    rw [hci] at h2
    dsimp only [] at h2 ⊢
    by_cases hnr : w.found = gpage.gpage_find_result.not_in_range
    · rw [if_pos hnr] at h2 ⊢
      exact ih h2
    · rw [if_neg hnr] at h2 ⊢
      exact hr.2.1 _ h2

theorem targetMarkedOpt_mono {lvl : Nat} {pv : Option Nat}
    {pages pages2 : List col.cpage} (h : col.pstrL lvl pages pages2)
    (h2 : col.targetMarkedOpt pages pv = true) :
    col.targetMarkedOpt pages2 pv = true := by
  rcases pv with _ | p
  · rfl
  · exact targetMarked_mono h h2

theorem markPages_establishes {p lvl : Nat} :
    ∀ {pages pages2 : List col.cpage}, col.markPages p lvl pages = some pages2 →
      col.live_ok pages → col.targetMarked pages2 p = true := by
  intro pages
  induction pages with
  | nil =>
    intro pages2 h hok
    rw [col.markPages] at h
    rw [← Option.some.inj h]
    rfl
  | cons pg rest ih =>
    intro pages2 h hok
    rw [col.markPages] at h
    rcases hci : pg.page.contains_info p with _ | w
    · rw [hci] at h
      exact absurd h (by simp)
    rw [hci] at h
    dsimp only [] at h
    by_cases hun : w.found = gpage.gpage_find_result.in_range_unallocated
    · rw [if_pos hun] at h
      exact absurd h (by simp)
    rw [if_neg hun] at h
    by_cases hnr : w.found = gpage.gpage_find_result.not_in_range
    · rw [if_pos hnr] at h
      rcases hrec : col.markPages p lvl rest with _ | rest2
      · rw [hrec] at h
        exact absurd h (by simp)
      rw [hrec] at h
      dsimp only [] at h
      rw [← Option.some.inj h]
      rw [col.targetMarked, hci]
      dsimp only []
      rw [if_pos hnr]
      exact ih hrec fun q hq => hok q (List.mem_cons_of_mem _ hq)
    · rw [if_neg hnr] at h
      rcases hmd : col.markDps w.start_location lvl pg.page pg.deferred_ptrs with _ | dps2
      · rw [hmd] at h
        exact absurd h (by simp)
      rw [hmd] at h
      dsimp only [] at h
      rw [← Option.some.inj h]
      rw [col.targetMarked]
      have hpe : ({ pg with live_starts := pg.live_starts.set w.start_location true, deferred_ptrs := dps2 } : col.cpage).page = pg.page := rfl
      rw [hpe, hci]
      dsimp only []
      rw [if_neg hnr]
      obtain ⟨hlen, hC, hdvd⟩ := hok pg (List.mem_cons_self _ _)
      show (pg.live_starts.set w.start_location true).getD w.start_location false = true
      refine getD_set_self true ?_
      rw [hlen]
      exact contains_info_start_lt hC hdvd hci (found_allocated w.found hun hnr)

theorem markPtr_establishes {pv : Option Nat} {lvl : Nat}
    {pages pages2 : List col.cpage} (h : col.markPtr pv lvl pages = some pages2)
    (hok : col.live_ok pages) : col.targetMarkedOpt pages2 pv = true := by
  rcases pv with _ | p
  · rfl
  · exact markPages_establishes h hok

theorem contains_info_isSome {g : gpage} (hinv : gpage.INV g) (p : Nat) :
    ∃ w, g.contains_info p = some w := by
  rw [gpage.contains_info]
  by_cases hcont : g.contains p = true
  · rw [if_neg (fun hc => hc hcont)]
    dsimp only []
    by_cases hiu : g.inuse.getD ((p - g.base) / g.min_alloc) false = true
    · rw [if_neg (fun hc => hc hiu)]
      by_cases hst : g.starts.getD ((p - g.base) / g.min_alloc) false = true
      · rw [if_neg (fun hc => hc hst)]
        exact ⟨_, rfl⟩
      · rw [if_pos hst]
        obtain ⟨s, hs1, hs2, hs3⟩ := hinv.2.2.2.2.2 _ hiu
        have hslt : s < (p - g.base) / g.min_alloc := by
          rcases Nat.eq_or_lt_of_le hs1 with he | hl
          · rw [he] at hs2
            exact absurd hs2 hst
          · exact hl
        have hnz : ¬ gpage.scan_back g.starts ((p - g.base) / g.min_alloc) = 0 := by
          intro hz
          rcases scan_back_spec g.starts ((p - g.base) / g.min_alloc) with
            ⟨h0, hall⟩ | ⟨hpos, hst2, hall⟩
          · rw [hall s hslt] at hs2
            exact absurd hs2 Bool.false_ne_true
          · omega
        rw [if_neg hnz]
        exact ⟨_, rfl⟩
    · rw [if_pos hiu]
      exact ⟨_, rfl⟩
  · rw [if_pos hcont]
    exact ⟨_, rfl⟩

theorem contains_info_of_alloc {g : gpage} (hinv : gpage.INV g) {a : Nat}
    (hcont : g.contains a = true)
    (hiu : g.inuse.getD ((a - g.base) / g.min_alloc) false = true) :
    ∃ w, g.contains_info a = some w ∧
      (w.found = gpage.gpage_find_result.in_range_allocated_middle ∨
        w.found = gpage.gpage_find_result.in_range_allocated_start) := by
  rw [gpage.contains_info]
  rw [if_neg (fun hc => hc hcont)]
  dsimp only []
  rw [if_neg (fun hc => hc hiu)]
  by_cases hst : g.starts.getD ((a - g.base) / g.min_alloc) false = true
  · rw [if_neg (fun hc => hc hst)]
    exact ⟨_, rfl, Or.inr rfl⟩
  · rw [if_pos hst]
    obtain ⟨s, hs1, hs2, hs3⟩ := hinv.2.2.2.2.2 _ hiu
    have hslt : s < (a - g.base) / g.min_alloc := by
      rcases Nat.eq_or_lt_of_le hs1 with he | hl
      · rw [he] at hs2
        exact absurd hs2 hst
      · exact hl
    have hnz : ¬ gpage.scan_back g.starts ((a - g.base) / g.min_alloc) = 0 := by
      intro hz
      rcases scan_back_spec g.starts ((a - g.base) / g.min_alloc) with
        ⟨h0, hall⟩ | ⟨hpos, hst2, hall⟩
      · rw [hall s hslt] at hs2
        exact absurd hs2 Bool.false_ne_true
      · omega
    rw [if_neg hnz]
    exact ⟨_, rfl, Or.inl rfl⟩

theorem contains_info_unalloc {g : gpage} {p : Nat} {w : gpage.contains_info_ret}
    (hci : g.contains_info p = some w)
    (hf : w.found = gpage.gpage_find_result.in_range_unallocated) :
    g.contains p = true ∧
    g.inuse.getD ((p - g.base) / g.min_alloc) false = false := by
  rw [gpage.contains_info] at hci
  by_cases hcont : g.contains p = true
  · rw [if_neg (fun hc => hc hcont)] at hci
    dsimp only [] at hci
    by_cases hiu : g.inuse.getD ((p - g.base) / g.min_alloc) false = true
    · rw [if_neg (fun hc => hc hiu)] at hci
      by_cases hst : g.starts.getD ((p - g.base) / g.min_alloc) false = true
      · rw [if_neg (fun hc => hc hst)] at hci
        rw [← Option.some.inj hci] at hf
        exact gpage.gpage_find_result.noConfusion hf
      · rw [if_pos hst] at hci
        by_cases hz : gpage.scan_back g.starts ((p - g.base) / g.min_alloc) = 0
        · rw [if_pos hz] at hci
          exact absurd hci (by simp)
        · rw [if_neg hz] at hci
          rw [← Option.some.inj hci] at hf
          exact gpage.gpage_find_result.noConfusion hf
    · rw [if_pos hiu] at hci
      exact ⟨hcont, Bool.eq_false_iff.mpr hiu⟩
  · rw [if_pos hcont] at hci
    rw [← Option.some.inj hci] at hf
    exact gpage.gpage_find_result.noConfusion hf

theorem markDps_isSome {S lvl : Nat} {g : gpage} (hinv : gpage.INV g) :
    ∀ {dps : List col.dpRec}, (∀ dp ∈ dps, col.dpAlloc g dp) →
      ∃ dps2, col.markDps S lvl g dps = some dps2 := by
  intro dps
  induction dps with
  | nil =>
    intro hall
    exact ⟨[], by rw [col.markDps]⟩
  | cons dp rest ih =>
    intro hall
    obtain ⟨hcont, hiu⟩ := hall dp (List.mem_cons_self _ _)
    obtain ⟨w, hci, hf⟩ := contains_info_of_alloc hinv hcont hiu
    obtain ⟨rest2, hrec⟩ := ih fun q hq => hall q (List.mem_cons_of_mem _ hq)
    rw [col.markDps, hci]
    dsimp only []
    rw [if_pos hf, hrec]
    exact ⟨_, rfl⟩

theorem markPages_isSome {p lvl : Nat} :
    ∀ {pages : List col.cpage}, col.pagesOK pages → col.valOK pages p →
      ∃ pages2, col.markPages p lvl pages = some pages2 := by
  intro pages
  induction pages with
  | nil =>
    intro hok hval
    exact ⟨[], by rw [col.markPages]⟩
  | cons pg rest ih =>
    intro hok hval
    obtain ⟨hinv, hdall⟩ := hok pg (List.mem_cons_self _ _)
    obtain ⟨w, hci⟩ := contains_info_isSome hinv p
    have hun : ¬ w.found = gpage.gpage_find_result.in_range_unallocated := by
      intro hf
      obtain ⟨hcont, hfu⟩ := contains_info_unalloc hci hf
      have := hval pg (List.mem_cons_self _ _) hcont
      rw [hfu] at this
      exact Bool.noConfusion this
    by_cases hnr : w.found = gpage.gpage_find_result.not_in_range
    · obtain ⟨rest2, hrec⟩ := ih (fun q hq => hok q (List.mem_cons_of_mem _ hq))
        (fun q hq => hval q (List.mem_cons_of_mem _ hq))
      rw [col.markPages, hci]
      dsimp only []
      rw [if_neg hun, if_pos hnr, hrec]
      exact ⟨_, rfl⟩
    · obtain ⟨dps2, hmd⟩ := markDps_isSome hinv hdall
      rw [col.markPages, hci]
      dsimp only []
      rw [if_neg hun, if_neg hnr, hmd]
      exact ⟨_, rfl⟩

theorem pagesOK_of_pstrL {lvl : Nat} {pages pages2 : List col.cpage}
    (hp : col.pstrL lvl pages pages2) (h : col.pagesOK pages) : col.pagesOK pages2 := by
  intro pg2 hpg2
  obtain ⟨pg, hpg, hpage, hlive, hdstr⟩ := forall2_memr hp hpg2
  obtain ⟨hinv, hdall⟩ := h pg hpg
  refine ⟨by rw [hpage]; exact hinv, ?_⟩
  intro dp2 hdp2
  obtain ⟨dp, hdp, haddr, hlvl⟩ := forall2_memr hdstr hdp2
  obtain ⟨hc1, hc2⟩ := hdall dp hdp
  constructor
  · rw [hpage, haddr]
    exact hc1
  · rw [hpage, haddr]
    exact hc2

theorem valOK_of_pstrL {lvl : Nat} {p : Nat} {pages pages2 : List col.cpage}
    (hp : col.pstrL lvl pages pages2) (h : col.valOK pages p) : col.valOK pages2 p := by
  intro pg2 hpg2
  obtain ⟨pg, hpg, hpage, hlive, hdstr⟩ := forall2_memr hp hpg2
  rw [hpage]
  exact h pg hpg

theorem scanOK_of_pstrL {lvl : Nat} {v : Nat → Option Nat} {pages pages2 : List col.cpage}
    (hp : col.pstrL lvl pages pages2) (h : col.scanOK v pages) : col.scanOK v pages2 := by
  intro pg2 hpg2 dp2 hdp2 p hv
  obtain ⟨pg, hpg, hpage, hlive, hdstr⟩ := forall2_memr hp hpg2
  obtain ⟨dp, hdp, haddr, hlvl⟩ := forall2_memr hdstr hdp2
  rw [haddr] at hv
  exact valOK_of_pstrL hp (h pg hpg dp hdp p hv)

theorem markPtr_isSome {pv : Option Nat} {lvl : Nat} {pages : List col.cpage}
    (hok : col.pagesOK pages)
    (hval : ∀ p, pv = some p → col.valOK pages p) :
    ∃ pages2, col.markPtr pv lvl pages = some pages2 := by
  rcases pv with _ | p
  · exact ⟨pages, rfl⟩
  · exact markPages_isSome hok (hval p rfl)

theorem passDps_isSome {v : Nat → Option Nat} {lvl pi : Nat} :
    ∀ {dleft di : Nat} {pages : List col.cpage} {done : Bool},
      col.pagesOK pages → col.scanOK v pages →
      col.live_ok pages → col.marked_sound pages →
      ∃ out, col.passDps v lvl pi dleft di pages done = some out := by
  intro dleft
  induction dleft with
  | zero =>
    intro di pages done hok hscan hlok hms
    exact ⟨(pages, done), by rw [col.passDps]⟩
  | succ dl ih =>
    intro di pages done hok hscan hlok hms
    rcases hpi : pages[pi]? with _ | pg
    · refine ⟨(pages, done), ?_⟩
      rw [col.passDps, hpi]
    rcases hdi : pg.deferred_ptrs[di]? with _ | dp
    · refine ⟨(pages, done), ?_⟩
      rw [col.passDps, hpi]
      dsimp only []
      rw [hdi]
    have hpgm : pg ∈ pages := List.getElem?_mem hpi
    have hdpm : dp ∈ pg.deferred_ptrs := List.getElem?_mem hdi
    by_cases hl : dp.level = lvl - 1
    · obtain ⟨pages3, hmk⟩ := markPtr_isSome hok
        (fun p hp => hscan pg hpgm dp hdpm p hp)
      have hstr := markPtr_pstrL hmk
      obtain ⟨hlok2, hms2⟩ := markPtr_preserves hmk hlok hms
      obtain ⟨out, hrec⟩ := ih (pagesOK_of_pstrL hstr hok) (scanOK_of_pstrL hstr hscan)
        hlok2 hms2
      refine ⟨out, ?_⟩
      rw [col.passDps, hpi]
      dsimp only []
      rw [hdi]
      dsimp only []
      rw [if_pos hl, hmk]
      exact hrec
    · obtain ⟨out, hrec⟩ := ih hok hscan hlok hms
      refine ⟨out, ?_⟩
      rw [col.passDps, hpi]
      dsimp only []
      rw [hdi]
      dsimp only []
      rw [if_neg hl]
      exact hrec

theorem passPages_isSome {v : Nat → Option Nat} {lvl : Nat} :
    ∀ {pleft pi : Nat} {pages : List col.cpage} {done : Bool},
      col.pagesOK pages → col.scanOK v pages →
      col.live_ok pages → col.marked_sound pages →
      ∃ out, col.passPages v lvl pleft pi pages done = some out := by
  intro pleft
  induction pleft with
  | zero =>
    intro pi pages done hok hscan hlok hms
    exact ⟨(pages, done), by rw [col.passPages]⟩
  | succ pl ih =>
    intro pi pages done hok hscan hlok hms
    rcases hpi : pages[pi]? with _ | pg
    · refine ⟨(pages, done), ?_⟩
      rw [col.passPages, hpi]
    obtain ⟨out1, hpd⟩ := (passDps_isSome hok hscan hlok hms :
      ∃ out, col.passDps v lvl pi pg.deferred_ptrs.length 0 pages done = some out)
    obtain ⟨pages3, done3⟩ := out1
    have hstr := passDps_pstrL hpd
    obtain ⟨hlok2, hms2⟩ := passDps_preserves hpd hlok hms
    obtain ⟨out, hrec⟩ := ih (pagesOK_of_pstrL hstr hok) (scanOK_of_pstrL hstr hscan)
      hlok2 hms2
    refine ⟨out, ?_⟩
    rw [col.passPages, hpi]
    dsimp only []
    rw [hpd]
    exact hrec

theorem getD_replicate_false : ∀ (n k : Nat), (List.replicate n false).getD k false = false
  | 0, 0 => rfl
  | 0, _ + 1 => rfl
  | _ + 1, 0 => rfl
  | n + 1, k + 1 => getD_replicate_false n k

theorem markDps_promotes {S lvl : Nat} {g : gpage} {dps dps2 : List col.dpRec}
    (h : col.markDps S lvl g dps = some dps2) (hl : 1 ≤ lvl) :
    ∀ dp2 ∈ dps2, ∀ w, g.contains_info dp2.addr = some w → w.start_location = S →
      dp2.level ≠ 0 := by
  intro dp2 hdp2 w hw hS
  obtain ⟨dp, hdp, w0, hci0, hf0, hdp2eq⟩ := forall2_memr (markDps_forall2 h) hdp2
  by_cases hcond : w0.start_location = S ∧ dp.level = 0
  · rw [if_pos hcond] at hdp2eq
    rw [hdp2eq]
    show lvl ≠ 0
    omega
  · rw [if_neg hcond] at hdp2eq
    rw [hdp2eq] at hw ⊢
    rw [hci0] at hw
    have hww := Option.some.inj hw
    intro hz
    exact hcond ⟨by rw [← hww] at hS; exact hS, hz⟩

theorem markPages_PRM {p lvl : Nat} :
    ∀ {pages pages2 : List col.cpage}, col.markPages p lvl pages = some pages2 →
      1 ≤ lvl → col.PRM pages → col.PRM pages2 := by
  intro pages
  induction pages with
  | nil =>
    intro pages2 h hl hprm
    rw [col.markPages] at h
    rw [← Option.some.inj h]
    intro pg hpg
    exact absurd hpg (List.not_mem_nil _)
  | cons pg rest ih =>
    intro pages2 h hl hprm
    rw [col.markPages] at h
    rcases hci : pg.page.contains_info p with _ | w
    · rw [hci] at h
      exact absurd h (by simp)
    rw [hci] at h
    dsimp only [] at h
    by_cases hun : w.found = gpage.gpage_find_result.in_range_unallocated
    · rw [if_pos hun] at h
      exact absurd h (by simp)
    rw [if_neg hun] at h
    by_cases hnr : w.found = gpage.gpage_find_result.not_in_range
    · rw [if_pos hnr] at h
      rcases hrec : col.markPages p lvl rest with _ | rest2
      · rw [hrec] at h
        exact absurd h (by simp)
      rw [hrec] at h
      dsimp only [] at h
      rw [← Option.some.inj h]
      intro x hx
      rcases List.mem_cons.mp hx with hx | hx
      · rw [hx]
        exact hprm pg (List.mem_cons_self _ _)
      · exact ih hrec hl (fun q hq => hprm q (List.mem_cons_of_mem _ hq)) x hx
    · rw [if_neg hnr] at h
      rcases hmd : col.markDps w.start_location lvl pg.page pg.deferred_ptrs with _ | dps2
      · rw [hmd] at h
        exact absurd h (by simp)
      rw [hmd] at h
      dsimp only [] at h
      rw [← Option.some.inj h]
      intro x hx
      rcases List.mem_cons.mp hx with hx | hx
      · rw [hx]
        intro dp2 hdp2 w2 hciX hfX hbit
        have hpe : ({ pg with live_starts := pg.live_starts.set w.start_location true, deferred_ptrs := dps2 } : col.cpage).page = pg.page := rfl
        rw [hpe] at hciX
        by_cases hSeq : w2.start_location = w.start_location
        · exact markDps_promotes hmd hl dp2 hdp2 w2 hciX hSeq
        · have hbit2 : pg.live_starts.getD w2.start_location false = true := by
            have hb : ({ pg with live_starts := pg.live_starts.set w.start_location true, deferred_ptrs := dps2 } : col.cpage).live_starts = pg.live_starts.set w.start_location true := rfl
            rw [hb] at hbit
            rw [getD_set_ne true (fun he => hSeq he.symm)] at hbit
            exact hbit
          obtain ⟨dp, hdp, w0, hci0, hf0, hdp2eq⟩ := forall2_memr (markDps_forall2 hmd) hdp2
          by_cases hcond : w0.start_location = w.start_location ∧ dp.level = 0
          · rw [if_pos hcond] at hdp2eq
            rw [hdp2eq]
            show lvl ≠ 0
            omega
          · rw [if_neg hcond] at hdp2eq
            rw [hdp2eq] at hciX ⊢
            exact hprm pg (List.mem_cons_self _ _) dp hdp w2 hciX hfX hbit2
      · exact hprm x (List.mem_cons_of_mem _ hx)

theorem markPtr_PRM {pv : Option Nat} {lvl : Nat} {pages pages2 : List col.cpage}
    (h : col.markPtr pv lvl pages = some pages2) (hl : 1 ≤ lvl) (hprm : col.PRM pages) :
    col.PRM pages2 := by
  rcases pv with _ | p
  · rw [← Option.some.inj h]
    exact hprm
  · exact markPages_PRM h hl hprm

theorem markRoots_PRM {v : Nat → Option Nat} {lvl : Nat} :
    ∀ {roots : List Nat} {pages pages2 : List col.cpage},
      col.markRoots v lvl roots pages = some pages2 → 1 ≤ lvl →
      col.PRM pages → col.PRM pages2 := by
  intro roots
  induction roots with
  | nil =>
    intro pages pages2 h hl hprm
    rw [col.markRoots] at h
    rw [← Option.some.inj h]
    exact hprm
  | cons r rs ih =>
    intro pages pages2 h hl hprm
    rw [col.markRoots] at h
    rcases hmk : col.markPtr (v r) lvl pages with _ | pagesB
    · rw [hmk] at h
      exact absurd h (by simp)
    rw [hmk] at h
    dsimp only [] at h
    exact ih h hl (markPtr_PRM hmk hl hprm)

theorem passDps_PRM {v : Nat → Option Nat} {lvl pi : Nat} :
    ∀ {dleft di : Nat} {pages : List col.cpage} {done : Bool}
      {pages2 : List col.cpage} {done2 : Bool},
      col.passDps v lvl pi dleft di pages done = some (pages2, done2) → 1 ≤ lvl →
      col.PRM pages → col.PRM pages2 := by
  intro dleft
  induction dleft with
  | zero =>
    intro di pages done pages2 done2 h hl hprm
    rw [col.passDps] at h
    have hpd := Option.some.inj h
    rw [Prod.mk.injEq] at hpd
    rw [← hpd.1]
    exact hprm
  | succ dl ih =>
    intro di pages done pages2 done2 h hl hprm
    rw [col.passDps] at h
    rcases hpi : pages[pi]? with _ | pg
    · rw [hpi] at h
      have hpd := Option.some.inj h
      rw [Prod.mk.injEq] at hpd
      rw [← hpd.1]
      exact hprm
    rw [hpi] at h
    dsimp only [] at h
    rcases hdi : pg.deferred_ptrs[di]? with _ | dp
    · rw [hdi] at h
      have hpd := Option.some.inj h
      rw [Prod.mk.injEq] at hpd
      rw [← hpd.1]
      exact hprm
    rw [hdi] at h
    dsimp only [] at h
    by_cases hlv : dp.level = lvl - 1
    · rw [if_pos hlv] at h
      rcases hmk : col.markPtr (v dp.addr) lvl pages with _ | pages3
      · rw [hmk] at h
        exact absurd h (by simp)
      rw [hmk] at h
      dsimp only [] at h
      exact ih h hl (markPtr_PRM hmk hl hprm)
    · rw [if_neg hlv] at h
      exact ih h hl hprm

theorem passPages_PRM {v : Nat → Option Nat} {lvl : Nat} :
    ∀ {pleft pi : Nat} {pages : List col.cpage} {done : Bool}
      {pages2 : List col.cpage} {done2 : Bool},
      col.passPages v lvl pleft pi pages done = some (pages2, done2) → 1 ≤ lvl →
      col.PRM pages → col.PRM pages2 := by
  intro pleft
  induction pleft with
  | zero =>
    intro pi pages done pages2 done2 h hl hprm
    rw [col.passPages] at h
    have hpd := Option.some.inj h
    rw [Prod.mk.injEq] at hpd
    rw [← hpd.1]
    exact hprm
  | succ pl ih =>
    intro pi pages done pages2 done2 h hl hprm
    rw [col.passPages] at h
    rcases hpi : pages[pi]? with _ | pg
    · rw [hpi] at h
      have hpd := Option.some.inj h
      rw [Prod.mk.injEq] at hpd
      rw [← hpd.1]
      exact hprm
    rw [hpi] at h
    dsimp only [] at h
    rcases hin : col.passDps v lvl pi pg.deferred_ptrs.length 0 pages done with _ | prA
    · rw [hin] at h
      exact absurd h (by simp)
    obtain ⟨pagesA, doneA⟩ := prA
    rw [hin] at h
    dsimp only [] at h
    exact ih h hl (passDps_PRM hin hl hprm)

theorem bfs_PRM {v : Nat → Option Nat} :
    ∀ {fuel lvl : Nat} {pages : List col.cpage} {res : Nat × List col.cpage},
      col.bfs v fuel lvl pages = some res → col.PRM pages → col.PRM res.2 := by
  intro fuel
  induction fuel with
  | zero =>
    intro lvl pages res h hprm
    rw [col.bfs] at h
    exact absurd h (by simp)
  | succ f ih =>
    intro lvl pages res h hprm
    rw [col.bfs] at h
    rcases hpp : col.passPages v (lvl + 1) pages.length 0 pages true with _ | pr
    · rw [hpp] at h
      exact absurd h (by simp)
    obtain ⟨pages2, done⟩ := pr
    rw [hpp] at h
    dsimp only [] at h
    have hprm2 := passPages_PRM hpp (by omega) hprm
    by_cases hd : done = true
    · rw [if_pos hd] at h
      rw [← Option.some.inj h]
      exact hprm2
    · rw [if_neg hd] at h
      exact ih h hprm2

theorem reset_PRM (pages : List col.cpage) : col.PRM (pages.map col.resetPage) := by
  intro pg2 hpg2 dp hdp w hci hf hbit
  obtain ⟨pg, hpg, he⟩ := List.mem_map.mp hpg2
  rw [← he] at hbit
  have hb : (col.resetPage pg).live_starts = List.replicate pg.live_starts.length false := rfl
  rw [hb, getD_replicate_false] at hbit
  exact Bool.noConfusion hbit

theorem totalDps_eq_flat (pages : List col.cpage) :
    col.totalDps pages =
      ((pages.map fun pg => pg.deferred_ptrs.map col.dpRec.level).flatten).length := by
  rw [List.length_flatten, List.map_map]
  rw [col.totalDps]
  have he : (fun pg : col.cpage => pg.deferred_ptrs.length) =
      (List.length ∘ fun pg : col.cpage => pg.deferred_ptrs.map col.dpRec.level) := by
    funext pg
    show pg.deferred_ptrs.length = (pg.deferred_ptrs.map col.dpRec.level).length
    rw [List.length_map]
  rw [he]

theorem levels_le_totalDps {pages : List col.cpage} {m : Nat}
    (h : ∀ k, 1 ≤ k → k ≤ m → col.hasLevel pages k) : m ≤ col.totalDps pages := by
  have hsub : ((List.range m).map Nat.succ) ⊆
      (pages.map fun pg => pg.deferred_ptrs.map col.dpRec.level).flatten := by
    intro a ha
    obtain ⟨k, hk, he⟩ := List.mem_map.mp ha
    have hkm := List.mem_range.mp hk
    obtain ⟨pg, hpg, dp, hdp, hlv⟩ := h a (by omega) (by omega)
    exact List.mem_flatten.mpr ⟨pg.deferred_ptrs.map col.dpRec.level,
      List.mem_map.mpr ⟨pg, hpg, rfl⟩, List.mem_map.mpr ⟨dp, hdp, hlv⟩⟩
  have hnodup : ((List.range m).map Nat.succ).Nodup :=
    (List.nodup_range m).map Nat.succ_injective
  have hlen := (hnodup.subperm hsub).length_le
  rw [List.length_map, List.length_range] at hlen
  rw [totalDps_eq_flat]
  exact hlen

theorem totalDps_pstrL {lvl : Nat} {pages pages2 : List col.cpage}
    (h : col.pstrL lvl pages pages2) : col.totalDps pages2 = col.totalDps pages := by
  induction h with
  | nil => rfl
  | @cons pg pg2 t t2 hr hrest ih =>
    show col.totalDps (pg2 :: t2) = col.totalDps (pg :: t)
    rw [col.totalDps, col.totalDps, List.map_cons, List.map_cons, List.sum_cons,
      List.sum_cons]
    rw [← List.Forall₂.length_eq hr.2.2]
    rw [col.totalDps, col.totalDps] at ih
    rw [ih]

theorem hasLevel_pstrL {lvl k : Nat} {pages pages2 : List col.cpage}
    (h : col.pstrL lvl pages pages2) (hk : k ≠ 0) (hl : col.hasLevel pages k) :
    col.hasLevel pages2 k := by
  obtain ⟨pg, hpg, dp, hdp, hlv⟩ := hl
  obtain ⟨pg2, hpg2, hpage, hlive, hdstr⟩ := forall2_meml h hpg
  obtain ⟨dp2, hdp2, haddr, hlev⟩ := forall2_meml hdstr hdp
  refine ⟨pg2, hpg2, dp2, hdp2, ?_⟩
  rcases hlev with hlev | hlev
  · rw [hlev, hlv]
  · exact absurd (hlv ▸ hlev.1) hk

theorem passDps_done_mono {v : Nat → Option Nat} {lvl pi : Nat} :
    ∀ {dleft di : Nat} {pages pages2 : List col.cpage} {done2 : Bool},
      col.passDps v lvl pi dleft di pages false = some (pages2, done2) →
      done2 = false := by
  intro dleft
  induction dleft with
  | zero =>
    intro di pages pages2 done2 h
    rw [col.passDps] at h
    have hpd := Option.some.inj h
    rw [Prod.mk.injEq] at hpd
    exact hpd.2.symm
  | succ dl ih =>
    intro di pages pages2 done2 h
    rw [col.passDps] at h
    rcases hpi : pages[pi]? with _ | pg
    · rw [hpi] at h
      have hpd := Option.some.inj h
      rw [Prod.mk.injEq] at hpd
      exact hpd.2.symm
    rw [hpi] at h
    dsimp only [] at h
    rcases hdi : pg.deferred_ptrs[di]? with _ | dp
    · rw [hdi] at h
      have hpd := Option.some.inj h
      rw [Prod.mk.injEq] at hpd
      exact hpd.2.symm
    rw [hdi] at h
    dsimp only [] at h
    by_cases hlv : dp.level = lvl - 1
    · rw [if_pos hlv] at h
      rcases hmk : col.markPtr (v dp.addr) lvl pages with _ | pages3
      · rw [hmk] at h
        exact absurd h (by simp)
      rw [hmk] at h
      dsimp only [] at h
      exact ih h
    · rw [if_neg hlv] at h
      exact ih h

theorem passPages_done_mono {v : Nat → Option Nat} {lvl : Nat} :
    ∀ {pleft pi : Nat} {pages pages2 : List col.cpage} {done2 : Bool},
      col.passPages v lvl pleft pi pages false = some (pages2, done2) →
      done2 = false := by
  intro pleft
  induction pleft with
  | zero =>
    intro pi pages pages2 done2 h
    rw [col.passPages] at h
    have hpd := Option.some.inj h
    rw [Prod.mk.injEq] at hpd
    exact hpd.2.symm
  | succ pl ih =>
    intro pi pages pages2 done2 h
    rw [col.passPages] at h
    rcases hpi : pages[pi]? with _ | pg
    · rw [hpi] at h
      have hpd := Option.some.inj h
      rw [Prod.mk.injEq] at hpd
      exact hpd.2.symm
    rw [hpi] at h
    dsimp only [] at h
    rcases hin : col.passDps v lvl pi pg.deferred_ptrs.length 0 pages false with _ | prA
    · rw [hin] at h
      exact absurd h (by simp)
    obtain ⟨pagesA, doneA⟩ := prA
    have hA := passDps_done_mono hin
    rw [hin] at h
    dsimp only [] at h
    rw [hA] at h
    exact ih h

theorem passDps_done_true {v : Nat → Option Nat} {lvl pi : Nat} :
    ∀ {dleft di : Nat} {pages pages2 : List col.cpage},
      col.passDps v lvl pi dleft di pages true = some (pages2, true) →
      pages2 = pages ∧ ∀ j, di ≤ j → j < di + dleft → ∀ pg, pages[pi]? = some pg →
        ∀ dp, pg.deferred_ptrs[j]? = some dp → dp.level ≠ lvl - 1 := by
  intro dleft
  induction dleft with
  | zero =>
    intro di pages pages2 h
    rw [col.passDps] at h
    have hpd := Option.some.inj h
    rw [Prod.mk.injEq] at hpd
    exact ⟨hpd.1.symm, fun j hj hjb => absurd hjb (by omega)⟩
  | succ dl ih =>
    intro di pages pages2 h
    rw [col.passDps] at h
    rcases hpi : pages[pi]? with _ | pg
    · rw [hpi] at h
      have hpd := Option.some.inj h
      rw [Prod.mk.injEq] at hpd
      refine ⟨hpd.1.symm, ?_⟩
      intro j hj hjb pg' hpg'
      exact absurd hpg' (by simp)
    rw [hpi] at h
    dsimp only [] at h
    rcases hdi : pg.deferred_ptrs[di]? with _ | dp
    · rw [hdi] at h
      have hpd := Option.some.inj h
      rw [Prod.mk.injEq] at hpd
      refine ⟨hpd.1.symm, ?_⟩
      intro j hj hjb pg' hpg' dp' hdp'
      rw [← Option.some.inj hpg'] at hdp'
      have hlen : pg.deferred_ptrs.length ≤ di := by
        by_contra hc
        rw [List.getElem?_eq_getElem (by omega)] at hdi
        exact absurd hdi (by simp)
      rw [List.getElem?_eq_none (by omega)] at hdp'
      exact absurd hdp' (by simp)
    rw [hdi] at h
    dsimp only [] at h
    by_cases hlv : dp.level = lvl - 1
    · rw [if_pos hlv] at h
      rcases hmk : col.markPtr (v dp.addr) lvl pages with _ | pages3
      · rw [hmk] at h
        exact absurd h (by simp)
      rw [hmk] at h
      dsimp only [] at h
      exact absurd (passDps_done_mono h) (by simp)
    · rw [if_neg hlv] at h
      obtain ⟨heq, hclaim⟩ := ih h
      refine ⟨heq, ?_⟩
      intro j hj hjb pg' hpg' dp' hdp'
      by_cases hjd : j = di
      · rw [← Option.some.inj hpg'] at hdp'
        rw [hjd] at hdp'
        rw [hdi] at hdp'
        rw [← Option.some.inj hdp']
        exact hlv
      · exact hclaim j (by omega) (by omega) pg' (hpi.trans hpg') dp' hdp'

theorem passPages_done_true {v : Nat → Option Nat} {lvl : Nat} :
    ∀ {pleft pi : Nat} {pages pages2 : List col.cpage},
      col.passPages v lvl pleft pi pages true = some (pages2, true) →
      pages2 = pages ∧ ∀ j, pi ≤ j → j < pi + pleft → ∀ pg, pages[j]? = some pg →
        ∀ dp ∈ pg.deferred_ptrs, dp.level ≠ lvl - 1 := by
  intro pleft
  induction pleft with
  | zero =>
    intro pi pages pages2 h
    rw [col.passPages] at h
    have hpd := Option.some.inj h
    rw [Prod.mk.injEq] at hpd
    exact ⟨hpd.1.symm, fun j hj hjb => absurd hjb (by omega)⟩
  | succ pl ih =>
    intro pi pages pages2 h
    rw [col.passPages] at h
    rcases hpi : pages[pi]? with _ | pg
    · rw [hpi] at h
      have hpd := Option.some.inj h
      rw [Prod.mk.injEq] at hpd
      refine ⟨hpd.1.symm, ?_⟩
      intro j hj hjb pg' hpg'
      have hlen : pages.length ≤ pi := by
        by_contra hc
        rw [List.getElem?_eq_getElem (by omega)] at hpi
        exact absurd hpi (by simp)
      rw [List.getElem?_eq_none (by omega)] at hpg'
      exact absurd hpg' (by simp)
    rw [hpi] at h
    dsimp only [] at h
    rcases hin : col.passDps v lvl pi pg.deferred_ptrs.length 0 pages true with _ | prA
    · rw [hin] at h
      exact absurd h (by simp)
    obtain ⟨pagesA, doneA⟩ := prA
    rw [hin] at h
    dsimp only [] at h
    cases doneA with
    | false => exact absurd (passPages_done_mono h) (by simp)
    | true =>
      obtain ⟨hAeq, hclaimA⟩ := passDps_done_true hin
      rw [hAeq] at h
      obtain ⟨heq, hclaim⟩ := ih h
      refine ⟨heq, ?_⟩
      intro j hj hjb pg' hpg' dp hdp
      by_cases hjd : j = pi
      · rw [hjd, hpi] at hpg'
        rw [← Option.some.inj hpg'] at hdp
        obtain ⟨jd, hjdg⟩ := List.mem_iff_getElem?.mp hdp
        have hjl := (List.getElem?_eq_some.mp hjdg).1
        exact hclaimA jd (Nat.zero_le _) (by omega) pg hpi dp hjdg
      · exact hclaim j (by omega) (by omega) pg' hpg' dp hdp

theorem passDps_false_wit {v : Nat → Option Nat} {lvl pi : Nat} :
    ∀ {dleft di : Nat} {pages pages2 : List col.cpage},
      col.passDps v lvl pi dleft di pages true = some (pages2, false) → 2 ≤ lvl →
      ∃ pg ∈ pages2, ∃ dp ∈ pg.deferred_ptrs, dp.level = lvl - 1 := by
  intro dleft
  induction dleft with
  | zero =>
    intro di pages pages2 h hl
    rw [col.passDps] at h
    have hpd := Option.some.inj h
    rw [Prod.mk.injEq] at hpd
    exact absurd hpd.2 (by simp)
  | succ dl ih =>
    intro di pages pages2 h hl
    rw [col.passDps] at h
    rcases hpi : pages[pi]? with _ | pg
    · rw [hpi] at h
      have hpd := Option.some.inj h
      rw [Prod.mk.injEq] at hpd
      exact absurd hpd.2 (by simp)
    rw [hpi] at h
    dsimp only [] at h
    rcases hdi : pg.deferred_ptrs[di]? with _ | dp
    · rw [hdi] at h
      have hpd := Option.some.inj h
      rw [Prod.mk.injEq] at hpd
      exact absurd hpd.2 (by simp)
    rw [hdi] at h
    dsimp only [] at h
    by_cases hlv : dp.level = lvl - 1
    · rw [if_pos hlv] at h
      rcases hmk : col.markPtr (v dp.addr) lvl pages with _ | pages3
      · rw [hmk] at h
        exact absurd h (by simp)
      rw [hmk] at h
      dsimp only [] at h
      have hstr := pstrL_trans (markPtr_pstrL hmk) (passDps_pstrL h)
      have hpgm : pg ∈ pages := List.getElem?_mem hpi
      have hdpm : dp ∈ pg.deferred_ptrs := List.getElem?_mem hdi
      obtain ⟨pg2, hpg2, hpage, hlive, hdstr⟩ := forall2_meml hstr hpgm
      obtain ⟨dp2, hdp2, haddr, hlev⟩ := forall2_meml hdstr hdpm
      refine ⟨pg2, hpg2, dp2, hdp2, ?_⟩
      rcases hlev with hlev | hlev
      · rw [hlev, hlv]
      · rw [hlv] at hlev
        exact absurd hlev.1 (by omega)
    · rw [if_neg hlv] at h
      exact ih h hl

theorem passPages_false_wit {v : Nat → Option Nat} {lvl : Nat} :
    ∀ {pleft pi : Nat} {pages pages2 : List col.cpage},
      col.passPages v lvl pleft pi pages true = some (pages2, false) → 2 ≤ lvl →
      ∃ pg ∈ pages2, ∃ dp ∈ pg.deferred_ptrs, dp.level = lvl - 1 := by
  intro pleft
  induction pleft with
  | zero =>
    intro pi pages pages2 h hl
    rw [col.passPages] at h
    have hpd := Option.some.inj h
    rw [Prod.mk.injEq] at hpd
    exact absurd hpd.2 (by simp)
  | succ pl ih =>
    intro pi pages pages2 h hl
    rw [col.passPages] at h
    rcases hpi : pages[pi]? with _ | pg
    · rw [hpi] at h
      have hpd := Option.some.inj h
      rw [Prod.mk.injEq] at hpd
      exact absurd hpd.2 (by simp)
    rw [hpi] at h
    dsimp only [] at h
    rcases hin : col.passDps v lvl pi pg.deferred_ptrs.length 0 pages true with _ | prA
    · rw [hin] at h
      exact absurd h (by simp)
    obtain ⟨pagesA, doneA⟩ := prA
    rw [hin] at h
    dsimp only [] at h
    cases doneA with
    | false =>
      obtain ⟨pgw, hpgw, dpw, hdpw, hlw⟩ := passDps_false_wit hin hl
      have hstr := passPages_pstrL h
      obtain ⟨pg2, hpg2, hpage, hlive, hdstr⟩ := forall2_meml hstr hpgw
      obtain ⟨dp2, hdp2, haddr, hlev⟩ := forall2_meml hdstr hdpw
      refine ⟨pg2, hpg2, dp2, hdp2, ?_⟩
      rcases hlev with hlev | hlev
      · rw [hlev, hlw]
      · rw [hlw] at hlev
        exact absurd hlev.1 (by omega)
    | true => exact ih h hl

theorem forall2_comp {α β γ : Type} {R : α → β → Prop} {S : β → γ → Prop}
    {T : α → γ → Prop} (comp : ∀ a b c, R a b → S b c → T a c) :
    ∀ {l1 : List α} {l2 : List β} {l3 : List γ},
      List.Forall₂ R l1 l2 → List.Forall₂ S l2 l3 → List.Forall₂ T l1 l3 := by
  intro l1
  induction l1 with
  | nil =>
    intro l2 l3 h1 h2
    cases h1
    cases h2
    exact List.Forall₂.nil
  | cons a t ih =>
    intro l2 l3 h1 h2
    cases h1 with
    | cons hr1 ht1 =>
      cases h2 with
      | cons hr2 ht2 => exact List.Forall₂.cons (comp _ _ _ hr1 hr2) (ih ht1 ht2)

theorem pstrA_of_pstrL {lvl : Nat} {pages pages2 : List col.cpage} (hl : 1 ≤ lvl)
    (h : col.pstrL lvl pages pages2) : col.pstrA pages pages2 := by
  refine h.imp ?_
  rintro pg pg2 ⟨hpage, hlive, hdstr⟩
  refine ⟨hpage, hlive, hdstr.imp ?_⟩
  rintro dp dp2 ⟨haddr, hlev⟩
  refine ⟨haddr, ?_⟩
  rcases hlev with hlev | hlev
  · exact Or.inl hlev
  · exact Or.inr ⟨hlev.1, by omega⟩

theorem pstrA_trans {pages1 pages2 pages3 : List col.cpage}
    (h1 : col.pstrA pages1 pages2) (h2 : col.pstrA pages2 pages3) :
    col.pstrA pages1 pages3 := by
  refine forall2_comp ?_ h1 h2
  rintro pg1 pg2 pg3 ⟨hp1, hl1, hd1⟩ ⟨hp2, hl2, hd2⟩
  refine ⟨hp2.trans hp1, fun k hk => hl2 k (hl1 k hk), forall2_comp ?_ hd1 hd2⟩
  rintro dp1 dp2 dp3 ⟨ha1, hv1⟩ ⟨ha2, hv2⟩
  refine ⟨ha2.trans ha1, ?_⟩
  rcases hv1 with hv1 | hv1
  · rcases hv2 with hv2 | hv2
    · exact Or.inl (hv2.trans hv1)
    · exact Or.inr ⟨hv1 ▸ hv2.1, hv2.2⟩
  · rcases hv2 with hv2 | hv2
    · exact Or.inr ⟨hv1.1, hv2 ▸ hv1.2⟩
    · exact absurd hv2.1 hv1.2

theorem targetMarked_monoA {p : Nat} :
    ∀ {pages pages2 : List col.cpage}, col.pstrA pages pages2 →
      col.targetMarked pages p = true → col.targetMarked pages2 p = true := by
  intro pages pages2 h
  induction h with
  | nil =>
    intro h2
    exact h2
  | @cons pg pg2 t1 t2 hr hrest ih =>
    intro h2
    rw [col.targetMarked] at h2 ⊢
    rw [hr.1]
    rcases hci : pg.page.contains_info p with _ | w
    · rfl
    rw [hci] at h2
    dsimp only [] at h2 ⊢
    by_cases hnr : w.found = gpage.gpage_find_result.not_in_range
    · rw [if_pos hnr] at h2 ⊢
      exact ih h2
    · rw [if_neg hnr] at h2 ⊢
      exact hr.2.1 _ h2

theorem targetMarkedOpt_monoA {pv : Option Nat} {pages pages2 : List col.cpage}
    (h : col.pstrA pages pages2) (h2 : col.targetMarkedOpt pages pv = true) :
    col.targetMarkedOpt pages2 pv = true := by
  rcases pv with _ | p
  · rfl
  · exact targetMarked_monoA h h2

theorem levBound_pstrL {lvl lvl2 : Nat} {pages pages2 : List col.cpage}
    (h : col.pstrL lvl2 pages pages2) (hlb : col.levBound pages lvl)
    (hle : lvl ≤ lvl2) : col.levBound pages2 lvl2 := by
  intro pg2 hpg2 dp2 hdp2
  obtain ⟨pg, hpg, hpage, hlive, hdstr⟩ := forall2_memr h hpg2
  obtain ⟨dp, hdp, haddr, hlev⟩ := forall2_memr hdstr hdp2
  rcases hlev with hlev | hlev
  · have := hlb pg hpg dp hdp
    omega
  · omega

theorem passDps_covers {v : Nat → Option Nat} {lvl pi : Nat} :
    ∀ {dleft di : Nat} {pages : List col.cpage} {done : Bool}
      {pages2 : List col.cpage} {done2 : Bool},
      col.passDps v lvl pi dleft di pages done = some (pages2, done2) → 2 ≤ lvl →
      col.live_ok pages → col.marked_sound pages →
      (∀ pg, pages[pi]? = some pg → pg.deferred_ptrs.length ≤ di + dleft) →
      ∀ pg2, pages2[pi]? = some pg2 → ∀ j, di ≤ j → ∀ dp2,
        pg2.deferred_ptrs[j]? = some dp2 → dp2.level = lvl - 1 →
        col.targetMarkedOpt pages2 (v dp2.addr) = true := by
  intro dleft
  induction dleft with
  | zero =>
    intro di pages done pages2 done2 h hl hlok hms hlen pg2 hpg2 j hj dp2 hdp2 hdl2
    rw [col.passDps] at h
    have hpd := Option.some.inj h
    rw [Prod.mk.injEq] at hpd
    rw [← hpd.1] at hpg2
    have hb := hlen pg2 hpg2
    have hjl := (List.getElem?_eq_some.mp hdp2).1
    omega
  | succ dl ih =>
    intro di pages done pages2 done2 h hl hlok hms hlen pg2 hpg2 j hj dp2 hdp2 hdl2
    rw [col.passDps] at h
    rcases hpi : pages[pi]? with _ | pg
    · rw [hpi] at h
      have hpd := Option.some.inj h
      rw [Prod.mk.injEq] at hpd
      rw [← hpd.1] at hpg2
      rw [hpi] at hpg2
      exact absurd hpg2 (by simp)
    rw [hpi] at h
    dsimp only [] at h
    rcases hdi : pg.deferred_ptrs[di]? with _ | dp
    · rw [hdi] at h
      have hpd := Option.some.inj h
      rw [Prod.mk.injEq] at hpd
      rw [← hpd.1] at hpg2
      rw [hpi] at hpg2
      rw [← Option.some.inj hpg2] at hdp2
      have hdlen : pg.deferred_ptrs.length ≤ di := by
        by_contra hc
        rw [List.getElem?_eq_getElem (by omega)] at hdi
        exact absurd hdi (by simp)
      rw [List.getElem?_eq_none (by omega)] at hdp2
      exact absurd hdp2 (by simp)
    rw [hdi] at h
    dsimp only [] at h
    by_cases hlv : dp.level = lvl - 1
    · rw [if_pos hlv] at h
      rcases hmk : col.markPtr (v dp.addr) lvl pages with _ | pages3
      · rw [hmk] at h
        exact absurd h (by simp)
      rw [hmk] at h
      dsimp only [] at h
      have hstr3 := markPtr_pstrL hmk
      obtain ⟨hlok3, hms3⟩ := markPtr_preserves hmk hlok hms
      by_cases hjd : j = di
      · have htm : col.targetMarkedOpt pages3 (v dp.addr) = true :=
          markPtr_establishes hmk hlok
        have htm2 := targetMarkedOpt_mono (passDps_pstrL h) htm
        have hstrF := pstrL_trans hstr3 (passDps_pstrL h)
        obtain ⟨pg2x, hpg2x, hrel⟩ := forall2_get hstrF hpi
        rw [hpg2] at hpg2x
        rw [← Option.some.inj hpg2x] at hrel
        rw [hjd] at hdp2
        obtain ⟨dp2x, hdp2x, hdrel⟩ := forall2_get hrel.2.2 hdi
        rw [hdp2] at hdp2x
        rw [← Option.some.inj hdp2x] at hdrel
        rw [hdrel.1]
        exact htm2
      · have hlen3 : ∀ pg', pages3[pi]? = some pg' →
            pg'.deferred_ptrs.length ≤ (di + 1) + dl := by
          intro pg' hpg'
          obtain ⟨pgx, hpgx, hrel⟩ := forall2_get_r hstr3 hpg'
          rw [hpi] at hpgx
          rw [← Option.some.inj hpgx] at hrel
          rw [← List.Forall₂.length_eq hrel.2.2]
          have := hlen pg hpi
          omega
        exact ih h hl hlok3 hms3 hlen3 pg2 hpg2 j (by omega) dp2 hdp2 hdl2
    · rw [if_neg hlv] at h
      by_cases hjd : j = di
      · exfalso
        have hstrF := passDps_pstrL h
        obtain ⟨pg2x, hpg2x, hrel⟩ := forall2_get hstrF hpi
        rw [hpg2] at hpg2x
        rw [← Option.some.inj hpg2x] at hrel
        rw [hjd] at hdp2
        obtain ⟨dp2x, hdp2x, hdrel⟩ := forall2_get hrel.2.2 hdi
        rw [hdp2] at hdp2x
        rw [← Option.some.inj hdp2x] at hdrel
        rcases hdrel.2 with hdd | hdd
        · rw [hdl2] at hdd
          exact hlv hdd.symm
        · rw [hdl2] at hdd
          omega
      · have hlen2 : ∀ pg', pages[pi]? = some pg' →
            pg'.deferred_ptrs.length ≤ (di + 1) + dl := by
          intro pg' hpg'
          have := hlen pg' hpg'
          omega
        exact ih h hl hlok hms hlen2 pg2 hpg2 j (by omega) dp2 hdp2 hdl2

theorem passPages_covers {v : Nat → Option Nat} {lvl : Nat} :
    ∀ {pleft pi : Nat} {pages : List col.cpage} {done : Bool}
      {pages2 : List col.cpage} {done2 : Bool},
      col.passPages v lvl pleft pi pages done = some (pages2, done2) → 2 ≤ lvl →
      col.live_ok pages → col.marked_sound pages →
      pages.length ≤ pi + pleft →
      ∀ j, pi ≤ j → ∀ pg2, pages2[j]? = some pg2 → ∀ dp2,
        dp2 ∈ pg2.deferred_ptrs → dp2.level = lvl - 1 →
        col.targetMarkedOpt pages2 (v dp2.addr) = true := by
  intro pleft
  induction pleft with
  | zero =>
    intro pi pages done pages2 done2 h hl hlok hms hlen j hj pg2 hpg2 dp2 hdp2 hdl2
    rw [col.passPages] at h
    have hpd := Option.some.inj h
    rw [Prod.mk.injEq] at hpd
    rw [← hpd.1] at hpg2
    have hjl := (List.getElem?_eq_some.mp hpg2).1
    omega
  | succ pl ih =>
    intro pi pages done pages2 done2 h hl hlok hms hlen j hj pg2 hpg2 dp2 hdp2 hdl2
    rw [col.passPages] at h
    rcases hpi : pages[pi]? with _ | pg
    · rw [hpi] at h
      have hpd := Option.some.inj h
      rw [Prod.mk.injEq] at hpd
      rw [← hpd.1] at hpg2
      have hplen : pages.length ≤ pi := by
        by_contra hc
        rw [List.getElem?_eq_getElem (by omega)] at hpi
        exact absurd hpi (by simp)
      have hjl := (List.getElem?_eq_some.mp hpg2).1
      omega
    rw [hpi] at h
    dsimp only [] at h
    rcases hin : col.passDps v lvl pi pg.deferred_ptrs.length 0 pages done with _ | prA
    · rw [hin] at h
      exact absurd h (by simp)
    obtain ⟨pagesA, doneA⟩ := prA
    rw [hin] at h
    dsimp only [] at h
    have hstrA := passDps_pstrL hin
    obtain ⟨hlokA, hmsA⟩ := passDps_preserves hin hlok hms
    have hstrT := passPages_pstrL h
    by_cases hjp : j = pi
    · obtain ⟨jd, hjdg⟩ := List.mem_iff_getElem?.mp hdp2
      obtain ⟨pgA, hpgA, hrelT⟩ := forall2_get_r hstrT hpg2
      obtain ⟨dpA, hdpA, hdrelT⟩ := forall2_get_r hrelT.2.2 hjdg
      have hdlA : dpA.level = lvl - 1 := by
        rcases hdrelT.2 with hdd | hdd
        · rw [← hdd, hdl2]
        · rw [hdl2] at hdd
          omega
      have hlenA : ∀ pg', pages[pi]? = some pg' →
          pg'.deferred_ptrs.length ≤ 0 + pg.deferred_ptrs.length := by
        intro pg' hpg'
        rw [hpi] at hpg'
        rw [← Option.some.inj hpg']
        omega
      rw [hjp] at hpgA
      have htmA := passDps_covers hin hl hlok hms hlenA pgA hpgA jd (Nat.zero_le _)
        dpA hdpA hdlA
      have htm2 := targetMarkedOpt_mono hstrT htmA
      rw [hdrelT.1]
      exact htm2
    · have hlen2 : pagesA.length ≤ (pi + 1) + pl := by
        rw [← List.Forall₂.length_eq hstrA]
        omega
      exact ih h hl hlokA hmsA hlen2 j (by omega) pg2 hpg2 dp2 hdp2 hdl2

theorem bfs_total {v : Nat → Option Nat} :
    ∀ {fuel lvl : Nat} {pages : List col.cpage},
      col.pagesOK pages → col.scanOK v pages → col.live_ok pages →
      col.marked_sound pages → 1 ≤ lvl →
      (∀ k, 1 ≤ k → k < lvl → col.hasLevel pages k) →
      col.totalDps pages + 2 ≤ fuel + lvl →
      ∃ res, col.bfs v fuel lvl pages = some res := by
  intro fuel
  induction fuel with
  | zero =>
    intro lvl pages hok hscan hlok hms hl hnl hfuel
    exfalso
    have hple := levels_le_totalDps (m := lvl - 1) (fun k h1 h2 => hnl k h1 (by omega))
    omega
  | succ f ih =>
    intro lvl pages hok hscan hlok hms hl hnl hfuel
    obtain ⟨pr, hpp⟩ := (passPages_isSome hok hscan hlok hms :
      ∃ out, col.passPages v (lvl + 1) pages.length 0 pages true = some out)
    obtain ⟨pages2, done⟩ := pr
    cases done with
    | true =>
      refine ⟨(lvl + 1, pages2), ?_⟩
      rw [col.bfs, hpp]
      dsimp only []
      rw [if_pos rfl]
    | false =>
      have hstr := passPages_pstrL hpp
      have h2ok := pagesOK_of_pstrL hstr hok
      have h2scan := scanOK_of_pstrL hstr hscan
      obtain ⟨h2lok, h2ms⟩ := passPages_preserves hpp hlok hms
      have hnl2 : ∀ k, 1 ≤ k → k < lvl + 1 → col.hasLevel pages2 k := by
        intro k h1 h2
        by_cases hk : k = lvl
        · obtain ⟨pgw, hpgw, dpw, hdpw, hlw⟩ := passPages_false_wit hpp (by omega)
          refine ⟨pgw, hpgw, dpw, hdpw, ?_⟩
          rw [hlw, hk]
          omega
        · exact hasLevel_pstrL hstr (by omega) (hnl k h1 (by omega))
      have hfuel2 : col.totalDps pages2 + 2 ≤ f + (lvl + 1) := by
        rw [totalDps_pstrL hstr]
        omega
      obtain ⟨res, hrec⟩ := ih h2ok h2scan h2lok h2ms (by omega) hnl2 hfuel2
      refine ⟨res, ?_⟩
      rw [col.bfs, hpp]
      dsimp only []
      rw [if_neg (by simp)]
      exact hrec

theorem bfs_spec {v : Nat → Option Nat} :
    ∀ {fuel lvl : Nat} {pages : List col.cpage} {res : Nat × List col.cpage},
      col.bfs v fuel lvl pages = some res → 1 ≤ lvl →
      col.SApre v lvl pages → col.levBound pages lvl →
      col.live_ok pages → col.marked_sound pages →
      col.pstrA pages res.2 ∧ col.SAfull v res.2 := by
  intro fuel
  induction fuel with
  | zero =>
    intro lvl pages res h hl hsa hlb hlok hms
    rw [col.bfs] at h
    exact absurd h (by simp)
  | succ f ih =>
    intro lvl pages res h hl hsa hlb hlok hms
    rw [col.bfs] at h
    rcases hpp : col.passPages v (lvl + 1) pages.length 0 pages true with _ | pr
    · rw [hpp] at h
      exact absurd h (by simp)
    obtain ⟨pages2, done⟩ := pr
    rw [hpp] at h
    dsimp only [] at h
    have hstr := passPages_pstrL hpp
    have hstrA := pstrA_of_pstrL (by omega) hstr
    obtain ⟨h2lok, h2ms⟩ := passPages_preserves hpp hlok hms
    have h2lb : col.levBound pages2 (lvl + 1) := levBound_pstrL hstr hlb (by omega)
    have h2sa : col.SApre v (lvl + 1) pages2 := by
      intro pg2 hpg2 dp2 hdp2 hnz hlt
      by_cases hceq : dp2.level = (lvl + 1) - 1
      · obtain ⟨j, hjg⟩ := List.mem_iff_getElem?.mp hpg2
        exact passPages_covers hpp (by omega) hlok hms (by omega) j (Nat.zero_le _)
          pg2 hjg dp2 hdp2 hceq
      · obtain ⟨pg, hpg, hpage, hlive, hdstr⟩ := forall2_memr hstr hpg2
        obtain ⟨dp, hdp, haddr, hlev⟩ := forall2_memr hdstr hdp2
        rcases hlev with hlev | hlev
        · have hdlt : dp.level < lvl := by omega
          have hdnz : dp.level ≠ 0 := by omega
          have htm := hsa pg hpg dp hdp hdnz hdlt
          rw [haddr]
          exact targetMarkedOpt_mono hstr htm
        · omega
    cases done with
    | true =>
      rw [if_pos rfl] at h
      obtain ⟨hpeq, hclaim⟩ := passPages_done_true hpp
      rw [← Option.some.inj h]
      show col.pstrA pages pages2 ∧ col.SAfull v pages2
      refine ⟨hstrA, ?_⟩
      intro pg2 hpg2 dp2 hdp2 hnz
      rw [hpeq] at hpg2
      obtain ⟨j, hjg⟩ := List.mem_iff_getElem?.mp hpg2
      have hjl := (List.getElem?_eq_some.mp hjg).1
      have hnlvl : dp2.level ≠ (lvl + 1) - 1 :=
        hclaim j (Nat.zero_le _) (by omega) pg2 hjg dp2 hdp2
      have hle : dp2.level ≤ lvl := hlb pg2 hpg2 dp2 hdp2
      have hlt : dp2.level < lvl := by omega
      have htm := hsa pg2 hpg2 dp2 hdp2 hnz hlt
      rw [hpeq]
      exact htm
    | false =>
      rw [if_neg (by simp)] at h
      obtain ⟨hA, hS⟩ := ih h (by omega) h2sa h2lb h2lok h2ms
      exact ⟨pstrA_trans hstrA hA, hS⟩

theorem markRoots_pstrL {v : Nat → Option Nat} {lvl : Nat} :
    ∀ {roots : List Nat} {pages pages2 : List col.cpage},
      col.markRoots v lvl roots pages = some pages2 → col.pstrL lvl pages pages2 := by
  intro roots
  induction roots with
  | nil =>
    intro pages pages2 h
    rw [col.markRoots] at h
    rw [← Option.some.inj h]
    exact pstrL_refl lvl pages
  | cons r rs ih =>
    intro pages pages2 h
    rw [col.markRoots] at h
    rcases hmk : col.markPtr (v r) lvl pages with _ | pagesB
    · rw [hmk] at h
      exact absurd h (by simp)
    rw [hmk] at h
    dsimp only [] at h
    exact pstrL_trans (markPtr_pstrL hmk) (ih h)

theorem markRoots_isSome {v : Nat → Option Nat} {lvl : Nat} :
    ∀ {roots : List Nat} {pages : List col.cpage},
      col.pagesOK pages → col.live_ok pages → col.marked_sound pages →
      (∀ r ∈ roots, ∀ p, v r = some p → col.valOK pages p) →
      ∃ pages2, col.markRoots v lvl roots pages = some pages2 := by
  intro roots
  induction roots with
  | nil =>
    intro pages hok hlok hms hval
    exact ⟨pages, by rw [col.markRoots]⟩
  | cons r rs ih =>
    intro pages hok hlok hms hval
    obtain ⟨pagesB, hmk⟩ := markPtr_isSome hok
      (fun p hp => hval r (List.mem_cons_self _ _) p hp)
    have hstr := markPtr_pstrL hmk
    obtain ⟨hlok2, hms2⟩ := markPtr_preserves hmk hlok hms
    obtain ⟨pages2, hrec⟩ := ih (pagesOK_of_pstrL hstr hok) hlok2 hms2
      (fun q hq p hp => valOK_of_pstrL hstr (hval q (List.mem_cons_of_mem _ hq) p hp))
    refine ⟨pages2, ?_⟩
    rw [col.markRoots, hmk]
    exact hrec

theorem markRoots_marks {v : Nat → Option Nat} {lvl : Nat} :
    ∀ {roots : List Nat} {pages pages2 : List col.cpage},
      col.markRoots v lvl roots pages = some pages2 →
      col.live_ok pages → col.marked_sound pages →
      ∀ r ∈ roots, col.targetMarkedOpt pages2 (v r) = true := by
  intro roots
  induction roots with
  | nil =>
    intro pages pages2 h hlok hms r hr
    exact absurd hr (List.not_mem_nil _)
  | cons r0 rs ih =>
    intro pages pages2 h hlok hms r hr
    rw [col.markRoots] at h
    rcases hmk : col.markPtr (v r0) lvl pages with _ | pagesB
    · rw [hmk] at h
      exact absurd h (by simp)
    rw [hmk] at h
    dsimp only [] at h
    obtain ⟨hlok2, hms2⟩ := markPtr_preserves hmk hlok hms
    rcases List.mem_cons.mp hr with hre | hrm
    · rw [hre]
      exact targetMarkedOpt_mono (markRoots_pstrL h) (markPtr_establishes hmk hlok)
    · exact ih h hlok2 hms2 r hrm

theorem reset_levBound (pages : List col.cpage) :
    col.levBound (pages.map col.resetPage) 0 := by
  intro pg2 hpg2 dp2 hdp2
  obtain ⟨pg, hpg, he⟩ := List.mem_map.mp hpg2
  rw [← he] at hdp2
  obtain ⟨dp0, hdp0, he0⟩ := List.mem_map.mp hdp2
  rw [← he0]

theorem pagesOK_reset {pages : List col.cpage} (h : col.pagesOK pages) :
    col.pagesOK (pages.map col.resetPage) := by
  intro pg2 hpg2
  obtain ⟨pg, hpg, he⟩ := List.mem_map.mp hpg2
  obtain ⟨hinv, hdall⟩ := h pg hpg
  rw [← he]
  refine ⟨hinv, ?_⟩
  intro dp2 hdp2
  obtain ⟨dp0, hdp0, he0⟩ := List.mem_map.mp hdp2
  rw [← he0]
  exact hdall dp0 hdp0

theorem valOK_reset {pages : List col.cpage} {p : Nat} (h : col.valOK pages p) :
    col.valOK (pages.map col.resetPage) p := by
  intro pg2 hpg2
  obtain ⟨pg, hpg, he⟩ := List.mem_map.mp hpg2
  rw [← he]
  exact h pg hpg

theorem pagesOK_of_pstrA {pages pages2 : List col.cpage}
    (hp : col.pstrA pages pages2) (h : col.pagesOK pages) : col.pagesOK pages2 := by
  intro pg2 hpg2
  obtain ⟨pg, hpg, hpage, hlive, hdstr⟩ := forall2_memr hp hpg2
  obtain ⟨hinv, hdall⟩ := h pg hpg
  refine ⟨by rw [hpage]; exact hinv, ?_⟩
  intro dp2 hdp2
  obtain ⟨dp, hdp, haddr, hlvl⟩ := forall2_memr hdstr hdp2
  obtain ⟨hc1, hc2⟩ := hdall dp hdp
  constructor
  · rw [hpage, haddr]
    exact hc1
  · rw [hpage, haddr]
    exact hc2

theorem markPhase_isSome {h : col.heap}
    (hlok : col.live_ok h.pages) (hpok : col.pagesOK h.pages)
    (hvr : ∀ r ∈ h.roots, ∀ p, h.val r = some p → col.valOK h.pages p)
    (hvd : ∀ pg ∈ h.pages, ∀ dp ∈ pg.deferred_ptrs, ∀ p,
      h.val dp.addr = some p → col.valOK h.pages p) :
    ∃ pages3, col.markPhase h = some pages3 := by
  have hlokR := reset_live_ok hlok
  have hmsR := reset_sound h.pages
  have hpokR := pagesOK_reset hpok
  obtain ⟨pages2, hmr⟩ := (markRoots_isSome hpokR hlokR hmsR
    (fun r hr p hp => valOK_reset (hvr r hr p hp)) :
    ∃ pages2, col.markRoots h.val 1 h.roots (h.pages.map col.resetPage) = some pages2)
  have hstrR := markRoots_pstrL hmr
  obtain ⟨hlok2, hms2⟩ := markRoots_preserves hmr hlokR hmsR
  have hpok2 := pagesOK_of_pstrL hstrR hpokR
  have hscanR : col.scanOK h.val (h.pages.map col.resetPage) := by
    intro pgq hpgq dpq hdpq p hp
    obtain ⟨pg0, hpg0, heq0⟩ := List.mem_map.mp hpgq
    rw [← heq0] at hdpq
    obtain ⟨dp0, hdp0, heq1⟩ := List.mem_map.mp hdpq
    have haddr : dpq.addr = dp0.addr := by
      rw [← heq1]
    rw [haddr] at hp
    exact valOK_reset (hvd pg0 hpg0 dp0 hdp0 p hp)
  have hscan2 : col.scanOK h.val pages2 := scanOK_of_pstrL hstrR hscanR
  obtain ⟨res, hb⟩ := (bfs_total hpok2 hscan2 hlok2 hms2 (Nat.le_refl 1)
    (fun k h1 h2 => absurd h2 (by omega)) (by omega) :
    ∃ res, col.bfs h.val (col.totalDps pages2 + 2) 1 pages2 = some res)
  refine ⟨res.2, ?_⟩
  rw [col.markPhase, hmr]
  dsimp only []
  rw [hb]

theorem markPhase_full {h : col.heap} {pages3 : List col.cpage}
    (hmp : col.markPhase h = some pages3)
    (hlok : col.live_ok h.pages) (hpok : col.pagesOK h.pages) :
    col.pstrA (h.pages.map col.resetPage) pages3 ∧
    (∀ r ∈ h.roots, col.targetMarkedOpt pages3 (h.val r) = true) ∧
    col.SAfull h.val pages3 ∧ col.PRM pages3 ∧
    col.live_ok pages3 ∧ col.marked_sound pages3 ∧ col.pagesOK pages3 := by
  rw [col.markPhase] at hmp
  rcases hmr : col.markRoots h.val 1 h.roots (h.pages.map col.resetPage) with _ | pages2
  · rw [hmr] at hmp
    exact absurd hmp (by simp)
  rw [hmr] at hmp
  dsimp only [] at hmp
  rcases hb : col.bfs h.val (col.totalDps pages2 + 2) 1 pages2 with _ | res
  · rw [hb] at hmp
    exact absurd hmp (by simp)
  rw [hb] at hmp
  dsimp only [] at hmp
  have hp3 : res.2 = pages3 := Option.some.inj hmp
  have hlokR := reset_live_ok hlok
  have hmsR := reset_sound h.pages
  have hpokR := pagesOK_reset hpok
  have hstrR := markRoots_pstrL hmr
  have hstrRA := pstrA_of_pstrL (Nat.le_refl 1) hstrR
  obtain ⟨hlok2, hms2⟩ := markRoots_preserves hmr hlokR hmsR
  have hlb2 : col.levBound pages2 1 :=
    levBound_pstrL hstrR (reset_levBound h.pages) (by omega)
  have hsa2 : col.SApre h.val 1 pages2 := by
    intro pg hpg dp hdp hnz hlt
    omega
  obtain ⟨hbA, hbSA⟩ := bfs_spec hb (Nat.le_refl 1) hsa2 hlb2 hlok2 hms2
  rw [hp3] at hbA hbSA
  obtain ⟨hlok3, hms3⟩ := bfs_preserves hb hlok2 hms2
  rw [hp3] at hlok3 hms3
  have hprm3 : col.PRM pages3 := by
    have hprm2 := markRoots_PRM hmr (Nat.le_refl 1) (reset_PRM h.pages)
    have := bfs_PRM hb hprm2
    rw [hp3] at this
    exact this
  refine ⟨pstrA_trans hstrRA hbA, ?_, hbSA, hprm3, hlok3, hms3, ?_⟩
  · intro r hr
    exact targetMarkedOpt_monoA hbA (markRoots_marks hmr hlokR hmsR r hr)
  · exact pagesOK_of_pstrA (pstrA_trans hstrRA hbA) hpokR

theorem ReachT_mono {v : Nat → Option Nat} {roots : List Nat}
    {pages pages2 : List col.cpage} (hp : col.pstrA pages pages2) :
    ∀ {g : gpage} {S : Nat}, col.ReachT v roots pages g S →
      col.ReachT v roots pages2 g S := by
  intro g S h
  induction h with
  | @root r p pg w hr hv hpg hci hf =>
    obtain ⟨pg', hpg', hpage, hlive, hdstr⟩ := forall2_meml hp hpg
    have hci' : pg'.page.contains_info p = some w := by
      rw [hpage]
      exact hci
    have hres := col.ReachT.root hr hv hpg' hci' hf
    rw [← hpage]
    exact hres
  | @step g0 S0 pg dp w2 p pg2 w hR hpg hpgG hbit hdp hci2 hf2 hS hv2 hpg2m hci hf ih =>
    obtain ⟨pg', hpg', hpage, hlive, hdstr⟩ := forall2_meml hp hpg
    obtain ⟨dp', hdp', haddr, hlev⟩ := forall2_meml hdstr hdp
    obtain ⟨pg2', hpg2', hpage2, hlive2, hdstr2⟩ := forall2_meml hp hpg2m
    have hci2' : pg'.page.contains_info dp'.addr = some w2 := by
      rw [hpage, haddr]
      exact hci2
    have hv2' : v dp'.addr = some p := by
      rw [haddr]
      exact hv2
    have hci' : pg2'.page.contains_info p = some w := by
      rw [hpage2]
      exact hci
    have hres := col.ReachT.step ih hpg' (hpage.trans hpgG) (hlive _ hbit) hdp'
      hci2' hf2 hS hv2' hpg2' hci' hf
    rw [← hpage2]
    exact hres

theorem reset_CERT (v : Nat → Option Nat) (roots : List Nat)
    (pages : List col.cpage) : col.CERT v roots (pages.map col.resetPage) := by
  intro pg2 hpg2 S hbit
  obtain ⟨pg, hpg, he⟩ := List.mem_map.mp hpg2
  rw [← he] at hbit
  have hb : (col.resetPage pg).live_starts =
      List.replicate pg.live_starts.length false := rfl
  rw [hb, getD_replicate_false] at hbit
  exact Bool.noConfusion hbit

theorem markPages_newbit {p lvl : Nat} :
    ∀ {pages pages2 : List col.cpage}, col.markPages p lvl pages = some pages2 →
      ∀ pg2 ∈ pages2, ∀ S, pg2.live_starts.getD S false = true →
        (∃ pg ∈ pages, pg.page = pg2.page ∧ pg.live_starts.getD S false = true) ∨
        (∃ pg ∈ pages, ∃ w, pg.page = pg2.page ∧ pg.page.contains_info p = some w ∧
          (w.found = gpage.gpage_find_result.in_range_allocated_middle ∨
            w.found = gpage.gpage_find_result.in_range_allocated_start) ∧
          w.start_location = S) := by
  intro pages
  induction pages with
  | nil =>
    intro pages2 h pg2 hpg2 S hbit
    rw [col.markPages] at h
    rw [← Option.some.inj h] at hpg2
    exact absurd hpg2 (List.not_mem_nil _)
  | cons pg rest ih =>
    intro pages2 h pg2 hpg2 S hbit
    rw [col.markPages] at h
    rcases hci : pg.page.contains_info p with _ | w
    · rw [hci] at h
      exact absurd h (by simp)
    rw [hci] at h
    dsimp only [] at h
    by_cases hun : w.found = gpage.gpage_find_result.in_range_unallocated
    · rw [if_pos hun] at h
      exact absurd h (by simp)
    rw [if_neg hun] at h
    by_cases hnr : w.found = gpage.gpage_find_result.not_in_range
    · rw [if_pos hnr] at h
      rcases hrec : col.markPages p lvl rest with _ | rest2
      · rw [hrec] at h
        exact absurd h (by simp)
      rw [hrec] at h
      dsimp only [] at h
      rw [← Option.some.inj h] at hpg2
      rcases List.mem_cons.mp hpg2 with hx | hx
      · exact Or.inl ⟨pg, List.mem_cons_self _ _, by rw [hx], by rw [hx] at hbit; exact hbit⟩
      · rcases ih hrec pg2 hx S hbit with hold | hnew
        · obtain ⟨pgx, hpgx, he1, he2⟩ := hold
          exact Or.inl ⟨pgx, List.mem_cons_of_mem _ hpgx, he1, he2⟩
        · obtain ⟨pgx, hpgx, wx, he1, he2, he3, he4⟩ := hnew
          exact Or.inr ⟨pgx, List.mem_cons_of_mem _ hpgx, wx, he1, he2, he3, he4⟩
    · rw [if_neg hnr] at h
      rcases hmd : col.markDps w.start_location lvl pg.page pg.deferred_ptrs with _ | dps2
      · rw [hmd] at h
        exact absurd h (by simp)
      rw [hmd] at h
      dsimp only [] at h
      rw [← Option.some.inj h] at hpg2
      rcases List.mem_cons.mp hpg2 with hx | hx
      · rw [hx] at hbit
        have hlv : ({ pg with live_starts := pg.live_starts.set w.start_location true, deferred_ptrs := dps2 } : col.cpage).live_starts = pg.live_starts.set w.start_location true := rfl
        rw [hlv] at hbit
        by_cases hSeq : w.start_location = S
        · refine Or.inr ⟨pg, List.mem_cons_self _ _, w, ?_, hci, found_allocated w.found hun hnr, hSeq⟩
          rw [hx]
        · rw [getD_set_ne true hSeq] at hbit
          refine Or.inl ⟨pg, List.mem_cons_self _ _, ?_, hbit⟩
          rw [hx]
      · exact Or.inl ⟨pg2, List.mem_cons_of_mem _ hx, rfl, hbit⟩

theorem markPages_CERT {p lvl : Nat} {v : Nat → Option Nat} {roots : List Nat}
    {pages pages2 : List col.cpage} (h : col.markPages p lvl pages = some pages2)
    (hl : 1 ≤ lvl) (hjp : col.JP v roots pages p) (hc : col.CERT v roots pages) :
    col.CERT v roots pages2 := by
  have hstrA := pstrA_of_pstrL hl (markPages_pstrL h)
  intro pg2 hpg2 S hbit
  rcases markPages_newbit h pg2 hpg2 S hbit with hold | hnew
  · obtain ⟨pg, hpg, hpage, hbitOld⟩ := hold
    have hres := ReachT_mono hstrA (hc pg hpg S hbitOld)
    rw [← hpage]
    exact hres
  · obtain ⟨pg, hpg, w, hpage, hci, hf, hS⟩ := hnew
    have hres : col.ReachT v roots pages pg.page w.start_location := by
      rcases hjp with hroot | hstep
      · obtain ⟨r, hr, hv⟩ := hroot
        exact col.ReachT.root hr hv hpg hci hf
      · obtain ⟨pgs, hpgs, dps, hdps, w2, hci2, hf2, hbit2, hv2⟩ := hstep
        exact col.ReachT.step (hc pgs hpgs w2.start_location hbit2) hpgs rfl hbit2
          hdps hci2 hf2 rfl hv2 hpg hci hf
    have hres2 := ReachT_mono hstrA hres
    rw [← hpage, ← hS]
    exact hres2

theorem markPtr_CERT {pv : Option Nat} {lvl : Nat} {v : Nat → Option Nat}
    {roots : List Nat} {pages pages2 : List col.cpage}
    (h : col.markPtr pv lvl pages = some pages2) (hl : 1 ≤ lvl)
    (hjp : ∀ p, pv = some p → col.JP v roots pages p)
    (hc : col.CERT v roots pages) : col.CERT v roots pages2 := by
  rcases pv with _ | p
  · rw [← Option.some.inj h]
    exact hc
  · exact markPages_CERT h hl (hjp p rfl) hc

theorem markRoots_CERT {v : Nat → Option Nat} {lvl : Nat} :
    ∀ {roots0 roots : List Nat} {pages pages2 : List col.cpage},
      col.markRoots v lvl roots pages = some pages2 → 1 ≤ lvl →
      (∀ r ∈ roots, r ∈ roots0) →
      col.CERT v roots0 pages → col.CERT v roots0 pages2 := by
  intro roots0 roots
  induction roots with
  | nil =>
    intro pages pages2 h hl hsub hc
    rw [col.markRoots] at h
    rw [← Option.some.inj h]
    exact hc
  | cons r rs ih =>
    intro pages pages2 h hl hsub hc
    rw [col.markRoots] at h
    rcases hmk : col.markPtr (v r) lvl pages with _ | pagesB
    · rw [hmk] at h
      exact absurd h (by simp)
    rw [hmk] at h
    dsimp only [] at h
    have hcB := markPtr_CERT hmk hl
      (fun p hp => Or.inl ⟨r, hsub r (List.mem_cons_self _ _), hp⟩) hc
    exact ih h hl (fun q hq => hsub q (List.mem_cons_of_mem _ hq)) hcB

theorem passDps_CERT {v : Nat → Option Nat} {roots : List Nat} {lvl pi : Nat} :
    ∀ {dleft di : Nat} {pages : List col.cpage} {done : Bool}
      {pages2 : List col.cpage} {done2 : Bool},
      col.passDps v lvl pi dleft di pages done = some (pages2, done2) → 2 ≤ lvl →
      col.pagesOK pages → col.live_ok pages → col.marked_sound pages →
      col.CERT v roots pages → col.CERT v roots pages2 := by
  intro dleft
  induction dleft with
  | zero =>
    intro di pages done pages2 done2 h hl hok hlok hms hc
    rw [col.passDps] at h
    have hpd := Option.some.inj h
    rw [Prod.mk.injEq] at hpd
    rw [← hpd.1]
    exact hc
  | succ dl ih =>
    intro di pages done pages2 done2 h hl hok hlok hms hc
    rw [col.passDps] at h
    rcases hpi : pages[pi]? with _ | pg
    · rw [hpi] at h
      have hpd := Option.some.inj h
      rw [Prod.mk.injEq] at hpd
      rw [← hpd.1]
      exact hc
    rw [hpi] at h
    dsimp only [] at h
    rcases hdi : pg.deferred_ptrs[di]? with _ | dp
    · rw [hdi] at h
      have hpd := Option.some.inj h
      rw [Prod.mk.injEq] at hpd
      rw [← hpd.1]
      exact hc
    rw [hdi] at h
    dsimp only [] at h
    by_cases hlv : dp.level = lvl - 1
    · rw [if_pos hlv] at h
      rcases hmk : col.markPtr (v dp.addr) lvl pages with _ | pages3
      · rw [hmk] at h
        exact absurd h (by simp)
      rw [hmk] at h
      dsimp only [] at h
      have hpgm : pg ∈ pages := List.getElem?_mem hpi
      have hdpm : dp ∈ pg.deferred_ptrs := List.getElem?_mem hdi
      obtain ⟨hinv, hdall⟩ := hok pg hpgm
      obtain ⟨hcont, hiu⟩ := hdall dp hdpm
      obtain ⟨w2, hci2, hf2⟩ := contains_info_of_alloc hinv hcont hiu
      have hnz : dp.level ≠ 0 := by omega
      have hbit2 := hms pg hpgm dp hdpm hnz w2 hci2
      have hjp : ∀ p, v dp.addr = some p → col.JP v roots pages p := by
        intro p hp
        exact Or.inr ⟨pg, hpgm, dp, hdpm, w2, hci2, hf2, hbit2, hp⟩
      have hc3 := markPtr_CERT hmk (by omega) hjp hc
      have hstr3 := markPtr_pstrL hmk
      obtain ⟨hlok3, hms3⟩ := markPtr_preserves hmk hlok hms
      exact ih h hl (pagesOK_of_pstrL hstr3 hok) hlok3 hms3 hc3
    · rw [if_neg hlv] at h
      exact ih h hl hok hlok hms hc

theorem passPages_CERT {v : Nat → Option Nat} {roots : List Nat} {lvl : Nat} :
    ∀ {pleft pi : Nat} {pages : List col.cpage} {done : Bool}
      {pages2 : List col.cpage} {done2 : Bool},
      col.passPages v lvl pleft pi pages done = some (pages2, done2) → 2 ≤ lvl →
      col.pagesOK pages → col.live_ok pages → col.marked_sound pages →
      col.CERT v roots pages → col.CERT v roots pages2 := by
  intro pleft
  induction pleft with
  | zero =>
    intro pi pages done pages2 done2 h hl hok hlok hms hc
    rw [col.passPages] at h
    have hpd := Option.some.inj h
    rw [Prod.mk.injEq] at hpd
    rw [← hpd.1]
    exact hc
  | succ pl ih =>
    intro pi pages done pages2 done2 h hl hok hlok hms hc
    rw [col.passPages] at h
    rcases hpi : pages[pi]? with _ | pg
    · rw [hpi] at h
      have hpd := Option.some.inj h
      rw [Prod.mk.injEq] at hpd
      rw [← hpd.1]
      exact hc
    rw [hpi] at h
    dsimp only [] at h
    rcases hin : col.passDps v lvl pi pg.deferred_ptrs.length 0 pages done with _ | prA
    · rw [hin] at h
      exact absurd h (by simp)
    obtain ⟨pagesA, doneA⟩ := prA
    rw [hin] at h
    dsimp only [] at h
    have hcA := passDps_CERT hin hl hok hlok hms hc
    have hstrA := passDps_pstrL hin
    obtain ⟨hlokA, hmsA⟩ := passDps_preserves hin hlok hms
    exact ih h hl (pagesOK_of_pstrL hstrA hok) hlokA hmsA hcA

theorem bfs_CERT {v : Nat → Option Nat} {roots : List Nat} :
    ∀ {fuel lvl : Nat} {pages : List col.cpage} {res : Nat × List col.cpage},
      col.bfs v fuel lvl pages = some res → 1 ≤ lvl →
      col.pagesOK pages → col.live_ok pages → col.marked_sound pages →
      col.CERT v roots pages → col.CERT v roots res.2 := by
  intro fuel
  induction fuel with
  | zero =>
    intro lvl pages res h hl hok hlok hms hc
    rw [col.bfs] at h
    exact absurd h (by simp)
  | succ f ih =>
    intro lvl pages res h hl hok hlok hms hc
    rw [col.bfs] at h
    rcases hpp : col.passPages v (lvl + 1) pages.length 0 pages true with _ | pr
    · rw [hpp] at h
      exact absurd h (by simp)
    obtain ⟨pages2, done⟩ := pr
    rw [hpp] at h
    dsimp only [] at h
    have hc2 := passPages_CERT hpp (by omega) hok hlok hms hc
    have hstr := passPages_pstrL hpp
    obtain ⟨h2lok, h2ms⟩ := passPages_preserves hpp hlok hms
    have h2ok := pagesOK_of_pstrL hstr hok
    cases done with
    | true =>
      rw [if_pos rfl] at h
      rw [← Option.some.inj h]
      exact hc2
    | false =>
      rw [if_neg (by simp)] at h
      exact ih h (by omega) h2ok h2lok h2ms hc2

theorem markPhase_CERT {h : col.heap} {pages3 : List col.cpage}
    (hmp : col.markPhase h = some pages3)
    (hlok : col.live_ok h.pages) (hpok : col.pagesOK h.pages) :
    col.CERT h.val h.roots pages3 := by
  rw [col.markPhase] at hmp
  rcases hmr : col.markRoots h.val 1 h.roots (h.pages.map col.resetPage) with _ | pages2
  · rw [hmr] at hmp
    exact absurd hmp (by simp)
  rw [hmr] at hmp
  dsimp only [] at hmp
  rcases hb : col.bfs h.val (col.totalDps pages2 + 2) 1 pages2 with _ | res
  · rw [hb] at hmp
    exact absurd hmp (by simp)
  rw [hb] at hmp
  dsimp only [] at hmp
  have hlokR := reset_live_ok hlok
  have hmsR := reset_sound h.pages
  have hpokR := pagesOK_reset hpok
  have hstrR := markRoots_pstrL hmr
  obtain ⟨hlok2, hms2⟩ := markRoots_preserves hmr hlokR hmsR
  have hc2 := markRoots_CERT hmr (Nat.le_refl 1) (fun r hr => hr)
    (reset_CERT h.val h.roots h.pages)
  have hc3 := bfs_CERT hb (Nat.le_refl 1) (pagesOK_of_pstrL hstrR hpokR) hlok2 hms2 hc2
  rw [Option.some.inj hmp] at hc3
  exact hc3

theorem contains_info_nir {g : gpage} {p : Nat} {w : gpage.contains_info_ret}
    (hci : g.contains_info p = some w)
    (hf : w.found = gpage.gpage_find_result.not_in_range) :
    g.contains p = false := by
  rw [gpage.contains_info] at hci
  by_cases hcont : g.contains p = true
  · rw [if_neg (fun hc => hc hcont)] at hci
    dsimp only [] at hci
    by_cases hiu : g.inuse.getD ((p - g.base) / g.min_alloc) false = true
    · rw [if_neg (fun hc => hc hiu)] at hci
      by_cases hst : g.starts.getD ((p - g.base) / g.min_alloc) false = true
      · rw [if_neg (fun hc => hc hst)] at hci
        rw [← Option.some.inj hci] at hf
        exact gpage.gpage_find_result.noConfusion hf
      · rw [if_pos hst] at hci
        by_cases hz : gpage.scan_back g.starts ((p - g.base) / g.min_alloc) = 0
        · rw [if_pos hz] at hci
          exact absurd hci (by simp)
        · rw [if_neg hz] at hci
          rw [← Option.some.inj hci] at hf
          exact gpage.gpage_find_result.noConfusion hf
    · rw [if_pos hiu] at hci
      rw [← Option.some.inj hci] at hf
      exact gpage.gpage_find_result.noConfusion hf
  · exact Bool.eq_false_iff.mpr hcont

theorem contains_info_of_not_contains {g : gpage} {p : Nat}
    (h : g.contains p = false) :
    g.contains_info p = some ⟨gpage.gpage_find_result.not_in_range, 0, 0⟩ := by
  rw [gpage.contains_info, if_pos ?_]
  rw [h]
  exact Bool.false_ne_true

theorem targetMarked_unique :
    ∀ {pages : List col.cpage}, col.disjExt pages →
      ∀ {pg : col.cpage} {p : Nat} {w : gpage.contains_info_ret}, pg ∈ pages →
        pg.page.contains p = true → pg.page.contains_info p = some w →
        col.targetMarked pages p = pg.live_starts.getD w.start_location false := by
  intro pages
  induction pages with
  | nil =>
    intro hd pg p w hpg
    exact absurd hpg (List.not_mem_nil _)
  | cons hd rest ih =>
    intro hdisj pg p w hpg hcont hci
    have hpw := List.pairwise_cons.mp hdisj
    rcases List.mem_cons.mp hpg with hx | hx
    · subst hx
      rw [col.targetMarked, hci]
      dsimp only []
      have hnr : ¬ w.found = gpage.gpage_find_result.not_in_range := by
        intro hf
        rw [contains_info_nir hci hf] at hcont
        exact Bool.noConfusion hcont
      rw [if_neg hnr]
    · have hhdf : hd.page.contains p = false := by
        rcases hb : hd.page.contains p with _ | _
        · rfl
        · have := hpw.1 pg hx p hb
          rw [this] at hcont
          exact Bool.noConfusion hcont
      rw [col.targetMarked, contains_info_of_not_contains hhdf]
      dsimp only []
      rw [if_pos rfl]
      exact ih hpw.2 hx hcont hci

theorem disjExt_unique :
    ∀ {pages : List col.cpage}, col.disjExt pages →
      ∀ {pg pg2 : col.cpage} {a : Nat}, pg ∈ pages → pg2 ∈ pages →
        pg.page.contains a = true → pg2.page.contains a = true → pg = pg2 := by
  intro pages
  induction pages with
  | nil =>
    intro hd pg pg2 a hpg
    exact absurd hpg (List.not_mem_nil _)
  | cons hd rest ih =>
    intro hdisj pg pg2 a hpg hpg2 hc1 hc2
    have hpw := List.pairwise_cons.mp hdisj
    rcases List.mem_cons.mp hpg with hx | hx
    · rcases List.mem_cons.mp hpg2 with hy | hy
      · rw [hx, hy]
      · rw [hx] at hc1
        have := hpw.1 pg2 hy a hc1
        rw [this] at hc2
        exact absurd hc2 (by simp)
    · rcases List.mem_cons.mp hpg2 with hy | hy
      · rw [hy] at hc2
        have := hpw.1 pg hx a hc2
        rw [this] at hc1
        exact absurd hc1 (by simp)
      · exact ih hpw.2 hx hy hc1 hc2

theorem disjExt_transfer :
    ∀ {pages pages2 : List col.cpage},
      List.Forall₂ (fun pg pg2 => ∀ a, pg2.page.contains a = pg.page.contains a)
        pages pages2 →
      col.disjExt pages → col.disjExt pages2 := by
  intro pages pages2 h
  induction h with
  | nil =>
    intro hd
    exact List.Pairwise.nil
  | @cons pg pg2 t t2 hr hrest ih =>
    intro hdisj
    have hpw := List.pairwise_cons.mp hdisj
    refine List.pairwise_cons.mpr ⟨?_, ih hpw.2⟩
    intro b2 hb2 a hc
    obtain ⟨b, hb, hbr⟩ := forall2_memr hrest hb2
    rw [hbr a]
    rw [hr a] at hc
    exact hpw.1 b hb a hc

theorem sweepPages_rel :
    ∀ {pages3 pages4 : List col.cpage} {evs : List col.event},
      col.live_ok pages3 → col.pagesOK pages3 →
      col.sweepPages pages3 = some (pages4, evs) →
      List.Forall₂ col.SWrel pages3 pages4 := by
  intro pages3
  induction pages3 with
  | nil =>
    intro pages4 evs hlok hok h
    rw [col.sweepPages] at h
    have hpd := Option.some.inj h
    rw [Prod.mk.injEq] at hpd
    rw [← hpd.1]
    exact List.Forall₂.nil
  | cons pg rest ih =>
    intro pages4 evs hlok hok h
    rw [col.sweepPages] at h
    rcases hsl : col.sweepLocs pg.live_starts pg.page.locations 0 pg.page
        pg.deferred_ptrs [] with _ | trip
    · rw [hsl] at h
      exact absurd h (by simp)
    obtain ⟨g2, dps2, evs1⟩ := trip
    rw [hsl] at h
    dsimp only [] at h
    rcases hrec : col.sweepPages rest with _ | pr
    · rw [hrec] at h
      exact absurd h (by simp)
    obtain ⟨rest2, evs2⟩ := pr
    rw [hrec] at h
    dsimp only [] at h
    have hpd := Option.some.inj h
    rw [Prod.mk.injEq] at hpd
    obtain ⟨hinv, hdall⟩ := hok pg (List.mem_cons_self _ _)
    obtain ⟨hswp, hmem⟩ := sweepLocs_run hinv hdall hsl
    rw [← hpd.1]
    refine List.Forall₂.cons ⟨rfl, hswp, hmem⟩ ?_
    exact ih (fun q hq => hlok q (List.mem_cons_of_mem _ hq))
      (fun q hq => hok q (List.mem_cons_of_mem _ hq)) hrec

theorem eraseFirstEmpty_none :
    ∀ {pages : List col.cpage}, col.eraseFirstEmpty pages = some none →
      ∀ pg ∈ pages, pg.page.is_empty = some false := by
  intro pages
  induction pages with
  | nil =>
    intro h pg hpg
    exact absurd hpg (List.not_mem_nil _)
  | cons pg rest ih =>
    intro h x hx
    rw [col.eraseFirstEmpty] at h
    rcases hie : pg.page.is_empty with _ | b
    · rw [hie] at h
      exact absurd h (by simp)
    rw [hie] at h
    rcases b with _ | _
    · dsimp only [] at h
      rcases hrec : col.eraseFirstEmpty rest with _ | o
      · rw [hrec] at h
        exact absurd h (by simp)
      rw [hrec] at h
      rcases o with _ | rest2
      · rcases List.mem_cons.mp hx with hy | hy
        · rw [hy, hie]
        · exact ih hrec x hy
      · dsimp only [] at h
        exact absurd (Option.some.inj h) (by simp)
    · dsimp only [] at h
      by_cases hd : pg.deferred_ptrs = []
      · rw [if_pos hd] at h
        exact absurd (Option.some.inj h) (by simp)
      · rw [if_neg hd] at h
        exact absurd h (by simp)

theorem eraseFirstEmpty_all_false :
    ∀ {pages : List col.cpage}, (∀ pg ∈ pages, pg.page.is_empty = some false) →
      col.eraseFirstEmpty pages = some none := by
  intro pages
  induction pages with
  | nil =>
    intro h
    rw [col.eraseFirstEmpty]
  | cons pg rest ih =>
    intro h
    rw [col.eraseFirstEmpty, h pg (List.mem_cons_self _ _)]
    dsimp only []
    rw [ih (fun q hq => h q (List.mem_cons_of_mem _ hq))]

theorem eraseFirstEmpty_erase :
    ∀ {pages pages2 : List col.cpage},
      col.eraseFirstEmpty pages = some (some pages2) →
      List.Sublist pages2 pages ∧
      (∀ pg ∈ pages, pg.deferred_ptrs ≠ [] → pg ∈ pages2) := by
  intro pages
  induction pages with
  | nil =>
    intro pages2 h
    rw [col.eraseFirstEmpty] at h
    exact absurd (Option.some.inj h) (by simp)
  | cons pg rest ih =>
    intro pages2 h
    rw [col.eraseFirstEmpty] at h
    rcases hie : pg.page.is_empty with _ | b
    · rw [hie] at h
      exact absurd h (by simp)
    rw [hie] at h
    rcases b with _ | _
    · dsimp only [] at h
      rcases hrec : col.eraseFirstEmpty rest with _ | o
      · rw [hrec] at h
        exact absurd h (by simp)
      rw [hrec] at h
      rcases o with _ | rest2
      · exact absurd (Option.some.inj h) (by simp)
      · dsimp only [] at h
        have hp2 : pg :: rest2 = pages2 := Option.some.inj (Option.some.inj h)
        obtain ⟨hsub, hkeep⟩ := ih hrec
        rw [← hp2]
        refine ⟨List.Sublist.cons₂ pg hsub, ?_⟩
        intro x hx hne
        rcases List.mem_cons.mp hx with hy | hy
        · rw [hy]
          exact List.mem_cons_self _ _
        · exact List.mem_cons_of_mem _ (hkeep x hy hne)
    · dsimp only [] at h
      by_cases hd : pg.deferred_ptrs = []
      · rw [if_pos hd] at h
        have hp2 : rest = pages2 := Option.some.inj (Option.some.inj h)
        rw [← hp2]
        refine ⟨List.sublist_cons_self pg rest, ?_⟩
        intro x hx hne
        rcases List.mem_cons.mp hx with hy | hy
        · rw [hy] at hne
          exact absurd hd hne
        · exact hy
      · rw [if_neg hd] at h
        exact absurd h (by simp)

theorem dropEmptyLoop_facts :
    ∀ {fuel : Nat} {pages pages5 : List col.cpage},
      col.dropEmptyLoop fuel pages = some pages5 →
      List.Sublist pages5 pages ∧
      (∀ pg ∈ pages, pg.deferred_ptrs ≠ [] → pg ∈ pages5) ∧
      col.eraseFirstEmpty pages5 = some none := by
  intro fuel
  induction fuel with
  | zero =>
    intro pages pages5 h
    rw [col.dropEmptyLoop] at h
    rcases he : col.eraseFirstEmpty pages with _ | o
    · rw [he] at h
      exact absurd h (by simp)
    rw [he] at h
    rcases o with _ | pages2
    · have hp := Option.some.inj h
      rw [← hp]
      exact ⟨List.Sublist.refl pages, fun pg hpg hne => hpg, he⟩
    · exact absurd h (by simp)
  | succ f ih =>
    intro pages pages5 h
    rw [col.dropEmptyLoop] at h
    rcases he : col.eraseFirstEmpty pages with _ | o
    · rw [he] at h
      exact absurd h (by simp)
    rw [he] at h
    rcases o with _ | pages2
    · have hp := Option.some.inj h
      rw [← hp]
      exact ⟨List.Sublist.refl pages, fun pg hpg hne => hpg, he⟩
    · dsimp only [] at h
      obtain ⟨hsub2, hkeep2, hend⟩ := ih h
      obtain ⟨hsub1, hkeep1⟩ := eraseFirstEmpty_erase he
      exact ⟨hsub2.trans hsub1, fun pg hpg hne => hkeep2 pg (hkeep1 pg hpg hne) hne, hend⟩

theorem dropEmptyLoop_noop {pages : List col.cpage}
    (h : col.eraseFirstEmpty pages = some none) :
    ∀ fuel, col.dropEmptyLoop fuel pages = some pages := by
  intro fuel
  cases fuel with
  | zero =>
    rw [col.dropEmptyLoop, h]
  | succ f =>
    rw [col.dropEmptyLoop, h]

theorem sweepLocs_noop {g : gpage} {live : List Bool}
    (hyp : ∀ i, (g.location_info i).1 = true → live.getD i false = true) :
    ∀ (left i : Nat) (dps : List col.dpRec) (evs : List col.event),
      col.sweepLocs live left i g dps evs = some (g, dps, evs) := by
  intro left
  induction left with
  | zero =>
    intro i dps evs
    rw [col.sweepLocs]
  | succ lf ih =>
    intro i dps evs
    rw [col.sweepLocs]
    rw [if_neg ?_]
    · exact ih (i + 1) dps evs
    · rintro ⟨h1, h2⟩
      rw [hyp i h1] at h2
      exact Bool.noConfusion h2

theorem sweepPages_noop :
    ∀ {pages : List col.cpage},
      (∀ pg ∈ pages, ∀ i, (pg.page.location_info i).1 = true →
        pg.live_starts.getD i false = true) →
      col.sweepPages pages = some (pages, []) := by
  intro pages
  induction pages with
  | nil =>
    intro hyp
    rw [col.sweepPages]
  | cons pg rest ih =>
    intro hyp
    rw [col.sweepPages]
    rw [sweepLocs_noop (hyp pg (List.mem_cons_self _ _)) pg.page.locations 0
      pg.deferred_ptrs []]
    dsimp only []
    rw [ih (fun q hq => hyp q (List.mem_cons_of_mem _ hq))]
    rfl

theorem nullOutDps_noop :
    ∀ {dps : List col.dpRec} {v : Nat → Option Nat},
      (∀ dp ∈ dps, dp.level ≠ 0) → col.nullOutDps dps v = (v, []) := by
  intro dps
  induction dps with
  | nil =>
    intro v hyp
    rw [col.nullOutDps]
  | cons dp rest ih =>
    intro v hyp
    rw [col.nullOutDps]
    rw [if_neg (hyp dp (List.mem_cons_self _ _))]
    exact ih (fun q hq => hyp q (List.mem_cons_of_mem _ hq))

theorem nullOutPages_noop :
    ∀ {pages : List col.cpage} {v : Nat → Option Nat},
      (∀ pg ∈ pages, ∀ dp ∈ pg.deferred_ptrs, dp.level ≠ 0) →
      col.nullOutPages pages v = (v, []) := by
  intro pages
  induction pages with
  | nil =>
    intro v hyp
    rw [col.nullOutPages]
  | cons pg rest ih =>
    intro v hyp
    rw [col.nullOutPages]
    rw [nullOutDps_noop (hyp pg (List.mem_cons_self _ _))]
    dsimp only []
    rw [ih (fun q hq => hyp q (List.mem_cons_of_mem _ hq))]
    rfl

theorem nullOutDps_keep {a : Nat} :
    ∀ {dps : List col.dpRec} {v : Nat → Option Nat},
      (∀ dp ∈ dps, dp.level = 0 → dp.addr ≠ a) →
      (col.nullOutDps dps v).1 a = v a := by
  intro dps
  induction dps with
  | nil =>
    intro v hyp
    rfl
  | cons dp rest ih =>
    intro v hyp
    rw [col.nullOutDps]
    by_cases hz : dp.level = 0
    · rw [if_pos hz]
      dsimp only []
      rw [ih (fun q hq => hyp q (List.mem_cons_of_mem _ hq))]
      rw [col.resetVal]
      rw [if_neg (fun he => hyp dp (List.mem_cons_self _ _) hz (by rw [he]))]
    · rw [if_neg hz]
      exact ih (fun q hq => hyp q (List.mem_cons_of_mem _ hq))

theorem nullOutPages_keep {a : Nat} :
    ∀ {pages : List col.cpage} {v : Nat → Option Nat},
      (∀ pg ∈ pages, ∀ dp ∈ pg.deferred_ptrs, dp.level = 0 → dp.addr ≠ a) →
      (col.nullOutPages pages v).1 a = v a := by
  intro pages
  induction pages with
  | nil =>
    intro v hyp
    rfl
  | cons pg rest ih =>
    intro v hyp
    rw [col.nullOutPages]
    dsimp only []
    rw [ih (fun q hq => hyp q (List.mem_cons_of_mem _ hq))]
    exact nullOutDps_keep (hyp pg (List.mem_cons_self _ _))

theorem forall2_swap {α β : Type} {R : α → β → Prop} :
    ∀ {l1 : List α} {l2 : List β}, List.Forall₂ R l1 l2 →
      List.Forall₂ (fun b a => R a b) l2 l1 := by
  intro l1 l2 h
  induction h with
  | nil => exact List.Forall₂.nil
  | cons hr hrest ih => exact List.Forall₂.cons hr ih

theorem forall2_map_left {α β γ : Type} {R : γ → β → Prop} {f : α → γ} :
    ∀ {l : List α} {l2 : List β}, List.Forall₂ R (l.map f) l2 →
      List.Forall₂ (fun a b => R (f a) b) l l2 := by
  intro l
  induction l with
  | nil =>
    intro l2 h
    cases h
    exact List.Forall₂.nil
  | cons a t ih =>
    intro l2 h
    rw [List.map_cons] at h
    cases h with
    | cons hr hrest => exact List.Forall₂.cons hr (ih hrest)

theorem dstrA_addr_map {dps dps2 : List col.dpRec} (h : col.dstrA dps dps2) :
    dps2.map col.dpRec.addr = dps.map col.dpRec.addr := by
  induction h with
  | nil => rfl
  | @cons dp dp2 t t2 hr hrest ih =>
    rw [List.map_cons, List.map_cons, hr.1, ih]

theorem pe_reset (pages : List col.cpage) :
    List.Forall₂ (fun a b : col.cpage => b.page = a.page) pages
      (pages.map col.resetPage) := by
  induction pages with
  | nil => exact List.Forall₂.nil
  | cons pg rest ih => exact List.Forall₂.cons rfl ih

theorem pe_of_pstrA {pages pages2 : List col.cpage} (h : col.pstrA pages pages2) :
    List.Forall₂ (fun a b : col.cpage => b.page = a.page) pages pages2 := by
  refine h.imp ?_
  rintro pg pg2 ⟨hpage, hlive, hdstr⟩
  exact hpage

theorem pe_trans {pages1 pages2 pages3 : List col.cpage}
    (h1 : List.Forall₂ (fun a b : col.cpage => b.page = a.page) pages1 pages2)
    (h2 : List.Forall₂ (fun a b : col.cpage => b.page = a.page) pages2 pages3) :
    List.Forall₂ (fun a b : col.cpage => b.page = a.page) pages1 pages3 := by
  refine forall2_comp ?_ h1 h2
  intro a b c hab hbc
  exact hbc.trans hab

theorem ce_of_pe {pages pages2 : List col.cpage}
    (h : List.Forall₂ (fun a b : col.cpage => b.page = a.page) pages pages2) :
    List.Forall₂ (fun a b : col.cpage =>
      ∀ x, b.page.contains x = a.page.contains x) pages pages2 := by
  refine h.imp ?_
  intro pg pg2 hpage x
  rw [hpage]

theorem ce_of_swF {pages3 pages4 : List col.cpage}
    (h : List.Forall₂ col.SWrel pages3 pages4) :
    List.Forall₂ (fun a b : col.cpage =>
      ∀ x, b.page.contains x = a.page.contains x) pages3 pages4 := by
  refine h.imp ?_
  rintro pg3 pg4 ⟨hlv, hswp, hmem⟩
  intro x
  exact contains_congr hswp.2.1 hswp.2.2.1 x

theorem valOK_congr {p : Nat} {pages pages2 : List col.cpage}
    (h : List.Forall₂ (fun a b : col.cpage => b.page = a.page) pages pages2)
    (hv : col.valOK pages p) : col.valOK pages2 p := by
  intro pg2 hpg2
  obtain ⟨pg, hpg, hpage⟩ := forall2_memr h hpg2
  rw [hpage]
  exact hv pg hpg

theorem markTransfer {pages3 pages5 pages3f : List col.cpage}
    {pgT3 pgT4 : col.cpage} {p : Nat} {w : gpage.contains_info_ret}
    (hok3 : col.pagesOK pages3)
    (hdisj2 : col.disjExt pages3f)
    (hstr2 : col.pstrA (pages5.map col.resetPage) pages3f)
    (hT3 : pgT3 ∈ pages3) (hT4 : pgT4 ∈ pages5)
    (hswr : col.SWrel pgT3 pgT4)
    (hci3 : pgT3.page.contains_info p = some w)
    (halloc : w.found = gpage.gpage_find_result.in_range_allocated_middle ∨
      w.found = gpage.gpage_find_result.in_range_allocated_start)
    (hbitT : pgT3.live_starts.getD w.start_location false = true)
    (htm : col.targetMarked pages3f p = true) :
    ∃ pg', pg' ∈ pages3f ∧ pg'.page = pgT4.page ∧
      pg'.live_starts.getD w.start_location false = true := by
  have hinv3 := (hok3 pgT3 hT3).1
  have hswp := hswr.2.1
  have hci4 : pgT4.page.contains_info p = some w :=
    sweep_contains_info_stable hinv3 hswp p w hci3 halloc hbitT
  have hcont3 : pgT3.page.contains p = true := (contains_info_allocated hci3 halloc).1
  have hcont4 : pgT4.page.contains p = true := by
    rw [contains_congr hswp.2.1 hswp.2.2.1]
    exact hcont3
  obtain ⟨pg', hpg', hrel⟩ :=
    forall2_meml hstr2 (List.mem_map_of_mem col.resetPage hT4)
  have hpage' : pg'.page = pgT4.page := hrel.1
  have hcont' : pg'.page.contains p = true := by
    rw [hpage']
    exact hcont4
  have hci' : pg'.page.contains_info p = some w := by
    rw [hpage']
    exact hci4
  have huniq := targetMarked_unique hdisj2 hpg' hcont' hci'
  rw [huniq] at htm
  exact ⟨pg', hpg', hpage', htm⟩

theorem reach_transfer {v1 : Nat → Option Nat} {roots : List Nat}
    {pages3 pages4 pages5 pages3f : List col.cpage}
    (hok3 : col.pagesOK pages3)
    (hdisj3 : col.disjExt pages3) (hprm3 : col.PRM pages3)
    (hswF : List.Forall₂ col.SWrel pages3 pages4)
    (hkeep5 : ∀ pg ∈ pages4, pg.deferred_ptrs ≠ [] → pg ∈ pages5)
    (hroots3 : ∀ r ∈ roots, ∀ pg ∈ pages3, pg.page.contains r = false)
    (hdisj2 : col.disjExt pages3f)
    (hstr2 : col.pstrA (pages5.map col.resetPage) pages3f)
    (hmarks2 : ∀ r ∈ roots, col.targetMarkedOpt pages3f
      ((col.nullOutPages pages3 v1).1 r) = true)
    (hSA2 : col.SAfull (col.nullOutPages pages3 v1).1 pages3f)
    (hPRM2 : col.PRM pages3f) :
    ∀ {g : gpage} {S : Nat}, col.ReachT v1 roots pages3 g S →
      ∀ pg3, pg3 ∈ pages3 → pg3.page = g → pg3.live_starts.getD S false = true →
      ∀ pg4, pg4 ∈ pages5 → col.SWrel pg3 pg4 →
      ∃ pg', pg' ∈ pages3f ∧ pg'.page = pg4.page ∧
        pg'.live_starts.getD S false = true := by
  intro g S hreach
  induction hreach with
  | @root r p pgH w hr hv hpgH hci hf =>
    intro pg3 hpg3 hpgeq hbit pg4 hpg4 hswr
    have hcontH : pgH.page.contains p = true := (contains_info_allocated hci hf).1
    have hcont3 : pg3.page.contains p = true := by
      rw [hpgeq]
      exact hcontH
    have hpe : pg3 = pgH := disjExt_unique hdisj3 hpg3 hpgH hcont3 hcontH
    have hkeepr : (col.nullOutPages pages3 v1).1 r = v1 r := by
      refine nullOutPages_keep ?_
      intro pgx hpgx dpx hdpx hz0 heqa
      obtain ⟨hcx1, hcx2⟩ := (hok3 pgx hpgx).2 dpx hdpx
      rw [heqa] at hcx1
      have hrr := hroots3 r hr pgx hpgx
      rw [hrr] at hcx1
      exact Bool.noConfusion hcx1
    have htm0 := hmarks2 r hr
    rw [hkeepr, hv] at htm0
    have hci3 : pg3.page.contains_info p = some w := by
      rw [hpe]
      exact hci
    exact markTransfer hok3 hdisj2 hstr2 hpg3 hpg4 hswr hci3 hf hbit htm0
  | @step g0 S0 pgS dp w2 p pgT w hR hpgS hpgG hbitS hdp hci2 hf2 hS0 hv2 hpgT hciT hfT ih =>
    intro pg3 hpg3 hpgeq hbit pg4 hpg4 hswr
    have hcont3dp : pgS.page.contains dp.addr = true :=
      (contains_info_allocated hci2 hf2).1
    have hdm : col.dpMarked pgS.page pgS.live_starts dp := by
      show pgS.live_starts.getD
        (col.ownerStart pgS.page ((dp.addr - pgS.page.base) / pgS.page.min_alloc))
          false = true
      have hws := (contains_info_allocated hci2 hf2).2.2.2
      rw [← hws, hS0]
      exact hbitS
    obtain ⟨pgS4, hpgS4, hswrS⟩ := forall2_meml hswF hpgS
    have hdp4 : dp ∈ pgS4.deferred_ptrs := (hswrS.2.2 dp).mpr ⟨hdp, hdm⟩
    have hpgS5 : pgS4 ∈ pages5 := hkeep5 pgS4 hpgS4 (List.ne_nil_of_mem hdp4)
    obtain ⟨pgS', hpgS', hpageS', hbitS'⟩ := ih pgS hpgS hpgG hbitS pgS4 hpgS5 hswrS
    obtain ⟨pgSf, hpgSf, hrelS⟩ :=
      forall2_meml hstr2 (List.mem_map_of_mem col.resetPage hpgS5)
    have hpageSf : pgSf.page = pgS4.page := hrelS.1
    have hcont4dp : pgS4.page.contains dp.addr = true := by
      rw [contains_congr hswrS.2.1.2.1 hswrS.2.1.2.2.1]
      exact hcont3dp
    have hcontSf : pgSf.page.contains dp.addr = true := by
      rw [hpageSf]
      exact hcont4dp
    have hcontS' : pgS'.page.contains dp.addr = true := by
      rw [hpageS']
      exact hcont4dp
    have hpeq2 : pgSf = pgS' := disjExt_unique hdisj2 hpgSf hpgS' hcontSf hcontS'
    have hdpr : ({ dp with level := 0 } : col.dpRec) ∈
        (col.resetPage pgS4).deferred_ptrs := by
      show _ ∈ pgS4.deferred_ptrs.map _
      exact List.mem_map_of_mem _ hdp4
    obtain ⟨dp2, hdp2, haddr2, hlev2⟩ := forall2_meml hrelS.2.2 hdpr
    have haddr2x : dp2.addr = dp.addr := haddr2
    have hinvS := (hok3 pgS hpgS).1
    have hci4dp : pgS4.page.contains_info dp.addr = some w2 :=
      sweep_contains_info_stable hinvS hswrS.2.1 dp.addr w2 hci2 hf2
        (by rw [hS0]; exact hbitS)
    have hciSf : pgSf.page.contains_info dp2.addr = some w2 := by
      rw [haddr2x, hpageSf]
      exact hci4dp
    have hbitSf : pgSf.live_starts.getD w2.start_location false = true := by
      rw [hpeq2, hS0]
      exact hbitS'
    have hnz2 : dp2.level ≠ 0 := hPRM2 pgSf hpgSf dp2 hdp2 w2 hciSf hf2 hbitSf
    have htmA := hSA2 pgSf hpgSf dp2 hdp2 hnz2
    have hkeepd : (col.nullOutPages pages3 v1).1 dp.addr = v1 dp.addr := by
      refine nullOutPages_keep ?_
      intro pgx hpgx dpx hdpx hz0 heqa
      obtain ⟨hcx1, hcx2⟩ := (hok3 pgx hpgx).2 dpx hdpx
      have hcontx : pgx.page.contains dp.addr = true := by
        rw [← heqa]
        exact hcx1
      have hpex : pgx = pgS := disjExt_unique hdisj3 hpgx hpgS hcontx hcont3dp
      rw [hpex] at hdpx
      have hcix : pgS.page.contains_info dpx.addr = some w2 := by
        rw [heqa]
        exact hci2
      have hnzx := hprm3 pgS hpgS dpx hdpx w2 hcix hf2 (by rw [hS0]; exact hbitS)
      exact hnzx hz0
    rw [haddr2x, hkeepd, hv2] at htmA
    have hcontT : pgT.page.contains p = true := (contains_info_allocated hciT hfT).1
    have hcont3 : pg3.page.contains p = true := by
      rw [hpgeq]
      exact hcontT
    have hpe : pg3 = pgT := disjExt_unique hdisj3 hpg3 hpgT hcont3 hcontT
    have hci3T : pg3.page.contains_info p = some w := by
      rw [hpe]
      exact hciT
    exact markTransfer hok3 hdisj2 hstr2 hpg3 hpg4 hswr hci3T hfT hbit htmA

/-- C7: For every heap state satisfying the collector's invariants, running
`collect()` twice with no intervening mutation yields the same heap as
running it once: the second `collect()` emits no events (it destroys no
objects and nulls no pointers), keeps every page with its storage and its
interior records (same `gpage`s, same record addresses), and leaves every
root and every stored pointer value unchanged. -/
theorem collect_idempotent (h h2 : col.heap) (tr : List col.event)
    (hinv : col.colINV h) (hcol : col.collect h = some (h2, tr)) :
    ∃ h3 : col.heap, col.collect h2 = some (h3, []) ∧ h3.roots = h2.roots ∧
      h3.val = h2.val ∧
      List.Forall₂ (fun pg3 pg2 : col.cpage => pg3.page = pg2.page ∧
        pg3.deferred_ptrs.map col.dpRec.addr = pg2.deferred_ptrs.map col.dpRec.addr)
        h3.pages h2.pages := by
  obtain ⟨hlok, hpok, hdisj, hroots, hv⟩ := hinv
  rw [col.collect] at hcol
  rcases hmp : col.markPhase h with _ | pages3
  · rw [hmp] at hcol
    exact absurd hcol (by simp)
  rw [hmp] at hcol
  dsimp only [] at hcol
  rcases hsw : col.sweepPages pages3 with _ | pr4
  · rw [hsw] at hcol
    exact absurd hcol (by simp)
  obtain ⟨pages4, dtors⟩ := pr4
  rw [hsw] at hcol
  dsimp only [] at hcol
  rcases hde : col.dropEmptyLoop pages4.length pages4 with _ | pages5
  · rw [hde] at hcol
    exact absurd hcol (by simp)
  rw [hde] at hcol
  dsimp only [] at hcol
  have hpd := Option.some.inj hcol
  rw [Prod.mk.injEq] at hpd
  have hh2e : h2 = ⟨pages5, h.roots, (col.nullOutPages pages3 h.val).1⟩ := hpd.1.symm
  rw [hh2e]
  obtain ⟨hstrA1, hmarks1, hSA1, hPRM1, hlok3, hms3, hok3⟩ := markPhase_full hmp hlok hpok
  have hcert3 := markPhase_CERT hmp hlok hpok
  have hpe13 : List.Forall₂ (fun a b : col.cpage => b.page = a.page) h.pages pages3 :=
    pe_trans (pe_reset h.pages) (pe_of_pstrA hstrA1)
  have hdisj3 : col.disjExt pages3 := disjExt_transfer (ce_of_pe hpe13) hdisj
  have hroots3 : ∀ r ∈ h.roots, ∀ pg ∈ pages3, pg.page.contains r = false := by
    intro r hr pg3 hpg3
    obtain ⟨pg0, hpg0, hpageq⟩ := forall2_memr hpe13 hpg3
    rw [hpageq]
    exact hroots r hr pg0 hpg0
  have hval3 : ∀ a p, h.val a = some p → col.valOK pages3 p :=
    fun a p hp => valOK_congr hpe13 (hv a p hp)
  have hswF := sweepPages_rel hlok3 hok3 hsw
  obtain ⟨hsub5, hkeep5, hend5⟩ := dropEmptyLoop_facts hde
  have hmem54 : ∀ pg ∈ pages5, pg ∈ pages4 := fun pg hpg => hsub5.subset hpg
  have hmem53 : ∀ pg5 ∈ pages5, ∃ pg3 ∈ pages3, col.SWrel pg3 pg5 :=
    fun pg5 h5 => forall2_memr hswF (hmem54 pg5 h5)
  have hlok5 : col.live_ok pages5 := by
    intro pg5 hpg5
    obtain ⟨pg3, hpg3, hswr⟩ := hmem53 pg5 hpg5
    obtain ⟨hl3a, hl3b, hl3c⟩ := hlok3 pg3 hpg3
    refine ⟨?_, ?_, ?_⟩
    · rw [hswr.1, hl3a]
      exact (locations_congr hswr.2.1.2.2.1 hswr.2.1.2.2.2.1).symm
    · rw [hswr.2.1.2.2.2.1]
      exact hl3b
    · rw [hswr.2.1.2.2.2.1, hswr.2.1.2.2.1]
      exact hl3c
  have hpok5 : col.pagesOK pages5 := by
    intro pg5 hpg5
    obtain ⟨pg3, hpg3, hswr⟩ := hmem53 pg5 hpg5
    refine ⟨hswr.2.1.1, ?_⟩
    intro dp hdp
    obtain ⟨hdp3, hdm⟩ := (hswr.2.2 dp).mp hdp
    obtain ⟨hc3, hi3⟩ := (hok3 pg3 hpg3).2 dp hdp3
    constructor
    · rw [contains_congr hswr.2.1.2.1 hswr.2.1.2.2.1]
      exact hc3
    · have hcell : (dp.addr - pg5.page.base) / pg5.page.min_alloc =
          (dp.addr - pg3.page.base) / pg3.page.min_alloc := by
        rw [hswr.2.1.2.1, hswr.2.1.2.2.2.1]
      rw [hcell]
      exact (hswr.2.1.2.2.2.2.2 _).mpr ⟨hi3, Or.inl hdm⟩
  have hdisj4 := disjExt_transfer (ce_of_swF hswF) hdisj3
  have hdisj5 : col.disjExt pages5 := List.Pairwise.sublist hsub5 hdisj4
  have hv2r : ∀ r ∈ h.roots, (col.nullOutPages pages3 h.val).1 r = h.val r := by
    intro r hr
    refine nullOutPages_keep ?_
    intro pgx hpgx dpx hdpx hz0 heqa
    obtain ⟨hcx1, hcx2⟩ := (hok3 pgx hpgx).2 dpx hdpx
    rw [heqa] at hcx1
    rw [hroots3 r hr pgx hpgx] at hcx1
    exact Bool.noConfusion hcx1
  have hvalOK5 : ∀ p, col.valOK pages3 p → col.targetMarked pages3 p = true →
      col.valOK pages5 p := by
    intro p hval htm pg5 hpg5 hcont5
    obtain ⟨pg3, hpg3, hswr⟩ := hmem53 pg5 hpg5
    have hcont3 : pg3.page.contains p = true := by
      rw [← contains_congr hswr.2.1.2.1 hswr.2.1.2.2.1]
      exact hcont5
    have hi3 := hval pg3 hpg3 hcont3
    obtain ⟨w, hci, hf⟩ := contains_info_of_alloc (hok3 pg3 hpg3).1 hcont3 hi3
    have huq := targetMarked_unique hdisj3 hpg3 hcont3 hci
    rw [huq] at htm
    have hws := (contains_info_allocated hci hf).2.2.2
    have hcell : (p - pg5.page.base) / pg5.page.min_alloc =
        (p - pg3.page.base) / pg3.page.min_alloc := by
      rw [hswr.2.1.2.1, hswr.2.1.2.2.2.1]
    rw [hcell]
    refine (hswr.2.1.2.2.2.2.2 _).mpr ⟨hi3, Or.inl ?_⟩
    rw [← hws]
    exact htm
  have hkeepdp : ∀ pg3 ∈ pages3, ∀ dp ∈ pg3.deferred_ptrs,
      col.dpMarked pg3.page pg3.live_starts dp →
      (col.nullOutPages pages3 h.val).1 dp.addr = h.val dp.addr := by
    intro pg3 hpg3 dp hdp3 hdm
    obtain ⟨hc3, hi3⟩ := (hok3 pg3 hpg3).2 dp hdp3
    obtain ⟨w2, hci2, hf2⟩ := contains_info_of_alloc (hok3 pg3 hpg3).1 hc3 hi3
    have hws2 := (contains_info_allocated hci2 hf2).2.2.2
    have hbit2 : pg3.live_starts.getD w2.start_location false = true := by
      rw [hws2]
      exact hdm
    refine nullOutPages_keep ?_
    intro pgx hpgx dpx hdpx hz0 heqa
    obtain ⟨hcx1, hcx2⟩ := (hok3 pgx hpgx).2 dpx hdpx
    have hcontx : pgx.page.contains dp.addr = true := by
      rw [← heqa]
      exact hcx1
    have hpex : pgx = pg3 := disjExt_unique hdisj3 hpgx hpg3 hcontx hc3
    rw [hpex] at hdpx
    have hcix : pg3.page.contains_info dpx.addr = some w2 := by
      rw [heqa]
      exact hci2
    exact hPRM1 pg3 hpg3 dpx hdpx w2 hcix hf2 hbit2 hz0
  have hsurvnz : ∀ pg3 ∈ pages3, ∀ dp ∈ pg3.deferred_ptrs,
      col.dpMarked pg3.page pg3.live_starts dp → dp.level ≠ 0 := by
    intro pg3 hpg3 dp hdp3 hdm
    obtain ⟨hc3, hi3⟩ := (hok3 pg3 hpg3).2 dp hdp3
    obtain ⟨w2, hci2, hf2⟩ := contains_info_of_alloc (hok3 pg3 hpg3).1 hc3 hi3
    have hws2 := (contains_info_allocated hci2 hf2).2.2.2
    have hbit2 : pg3.live_starts.getD w2.start_location false = true := by
      rw [hws2]
      exact hdm
    exact hPRM1 pg3 hpg3 dp hdp3 w2 hci2 hf2 hbit2
  have hvr2 : ∀ r ∈ h.roots, ∀ p, (col.nullOutPages pages3 h.val).1 r = some p →
      col.valOK pages5 p := by
    intro r hr p hp
    rw [hv2r r hr] at hp
    have htm := hmarks1 r hr
    rw [hp] at htm
    exact hvalOK5 p (hval3 r p hp) htm
  have hvd2 : ∀ pg5 ∈ pages5, ∀ dp ∈ pg5.deferred_ptrs, ∀ p,
      (col.nullOutPages pages3 h.val).1 dp.addr = some p →
      col.valOK pages5 p := by
    intro pg5 hpg5 dp hdp p hp
    obtain ⟨pg3, hpg3, hswr⟩ := hmem53 pg5 hpg5
    obtain ⟨hdp3, hdm⟩ := (hswr.2.2 dp).mp hdp
    rw [hkeepdp pg3 hpg3 dp hdp3 hdm] at hp
    have htm := hSA1 pg3 hpg3 dp hdp3 (hsurvnz pg3 hpg3 dp hdp3 hdm)
    rw [hp] at htm
    exact hvalOK5 p (hval3 dp.addr p hp) htm
  obtain ⟨pages3f, hmp2⟩ := markPhase_isSome
    (h := ⟨pages5, h.roots, (col.nullOutPages pages3 h.val).1⟩) hlok5 hpok5 hvr2 hvd2
  obtain ⟨hstr2, hmarks2, hSA2, hPRM2, hlok3f, hms3f, hok3f⟩ :=
    markPhase_full hmp2 hlok5 hpok5
  have hpe5f : List.Forall₂ (fun a b : col.cpage => b.page = a.page) pages5 pages3f :=
    pe_trans (pe_reset pages5) (pe_of_pstrA hstr2)
  have hdisj2 : col.disjExt pages3f := disjExt_transfer (ce_of_pe hpe5f) hdisj5
  have hcomp : ∀ pg' ∈ pages3f, ∀ S, pg'.page.starts.getD S false = true →
      pg'.live_starts.getD S false = true := by
    intro pg' hpg' S hst
    obtain ⟨pgR, hpgR, hrel⟩ := forall2_memr hstr2 hpg'
    obtain ⟨pg5, hpg5, hR5⟩ := List.mem_map.mp hpgR
    have hpage5 : pg'.page = pg5.page := by
      rw [hrel.1, ← hR5]
      rfl
    obtain ⟨pg3, hpg3, hswr⟩ := hmem53 pg5 hpg5
    have hst5 : pg5.page.starts.getD S false = true := by
      rw [← hpage5]
      exact hst
    obtain ⟨hst3, hdisjc⟩ := (hswr.2.1.2.2.2.2.1 S).mp hst5
    have hSlt : S < pg3.page.locations := by
      have hlen5 : pg5.page.starts.length = pg5.page.locations := hswr.2.1.1.2.1
      have hlt := getD_true_lt_length hst5
      rw [hlen5, locations_congr hswr.2.1.2.2.1 hswr.2.1.2.2.2.1] at hlt
      exact hlt
    have hlive3 : pg3.live_starts.getD S false = true := by
      rcases hdisjc with hc | hc
      · exact hc
      · omega
    have hreach := hcert3 pg3 hpg3 S hlive3
    obtain ⟨pg'', hpg'', hpage'', hbit''⟩ := reach_transfer hok3 hdisj3 hPRM1 hswF
      hkeep5 hroots3 hdisj2 hstr2 hmarks2 hSA2 hPRM2 hreach pg3 hpg3 rfl hlive3
      pg5 hpg5 hswr
    have hCpos : 0 < pg3.page.min_alloc := (hlok3 pg3 hpg3).2.1
    have htot := total_eq_locations_mul hCpos (hlok3 pg3 hpg3).2.2
    have hconta3 : pg3.page.contains (pg3.page.base + S * pg3.page.min_alloc) = true := by
      refine decide_eq_true ?_
      constructor
      · omega
      · have hmul : (S + 1) * pg3.page.min_alloc ≤
            pg3.page.locations * pg3.page.min_alloc :=
          Nat.mul_le_mul_right _ (by omega)
        rw [Nat.succ_mul] at hmul
        omega
    have hconta5 : pg5.page.contains (pg3.page.base + S * pg3.page.min_alloc) = true := by
      rw [contains_congr hswr.2.1.2.1 hswr.2.1.2.2.1]
      exact hconta3
    have hconta1 : pg'.page.contains (pg3.page.base + S * pg3.page.min_alloc) = true := by
      rw [hpage5]
      exact hconta5
    have hconta2 : pg''.page.contains (pg3.page.base + S * pg3.page.min_alloc) = true := by
      rw [hpage'']
      exact hconta5
    have hpe2 : pg'' = pg' := disjExt_unique hdisj2 hpg'' hpg' hconta2 hconta1
    rw [← hpe2]
    exact hbit''
  have hnz3f : ∀ pg' ∈ pages3f, ∀ dp2 ∈ pg'.deferred_ptrs, dp2.level ≠ 0 := by
    intro pg' hpg' dp2 hdp2
    obtain ⟨hinvf, hdallf⟩ := hok3f pg' hpg'
    obtain ⟨hcf, hif⟩ := hdallf dp2 hdp2
    obtain ⟨w2, hci2, hf2⟩ := contains_info_of_alloc hinvf hcf hif
    have hws := (contains_info_allocated hci2 hf2).2.2.2
    have host := (ownerStart_spec hinvf hif).1
    have hsts : pg'.page.starts.getD w2.start_location false = true := by
      rw [hws]
      exact host
    exact hPRM2 pg' hpg' dp2 hdp2 w2 hci2 hf2 (hcomp pg' hpg' w2.start_location hsts)
  have hsw2 : col.sweepPages pages3f = some (pages3f, []) := by
    refine sweepPages_noop ?_
    intro pg' hpg' i hsti
    exact hcomp pg' hpg' i hsti
  have hie3f : ∀ pg' ∈ pages3f, pg'.page.is_empty = some false := by
    intro pg' hpg'
    obtain ⟨pg5, hpg5, hpageq⟩ := forall2_memr hpe5f hpg'
    rw [hpageq]
    exact eraseFirstEmpty_none hend5 pg5 hpg5
  have hde2 := dropEmptyLoop_noop (eraseFirstEmpty_all_false hie3f) pages3f.length
  have hno2 : col.nullOutPages pages3f (col.nullOutPages pages3 h.val).1 =
      ((col.nullOutPages pages3 h.val).1, []) := nullOutPages_noop hnz3f
  refine ⟨⟨pages3f, h.roots, (col.nullOutPages pages3 h.val).1⟩, ?_, rfl, rfl, ?_⟩
  · rw [col.collect, hmp2]
    dsimp only []
    rw [hsw2]
    dsimp only []
    rw [hde2]
    dsimp only []
    rw [hno2]
    rfl
  · refine forall2_swap ((forall2_map_left hstr2).imp ?_)
    rintro pg5 pg' ⟨hpage, hlive, hdstr⟩
    refine ⟨hpage, ?_⟩
    rw [dstrA_addr_map hdstr]
    show (pg5.deferred_ptrs.map fun dp => { dp with level := 0 }).map col.dpRec.addr =
      pg5.deferred_ptrs.map col.dpRec.addr
    rw [List.map_map]
    rfl

theorem exampleHeap_colINV : col.colINV col.exampleHeap := by
  refine ⟨?_, ?_, ?_, ?_, ?_⟩
  · intro pg hpg
    rw [List.mem_singleton.mp hpg]
    exact ⟨by decide, by decide, by decide⟩
  · intro pg hpg
    rw [List.mem_singleton.mp hpg]
    refine ⟨⟨by decide, by decide, by decide, by decide, ?_, ?_⟩, ?_⟩
    · intro i hst
      rcases i with _ | i
      · decide
      · rcases i with _ | i
        · decide
        · exact Bool.noConfusion hst
    · intro i hin
      rcases i with _ | i
      · refine ⟨0, Nat.le_refl 0, by decide, ?_⟩
        intro k h1 h2
        have hk : k = 0 := by omega
        rw [hk]
        decide
      · rcases i with _ | i
        · refine ⟨1, Nat.le_refl 1, by decide, ?_⟩
          intro k h1 h2
          have hk : k = 1 := by omega
          rw [hk]
          decide
        · exact absurd hin (by exact fun hc => Bool.noConfusion hc)
    · intro dp hdp
      rw [List.mem_singleton.mp hdp]
      exact ⟨by decide, by decide⟩
  · refine List.Pairwise.cons ?_ List.Pairwise.nil
    intro b hb
    exact absurd hb (List.not_mem_nil _)
  · intro r hr pg hpg
    rw [List.mem_singleton.mp hr, List.mem_singleton.mp hpg]
    decide
  · intro a p hp
    have hpq : col.exampleVal a = some p := hp
    rw [col.exampleVal] at hpq
    by_cases h50 : a = 50
    · rw [if_pos h50] at hpq
      have hpv := Option.some.inj hpq
      intro pg hpg hcont
      rw [List.mem_singleton.mp hpg, ← hpv]
      decide
    · rw [if_neg h50] at hpq
      by_cases h1005 : a = 1005
      · rw [if_pos h1005] at hpq
        have hpv := Option.some.inj hpq
        intro pg hpg hcont
        rw [List.mem_singleton.mp hpg, ← hpv]
        decide
      · rw [if_neg h1005] at hpq
        exact absurd hpq (by simp)

/-- Witness for the idempotence theorem at the concrete collection state:
the first `collect` destroys the unreachable allocation, and the second
`collect` is observably a no-op. -/
theorem collect_idempotent_witness :
    col.colINV col.exampleHeap ∧
    col.collect col.exampleHeap = some (col.exampleHeap2, col.exampleTrace) ∧
    ∃ h3 : col.heap, col.collect col.exampleHeap2 = some (h3, []) ∧
      h3.roots = col.exampleHeap2.roots ∧ h3.val = col.exampleHeap2.val ∧
      List.Forall₂ (fun pg3 pg2 : col.cpage => pg3.page = pg2.page ∧
        pg3.deferred_ptrs.map col.dpRec.addr = pg2.deferred_ptrs.map col.dpRec.addr)
        h3.pages col.exampleHeap2.pages := by
  refine ⟨exampleHeap_colINV, rfl, ?_⟩
  exact collect_idempotent col.exampleHeap col.exampleHeap2 col.exampleTrace
    exampleHeap_colINV rfl

/-! ### C10 — deferred_ptr postfix increment -/

/-- C10: for every deferred_ptr with a non-null raw pointer on which the
increment is permitted, `p++` returns the already-incremented pointer —
the returned value equals the new state of `p`, its raw field has advanced
by one element (`sizeof(T)` bytes), and (for a nonempty element type) it
differs from the prior value, unlike standard postfix-increment semantics;
hence `*p++` reads the element after the original position. -/
theorem inc_post_returns_incremented (szT : Nat) (dp : deferred_ptr) (a : Nat)
    (hp : dp.p = some a) (hsz : 0 < szT) :
    ∃ ret st, deferred_ptr.inc_post szT dp = some (ret, st) ∧ ret = st ∧
      ret.p = some (a + szT) ∧ ret ≠ dp := by
  refine ⟨{ dp with p := some (a + 1 * szT) }, { dp with p := some (a + 1 * szT) },
    ?_, rfl, by rw [one_mul], ?_⟩
  · rw [deferred_ptr.inc_post, deferred_ptr.plus_eq, hp]
  · intro he
    have hpe := congrArg deferred_ptr.p he
    rw [hp, one_mul] at hpe
    have : a + szT = a := Option.some.inj hpe
    omega

/-- C10 witness: a concrete attached pointer at address 100 with 4-byte
elements. -/
theorem inc_post_returns_incremented_witness :
    ∃ ret st, deferred_ptr.inc_post 4 ⟨some 1, some 100⟩ = some (ret, st) ∧
      ret = st ∧ ret.p = some (100 + 4) ∧ ret ≠ ⟨some 1, some 100⟩ :=
  inc_post_returns_incremented 4 ⟨some 1, some 100⟩ 100 rfl (by decide)

end Gcpp
